import Mathlib

/-!
Verification of the golang-yaml core (scanner, parser, emitter, merger)
against its natural-language specification.

The Go sources are shallowly embedded: the polymorphic `ast.Node` interface
becomes an inductive tree, the stateful scanner becomes explicit state
passing over a byte list, loops become fuel-indexed recursion, and fallible
operations return `Except String`.  Go bytes are modelled as `Nat` values
below 256; Go strings as Lean `String`s whose characters stand for single
bytes (all concrete inputs used in theorems are ASCII, where the two views
coincide byte for byte).

Naming follows the source: `cloneNode` embeds `(ast.Node).Clone`,
`mergeNodesRecursive` embeds the function of the same name in merge.go,
`encodeNode`/`encodeScalar`/`encodeSequence`/`encodeMapping` embed the
encoder methods, `scanNext` and its helpers embed scanner.go, and
`parseValue`/`parseMapping`/`parseSequence`/... embed parser.go.
-/

namespace GY

/-- Byte-level view of source positions, mirroring `ast.Position` and the
scanner's `(line, column, offset)` counters (they are only ever incremented
or reset to 1, so `Nat` is faithful to the Go `int` fields). -/
structure Position where
  line : Nat
  column : Nat
  offset : Nat
deriving Repr, DecidableEq

/-- Mirrors `ast.Comment`: five string slots. -/
structure Comment where
  headComment : String
  lineComment : String
  footComment : String
  keyComment : String
  valueComment : String
deriving Repr, DecidableEq

/-- The zero `ast.Comment` value. -/
def emptyComment : Comment := ⟨"", "", "", "", ""⟩

/-- Mirrors the shared `ast.baseNode` header (tag, comment, anchor, pos). -/
structure Meta where
  tag : String
  comment : Comment
  anchor : String
  pos : Position
deriving Repr, DecidableEq

/-- The zero `ast.baseNode` value, as produced by `&ast.Scalar{...}` etc. -/
def emptyMeta : Meta := ⟨"", emptyComment, "", ⟨0, 0, 0⟩⟩

/-- Mirrors `ast.ScalarStyle`. -/
inductive ScalarStyle where
  | plain
  | singleQuoted
  | doubleQuoted
  | literal
  | folded
  | tagged
deriving Repr, DecidableEq

/-- Mirrors `ast.CollectionStyle`. -/
inductive CollectionStyle where
  | block
  | flow
deriving Repr, DecidableEq

/-- Mirrors `ast.NodeKind`. -/
inductive NodeKind where
  | documentNode
  | scalarNode
  | mappingNode
  | sequenceNode
  | aliasNode
deriving Repr, DecidableEq

/-- The node tree, embedding the `ast.Node` interface and its five concrete
types.  A mapping entry `*ast.MappingEntry{Key, Value, Comment}` is embedded
as the triple `(key, value, comment)`.  Nil interface values do not occur in
this model: the embedded trees are the nil-free ones (the parser fragments
and merge inputs treated by the theorems below are nil-free). -/
inductive Node where
  | document (base : Meta) (content : List Node)
  | scalar (base : Meta) (value : String) (style : ScalarStyle)
  | mapping (base : Meta) (entries : List (Node × Node × Comment)) (style : CollectionStyle)
  | sequence (base : Meta) (content : List Node) (style : CollectionStyle)
  | alias (base : Meta) (identifier : String)
deriving Repr

mutual

/-- Decidable equality of nodes (structural; used by `decide` on concrete
trees). -/
def nodeDecEq : (a b : Node) → Decidable (a = b)
  | .document b1 c1, .document b2 c2 =>
      match decEq b1 b2, nodeListDecEq c1 c2 with
      | isTrue h1, isTrue h2 => isTrue (by rw [h1, h2])
      | isFalse h1, _ => isFalse (by intro h; injection h; contradiction)
      | _, isFalse h2 => isFalse (by intro h; injection h; contradiction)
  | .scalar b1 v1 s1, .scalar b2 v2 s2 =>
      match decEq b1 b2, decEq v1 v2, decEq s1 s2 with
      | isTrue h1, isTrue h2, isTrue h3 => isTrue (by rw [h1, h2, h3])
      | isFalse h1, _, _ => isFalse (by intro h; injection h; contradiction)
      | _, isFalse h2, _ => isFalse (by intro h; injection h; contradiction)
      | _, _, isFalse h3 => isFalse (by intro h; injection h; contradiction)
  | .mapping b1 e1 s1, .mapping b2 e2 s2 =>
      match decEq b1 b2, entryListDecEq e1 e2, decEq s1 s2 with
      | isTrue h1, isTrue h2, isTrue h3 => isTrue (by rw [h1, h2, h3])
      | isFalse h1, _, _ => isFalse (by intro h; injection h; contradiction)
      | _, isFalse h2, _ => isFalse (by intro h; injection h; contradiction)
      | _, _, isFalse h3 => isFalse (by intro h; injection h; contradiction)
  | .sequence b1 c1 s1, .sequence b2 c2 s2 =>
      match decEq b1 b2, nodeListDecEq c1 c2, decEq s1 s2 with
      | isTrue h1, isTrue h2, isTrue h3 => isTrue (by rw [h1, h2, h3])
      | isFalse h1, _, _ => isFalse (by intro h; injection h; contradiction)
      | _, isFalse h2, _ => isFalse (by intro h; injection h; contradiction)
      | _, _, isFalse h3 => isFalse (by intro h; injection h; contradiction)
  | .alias b1 i1, .alias b2 i2 =>
      match decEq b1 b2, decEq i1 i2 with
      | isTrue h1, isTrue h2 => isTrue (by rw [h1, h2])
      | isFalse h1, _ => isFalse (by intro h; injection h; contradiction)
      | _, isFalse h2 => isFalse (by intro h; injection h; contradiction)
  | .document _ _, .scalar _ _ _ => isFalse nofun
  | .document _ _, .mapping _ _ _ => isFalse nofun
  | .document _ _, .sequence _ _ _ => isFalse nofun
  | .document _ _, .alias _ _ => isFalse nofun
  | .scalar _ _ _, .document _ _ => isFalse nofun
  | .scalar _ _ _, .mapping _ _ _ => isFalse nofun
  | .scalar _ _ _, .sequence _ _ _ => isFalse nofun
  | .scalar _ _ _, .alias _ _ => isFalse nofun
  | .mapping _ _ _, .document _ _ => isFalse nofun
  | .mapping _ _ _, .scalar _ _ _ => isFalse nofun
  | .mapping _ _ _, .sequence _ _ _ => isFalse nofun
  | .mapping _ _ _, .alias _ _ => isFalse nofun
  | .sequence _ _ _, .document _ _ => isFalse nofun
  | .sequence _ _ _, .scalar _ _ _ => isFalse nofun
  | .sequence _ _ _, .mapping _ _ _ => isFalse nofun
  | .sequence _ _ _, .alias _ _ => isFalse nofun
  | .alias _ _, .document _ _ => isFalse nofun
  | .alias _ _, .scalar _ _ _ => isFalse nofun
  | .alias _ _, .mapping _ _ _ => isFalse nofun
  | .alias _ _, .sequence _ _ _ => isFalse nofun

/-- Decidable equality of node lists. -/
def nodeListDecEq : (l1 l2 : List Node) → Decidable (l1 = l2)
  | [], [] => isTrue rfl
  | [], _ :: _ => isFalse nofun
  | _ :: _, [] => isFalse nofun
  | a :: l1, b :: l2 =>
      match nodeDecEq a b, nodeListDecEq l1 l2 with
      | isTrue h1, isTrue h2 => isTrue (by rw [h1, h2])
      | isFalse h1, _ => isFalse (by intro h; injection h; contradiction)
      | _, isFalse h2 => isFalse (by intro h; injection h; contradiction)

/-- Decidable equality of mapping-entry lists. -/
def entryListDecEq : (l1 l2 : List (Node × Node × Comment)) → Decidable (l1 = l2)
  | [], [] => isTrue rfl
  | [], _ :: _ => isFalse nofun
  | _ :: _, [] => isFalse nofun
  | (k1, v1, c1) :: l1, (k2, v2, c2) :: l2 =>
      match nodeDecEq k1 k2, nodeDecEq v1 v2, decEq c1 c2, entryListDecEq l1 l2 with
      | isTrue h1, isTrue h2, isTrue h3, isTrue h4 => isTrue (by rw [h1, h2, h3, h4])
      | isFalse h1, _, _, _ => isFalse (by intro h; injection h with h5 h6; injection h5; contradiction)
      | _, isFalse h2, _, _ => isFalse (by intro h; injection h with h5 h6; injection h5 with h7 h8; injection h8; contradiction)
      | _, _, isFalse h3, _ => isFalse (by intro h; injection h with h5 h6; injection h5 with h7 h8; injection h8; contradiction)
      | _, _, _, isFalse h4 => isFalse (by intro h; injection h; contradiction)

end

instance : DecidableEq Node := nodeDecEq

namespace Node

/-- Mirrors the `Kind()` methods of the five node types. -/
def kind : Node → NodeKind
  | .document .. => .documentNode
  | .scalar .. => .scalarNode
  | .mapping .. => .mappingNode
  | .sequence .. => .sequenceNode
  | .alias .. => .aliasNode

/-- The shared header of a node (receiver of `Tag`, `GetComment`, ...). -/
def base : Node → Meta
  | .document b _ => b
  | .scalar b _ _ => b
  | .mapping b _ _ => b
  | .sequence b _ _ => b
  | .alias b _ => b

/-- Mirrors `(baseNode).GetComment`. -/
def getComment (n : Node) : Comment := n.base.comment

/-- Mirrors `(baseNode).SetComment`. -/
def setComment : Node → Comment → Node
  | .document b c, cm => .document { b with comment := cm } c
  | .scalar b v st, cm => .scalar { b with comment := cm } v st
  | .mapping b e st, cm => .mapping { b with comment := cm } e st
  | .sequence b c st, cm => .sequence { b with comment := cm } c st
  | .alias b i, cm => .alias { b with comment := cm } i

/-- Mirrors `(baseNode).SetTag`. -/
def setTag : Node → String → Node
  | .document b c, t => .document { b with tag := t } c
  | .scalar b v st, t => .scalar { b with tag := t } v st
  | .mapping b e st, t => .mapping { b with tag := t } e st
  | .sequence b c st, t => .sequence { b with tag := t } c st
  | .alias b i, t => .alias { b with tag := t } i

end Node

/-- Mirrors `ast.NewScalar`. -/
def newScalar (value : String) : Node := .scalar emptyMeta value .plain

/-- Mirrors `ast.NewMapping`. -/
def newMapping : Node := .mapping emptyMeta [] .block

/-- Mirrors `ast.NewSequence`. -/
def newSequence : Node := .sequence emptyMeta [] .block

/-- Mirrors `ast.NewDocument`. -/
def newDocument : Node := .document emptyMeta []

/-- Mirrors the `Clone()` methods of the five node types: the base header is
copied by value and every child node is cloned (entry comments are copied by
value, as in `(ast.Mapping).Clone`). -/
def cloneNode : Node → Node
  | .document b c => .document b (c.attach.map fun x => cloneNode x.1)
  | .scalar b v st => .scalar b v st
  | .mapping b e st =>
      .mapping b
        (e.attach.map fun x => (cloneNode x.1.1, cloneNode x.1.2.1, x.1.2.2)) st
  | .sequence b c st => .sequence b (c.attach.map fun x => cloneNode x.1) st
  | .alias b i => .alias b i
termination_by n => sizeOf n
decreasing_by
  · have := List.sizeOf_lt_of_mem x.2; simp at this ⊢; omega
  · obtain ⟨⟨k, v, cm⟩, hx⟩ := x
    have := List.sizeOf_lt_of_mem hx; simp at this ⊢; omega
  · obtain ⟨⟨k, v, cm⟩, hx⟩ := x
    have := List.sizeOf_lt_of_mem hx; simp at this ⊢; omega
  · have := List.sizeOf_lt_of_mem x.2; simp at this ⊢; omega

/-- A deep clone is tree-equal to the original: `Clone` copies every field. -/
theorem cloneNode_eq (n : Node) : cloneNode n = n := by
  match n with
  | .document b c =>
      rw [cloneNode]
      have h1 : c.attach.map (fun x => cloneNode x.1) = c.attach.map Subtype.val :=
        List.map_congr_left fun x _ => cloneNode_eq x.1
      rw [h1, List.attach_map_subtype_val]
  | .scalar b v st => rw [cloneNode]
  | .mapping b e st =>
      rw [cloneNode]
      have h1 : (e.attach.map fun x => (cloneNode x.1.1, cloneNode x.1.2.1, x.1.2.2))
          = e.attach.map Subtype.val := by
        refine List.map_congr_left fun x _ => ?_
        rw [cloneNode_eq x.1.1, cloneNode_eq x.1.2.1]
      rw [h1, List.attach_map_subtype_val]
  | .sequence b c st =>
      rw [cloneNode]
      have h1 : c.attach.map (fun x => cloneNode x.1) = c.attach.map Subtype.val :=
        List.map_congr_left fun x _ => cloneNode_eq x.1
      rw [h1, List.attach_map_subtype_val]
  | .alias b i => rw [cloneNode]
termination_by sizeOf n
decreasing_by
  · have := List.sizeOf_lt_of_mem x.2; simp at this ⊢; omega
  · obtain ⟨⟨k, v, cm⟩, hx⟩ := x
    have := List.sizeOf_lt_of_mem hx; simp at this ⊢; omega
  · obtain ⟨⟨k, v, cm⟩, hx⟩ := x
    have := List.sizeOf_lt_of_mem hx; simp at this ⊢; omega
  · have := List.sizeOf_lt_of_mem x.2; simp at this ⊢; omega

/-! ## Emitter (encoder.go)

The encoder writes into a byte buffer; the embedding returns the produced
`String` (one `Char` per byte).  `iw` is the encoder's configured indent
width (`e.indent`, default 2). -/

/-- Mirrors `(Encoder).writeIndent`: `spaces` space bytes. -/
def spaces (n : Nat) : String := String.mk (List.replicate n ' ')

/-- Byte view of Go's `strings.TrimSpace` cutset: on raw bytes only the six
ASCII whitespace bytes are trimmed (non-ASCII bytes decode to non-space or
invalid runes and are never trimmed). -/
def isGoSpace (c : Char) : Bool :=
  c = ' ' || c = '\t' || c = '\n' || c = '\x0b' || c = '\x0c' || c = '\x0d'

/-- Mirrors `strings.TrimSpace` on byte strings. -/
def trimSpaceGo (s : String) : String :=
  String.mk (((s.data.dropWhile isGoSpace).reverse.dropWhile isGoSpace).reverse)

/-- Mirrors `strings.Split(value, "\n")`. -/
def splitLines (s : String) : List String := s.splitOn "\n"

/-- One byte of Go's `%q` (strconv.Quote) output.  Printable ASCII passes
through, the standard escapes are used for the usual control bytes, other
control bytes become `\xhh`; bytes at or above 0x80 stand for printable
runes in the concrete trees treated here and pass through. -/
def goQuoteChar (c : Char) : String :=
  if c = '"' then "\\\""
  else if c = '\\' then "\\\\"
  else if c = '\n' then "\\n"
  else if c = '\t' then "\\t"
  else if c = '\x0d' then "\\r"
  else if c = '\x07' then "\\a"
  else if c = '\x08' then "\\b"
  else if c = '\x0b' then "\\v"
  else if c = '\x0c' then "\\f"
  else if 0x20 ≤ c.toNat && c.toNat ≤ 0x7e then String.mk [c]
  else if 0x80 ≤ c.toNat then String.mk [c]
  else "\\x" ++ String.mk [(Nat.digitChar (c.toNat / 16)), (Nat.digitChar (c.toNat % 16))]

/-- Mirrors `fmt.Fprintf(w, "%q", v)`: double-quoted Go-escaped string. -/
def goQuote (s : String) : String :=
  "\"" ++ String.join (s.data.map goQuoteChar) ++ "\""

/-- ASCII lowering of a byte, the byte view of Go's `strings.EqualFold`
folding for the ASCII-only comparands used by `needsQuoting`. -/
def asciiLower (c : Char) : Char :=
  if 'A' ≤ c && c ≤ 'Z' then Char.ofNat (c.toNat + 32) else c

/-- Mirrors `strings.EqualFold` on ASCII comparands. -/
def equalFold (s t : String) : Bool :=
  s.data.map asciiLower = t.data.map asciiLower

/-- The `specialValues` table of `needsQuoting` (encoder.go). -/
def specialValues : List String :=
  ["true", "false", "yes", "no", "on", "off", "null", "~", ".inf", "-.inf", ".nan"]

/-- The cutset of the `strings.ContainsAny` check in `needsQuoting`:
the bytes of `":#@*&[]{}|>'\"\n\r\t"`. -/
def quoteTriggerChars : List Char :=
  [':', '#', '@', '*', '&', '[', ']', Char.ofNat 123, Char.ofNat 125,
   '|', '>', Char.ofNat 39, '"', '\n', '\x0d', '\t']

/-- Is `c` an ASCII decimal digit. -/
def isDigitByte (c : Char) : Bool := '0' ≤ c && c ≤ '9'

/-- Decimal digits of `s` as a natural number (`s` all digits). -/
def digitsToNat (l : List Char) : Nat :=
  l.foldl (fun acc c => acc * 10 + (c.toNat - '0'.toNat)) 0

/-- Mirrors success of `strconv.ParseInt(s, 10, 64)`: an optional sign, one
or more decimal digits (base 10 forbids underscores), and the value must fit
in a signed 64-bit integer. -/
def goParseIntOk (s : String) : Bool :=
  let l := s.data
  let (neg, ds) := match l with
    | '+' :: rest => (false, rest)
    | '-' :: rest => (true, rest)
    | rest => (false, rest)
  !ds.isEmpty && ds.all isDigitByte &&
    (if neg then digitsToNat ds ≤ 2 ^ 63 else digitsToNat ds ≤ 2 ^ 63 - 1)

/-- Digit run with Go-literal underscores: digits with single underscores
between them. -/
def digitRun (isD : Char → Bool) : List Char → Bool
  | [] => false
  | c :: rest => isD c && digitRunTail isD rest
where
  /-- Continuation of a digit run: digits, or an underscore followed by a
  digit. -/
  digitRunTail (isD : Char → Bool) : List Char → Bool
    | [] => true
    | '_' :: c :: rest => isD c && digitRunTail isD rest
    | c :: rest => isD c && digitRunTail isD rest

/-- Is `c` an ASCII hex digit. -/
def isHexByte (c : Char) : Bool :=
  isDigitByte c || ('a' ≤ c && c ≤ 'f') || ('A' ≤ c && c ≤ 'F')

/-- Splits `l` at the first occurrence of a byte satisfying `p`, if any. -/
def splitAtByte (p : Char → Bool) (l : List Char) : Option (List Char × List Char) :=
  match l.findIdx? p with
  | some i => some (l.take i, l.drop (i + 1))
  | none => none

/-- Mantissa syntax `digits[.digits]`, where at least one digit must be
present on one side of the optional dot. -/
def decMantissaOk (l : List Char) : Bool :=
  match splitAtByte (· = '.') l with
  | none => digitRun isDigitByte l
  | some (intPart, fracPart) =>
      (match intPart, fracPart with
       | [], [] => false
       | [], f => digitRun isDigitByte f
       | i, [] => digitRun isDigitByte i
       | i, f => digitRun isDigitByte i && digitRun isDigitByte f)

/-- Optional exponent: `[eE][+-]?digits`. -/
def expPartOk (l : List Char) : Bool :=
  match l with
  | [] => false
  | c :: rest =>
      (c = 'e' || c = 'E') &&
      (match rest with
       | '+' :: ds => digitRun isDigitByte ds
       | '-' :: ds => digitRun isDigitByte ds
       | ds => digitRun isDigitByte ds)

/-- Mirrors the syntactic success of `strconv.ParseFloat(s, 64)`:
an optional sign then `inf`/`infinity` (case-insensitive; `nan` only
unsigned), or a decimal mantissa with optional exponent, or a hexadecimal
mantissa with a mandatory binary exponent.  Range overflow (astronomical
exponents), which Go reports as an error, is not modelled; no claim below
evaluates `needsQuoting` at such a string. -/
def goParseFloatOk (s : String) : Bool :=
  let l := s.data
  let (body, signed) := match l with
    | '+' :: rest => (rest, true)
    | '-' :: rest => (rest, true)
    | rest => (rest, false)
  let lower := String.mk (body.map asciiLower)
  if lower = "inf" || lower = "infinity" then true
  else if !signed && (equalFold s "nan") then true
  else
    match body with
    | '0' :: x :: rest =>
        if x = 'x' || x = 'X' then
          match splitAtByte (fun c => c = 'p' || c = 'P') rest with
          | some (mant, ex) =>
              (match splitAtByte (· = '.') mant with
               | none => digitRun isHexByte mant
               | some (ip, fp) =>
                   (match ip, fp with
                    | [], [] => false
                    | [], f => digitRun isHexByte f
                    | i, [] => digitRun isHexByte i
                    | i, f => digitRun isHexByte i && digitRun isHexByte f)) &&
              (match ex with
               | '+' :: ds => digitRun isDigitByte ds
               | '-' :: ds => digitRun isDigitByte ds
               | ds => digitRun isDigitByte ds)
          | none => false
        else
          match splitAtByte (fun c => c = 'e' || c = 'E') body with
          | none => decMantissaOk body
          | some (mant, ex) =>
              decMantissaOk mant &&
              (match ex with
               | '+' :: ds => digitRun isDigitByte ds
               | '-' :: ds => digitRun isDigitByte ds
               | ds => digitRun isDigitByte ds)
    | _ =>
        match splitAtByte (fun c => c = 'e' || c = 'E') body with
        | none => decMantissaOk body
        | some (mant, ex) =>
            decMantissaOk mant &&
            (match ex with
             | '+' :: ds => digitRun isDigitByte ds
             | '-' :: ds => digitRun isDigitByte ds
             | ds => digitRun isDigitByte ds)

/-- Mirrors `needsQuoting` (encoder.go lines 435-464): empty strings,
case-insensitive matches of the recognized null/bool/infinity/NaN tokens,
strings containing one of the special bytes, and strings parseable as a
float or as an integer all need quoting. -/
def needsQuoting (s : String) : Bool :=
  if s = "" then true
  else if specialValues.any (fun sp => equalFold s sp) then true
  else if s.data.any (fun c => quoteTriggerChars.contains c) then true
  else if goParseFloatOk s then true
  else if goParseIntOk s then true
  else false

/-- Does the byte string contain two consecutive space bytes
(`strings.Contains(s, "  ")`). -/
def containsDoubleSpace : List Char → Bool
  | ' ' :: ' ' :: _ => true
  | _ :: rest => containsDoubleSpace rest
  | [] => false

/-- Mirrors `(Encoder).createStringNode`: the node built for a Go string
value, upgrading the style when the text is multi-line or ambiguous. -/
def createStringNode (s : String) : Node :=
  if s.data.contains '\n' then
    if containsDoubleSpace s.data
        || (match s.data with | ' ' :: _ => true | _ => false)
        || (match s.data.getLast? with | some ' ' => true | _ => false) then
      .scalar emptyMeta s .literal
    else
      .scalar emptyMeta s .folded
  else if needsQuoting s then
    .scalar emptyMeta s .doubleQuoted
  else
    newScalar s

/-- Mirrors `strings.ReplaceAll(v, "'", "''")` in the single-quoted case. -/
def doubleSQuotes (l : List Char) : List Char :=
  match l with
  | [] => []
  | c :: rest =>
      if c = Char.ofNat 39 then c :: c :: doubleSQuotes rest else c :: doubleSQuotes rest

/-- Mirrors `(Encoder).encodeScalar`: style dispatch for a scalar with
value `v` and style `st`, writing with configured indent width `iw`. -/
def encodeScalar (iw : Nat) (v : String) (st : ScalarStyle) : String :=
  match st with
  | .singleQuoted =>
      String.mk [Char.ofNat 39] ++ String.mk (doubleSQuotes v.data) ++ String.mk [Char.ofNat 39]
  | .doubleQuoted => goQuote v
  | .literal =>
      "|" ++ (if v ≠ "" && !(v.data.getLast? = some '\n') then "-" else "") ++ "\n" ++
      String.join ((splitLines v).map fun line =>
        if line ≠ "" then spaces iw ++ line ++ "\n" else "")
  | .folded =>
      ">" ++ (if v ≠ "" && !(v.data.getLast? = some '\n') then "-" else "") ++ "\n" ++
      String.join ((splitLines v).map fun line =>
        if line ≠ "" then spaces iw ++ line ++ "\n" else "")
  | _ => v

/-- Comment lines written as `# ...` at the given indent (the head-, foot-
and key-comment loops of encoder.go). -/
def commentLines (indent : Nat) (text : String) : String :=
  String.join ((splitLines (trimSpaceGo text)).map fun line =>
    spaces indent ++ "# " ++ line ++ "\n")

/-- The `switch x.(type)` test for `*ast.Mapping, *ast.Sequence` used by
the block encoders to decide whether a value goes on following lines. -/
def isCollection : Node → Bool
  | .mapping _ _ _ => true
  | .sequence _ _ _ => true
  | _ => false

mutual

/-- Mirrors `(Encoder).encodeNode`: head comment, kind dispatch, line
comment, foot comment. -/
def encodeNode (iw : Nat) (n : Node) (indent : Nat) (inline : Bool) : String :=
  let cm := n.getComment
  let headPart :=
    if cm.headComment ≠ "" && !inline then commentLines indent cm.headComment else ""
  let bodyPart :=
    match n with
    | .document _ content => encodeDocItems iw content indent
    | .scalar _ v st => (if !inline then spaces indent else "") ++ encodeScalar iw v st
    | .sequence _ content style => encodeSequence iw content style indent inline
    | .mapping _ entries style => encodeMapping iw entries style indent inline
    | .alias _ ident => (if !inline then spaces indent else "") ++ "*" ++ ident
  let linePart := if cm.lineComment ≠ "" then " # " ++ cm.lineComment else ""
  let footPart :=
    if cm.footComment ≠ "" && !inline then "\n" ++ commentLines indent cm.footComment else ""
  headPart ++ bodyPart ++ linePart ++ footPart
termination_by 2 * sizeOf n
decreasing_by
  all_goals simp_wf
  all_goals omega

/-- The document loop of `encodeNode`: children separated by `"\n---\n"`. -/
def encodeDocItems (iw : Nat) (content : List Node) (indent : Nat) : String :=
  match content with
  | [] => ""
  | x :: rest =>
      encodeNode iw x indent false ++
      String.join (rest.attach.map fun y => "\n---\n" ++ encodeNode iw y.1 indent false)
termination_by 2 * sizeOf content
decreasing_by
  all_goals simp_wf
  all_goals try omega
  all_goals have h9 := List.sizeOf_lt_of_mem y.2
  all_goals simp at h9
  all_goals omega

/-- Mirrors `(Encoder).encodeSequence`. -/
def encodeSequence (iw : Nat) (content : List Node) (style : CollectionStyle)
    (indent : Nat) (inline : Bool) : String :=
  if content.isEmpty then "[]"
  else if style = .flow || inline then
    "[" ++ encodeFlowItems iw content true ++ "]"
  else
    encodeBlockItems iw content indent true
termination_by 2 * sizeOf content + 1
decreasing_by
  all_goals simp_wf

/-- The flow-sequence loop: items separated by `", "`, encoded inline. -/
def encodeFlowItems (iw : Nat) (content : List Node) (first : Bool) : String :=
  match content with
  | [] => ""
  | x :: rest =>
      (if first then "" else ", ") ++ encodeNode iw x 0 true ++
      encodeFlowItems iw rest false
termination_by 2 * sizeOf content
decreasing_by
  all_goals simp_wf
  all_goals omega

/-- The block-sequence loop: `- ` items, nested collections on following
lines with increased indent, other values inline and space-trimmed. -/
def encodeBlockItems (iw : Nat) (content : List Node) (indent : Nat) (first : Bool) : String :=
  match content with
  | [] => ""
  | x :: rest =>
      (if first then "" else "\n") ++ spaces indent ++ "- " ++
      (if isCollection x then "\n" ++ encodeNode iw x (indent + iw) false
       else trimSpaceGo (encodeNode iw x 0 true)) ++
      encodeBlockItems iw rest indent false
termination_by 2 * sizeOf content
decreasing_by
  all_goals simp_wf
  all_goals omega

/-- Mirrors `(Encoder).encodeMapping`. -/
def encodeMapping (iw : Nat) (entries : List (Node × Node × Comment))
    (style : CollectionStyle) (indent : Nat) (inline : Bool) : String :=
  if entries.isEmpty then "\x7b\x7d"
  else if style = .flow || inline then
    "\x7b" ++ encodeFlowEntries iw entries true ++ "\x7d"
  else
    encodeBlockEntries iw entries indent true
termination_by 2 * sizeOf entries + 1
decreasing_by
  all_goals simp_wf

/-- The flow-mapping loop: `key: value` pairs separated by `", "`. -/
def encodeFlowEntries (iw : Nat) (entries : List (Node × Node × Comment)) (first : Bool) : String :=
  match entries with
  | [] => ""
  | (k, v, _) :: rest =>
      (if first then "" else ", ") ++ encodeNode iw k 0 true ++ ": " ++
      encodeNode iw v 0 true ++ encodeFlowEntries iw rest false
termination_by 2 * sizeOf entries
decreasing_by
  all_goals simp_wf
  all_goals omega

/-- The block-mapping loop: key comment, `key: `, then the value (nested
collections on following lines with increased indent). -/
def encodeBlockEntries (iw : Nat) (entries : List (Node × Node × Comment))
    (indent : Nat) (first : Bool) : String :=
  match entries with
  | [] => ""
  | (k, v, cm) :: rest =>
      (if first then "" else "\n") ++
      (if cm.keyComment ≠ "" then commentLines indent cm.keyComment else "") ++
      spaces indent ++ encodeNode iw k 0 true ++ ": " ++
      (if isCollection v then "\n" ++ encodeNode iw v (indent + iw) false
       else encodeNode iw v 0 true) ++
      encodeBlockEntries iw rest indent false
termination_by 2 * sizeOf entries
decreasing_by
  all_goals simp_wf
  all_goals omega

end

/-- Mirrors `MarshalNode` / `(Encoder).EncodeNode` with the default indent
width of 2: the byte output for a whole tree. -/
def marshalNode (n : Node) : String := encodeNode 2 n 0 false

/-! ## Merger (merge.go) -/

/-- Mirrors `MergeMode`. -/
inductive MergeMode where
  | override
  | preserve
  | deep
  | append
deriving Repr, DecidableEq

/-- Mirrors `ArrayMergeStrategy`. -/
inductive ArrayMergeStrategy where
  | replace
  | append
  | byIndex
  | byKey
  | union
deriving Repr, DecidableEq

/-- Mirrors `MergeOptions`.  `custom` embeds `CustomMergeFunc` composed with
the `nodeToInterface` / `interfaceToNode` conversions that wrap it in
`mergeNodesRecursive` (the Go callback only ever sees plain values extracted
from the trees and its result is re-encoded into freshly allocated nodes);
a callback that errors or returns nil, which makes the Go code fall through
to the ordinary rules, is modelled by a `none` result. -/
structure MergeOptions where
  mode : MergeMode
  arrayMergeStrategy : ArrayMergeStrategy
  preserveComments : Bool
  preserveOrder : Bool
  allowTypeMismatch : Bool
  custom : Option (String → Node → Node → Option Node)

/-- A mapping entry, `*ast.MappingEntry`. -/
abbrev MEntry := Node × Node × Comment

/-- Mirrors `getNodeStringValue` of decoder.go (the one in package `yaml`,
which `mergeMappings` calls): the scalar's value, and the empty string for
every non-scalar node. -/
def getNodeStringValue : Node → String
  | .scalar _ v _ => v
  | _ => ""

/-- Mirrors `mergeComments`: per-slot, B wins if nonempty, else A. -/
def mergeComments (a b : Comment) : Comment :=
  { headComment := if b.headComment ≠ "" then b.headComment
                   else if a.headComment ≠ "" then a.headComment else ""
    lineComment := if b.lineComment ≠ "" then b.lineComment
                   else if a.lineComment ≠ "" then a.lineComment else ""
    footComment := if b.footComment ≠ "" then b.footComment
                   else if a.footComment ≠ "" then a.footComment else ""
    keyComment := if b.keyComment ≠ "" then b.keyComment
                  else if a.keyComment ≠ "" then a.keyComment else ""
    valueComment := if b.valueComment ≠ "" then b.valueComment
                    else if a.valueComment ≠ "" then a.valueComment else "" }

/-- Mirrors `mergeKeyOrder`: all of A's keys in order, then B's keys that
are not among A's (the `seen` set is filled from A only). -/
def mergeKeyOrder (aKeys bKeys : List String) : List String :=
  aKeys ++ bKeys.filter (fun k => !aKeys.contains k)

/-- Mirrors `cloneNodes`: clone every node of a slice. -/
def cloneNodes (nodes : List Node) : List Node := nodes.map cloneNode

/-- Mirrors `cloneEntry`: clone key and value, copy the comment. -/
def cloneEntry (e : MEntry) : MEntry := (cloneNode e.1, cloneNode e.2.1, e.2.2)

/-- Mirrors `nodeToString`: the Union strategy's equality key, the emitted
bytes of the node (`MarshalNode`, whose error is discarded). -/
def nodeToString (n : Node) : String := marshalNode n

/-- The keys of a mapping's entries, in order, as collected into
`aKeys`/`bKeys` by `mergeMappings`. -/
def keysOf (entries : List MEntry) : List String :=
  entries.map fun e => getNodeStringValue e.1

/-- The `aMap`/`bMap` lookup of `mergeMappings`: a Go map built by iterating
the entries in order, so an entry with a duplicate key overwrites the
earlier one — lookup returns the last entry carrying the key. -/
def lookupEntry (entries : List MEntry) (k : String) : Option MEntry :=
  entries.reverse.find? fun e => getNodeStringValue e.1 = k

/-- Go's `%v` of a `NodeKind` (an `int`-typed constant, printed as its
number) in the type-mismatch error message. -/
def kindStr : NodeKind → String
  | .documentNode => "0"
  | .scalarNode => "1"
  | .mappingNode => "2"
  | .sequenceNode => "3"
  | .aliasNode => "4"

/-- The `ArrayUnion` loops of `mergeSequences`: both content slices are
walked with one shared `seen` set of emitted byte strings; unseen items are
cloned into the output. -/
def unionLoop : List Node → List String → List Node
  | [], _ => []
  | x :: rest, seen =>
      let key := nodeToString x
      if seen.contains key then unionLoop rest seen
      else cloneNode x :: unionLoop rest (key :: seen)

/-- sizeOf of an entry found by `lookupEntry` is below the list's. -/
theorem lookupEntry_sizeOf_lt {entries : List MEntry} {k : String} {e : MEntry}
    (h : lookupEntry entries k = some e) : sizeOf e < sizeOf entries := by
  have hmem : e ∈ entries.reverse := List.mem_of_find?_eq_some h
  have hmem2 : e ∈ entries := List.mem_reverse.mp hmem
  exact List.sizeOf_lt_of_mem hmem2

mutual

/-- Mirrors `mergeNodesRecursive`: custom hook, kind-mismatch handling, then
kind dispatch.  The nil-input short-circuits of the Go function (`a == nil`,
`b == nil`) do not arise on the nil-free trees of this model. -/
def mergeNodesRecursive (opts : MergeOptions) (a b : Node) (path : String) :
    Except String Node :=
  match opts.custom.bind fun f => f path a b with
  | some r => .ok r
  | none =>
    if a.kind ≠ b.kind then
      if !opts.allowTypeMismatch then
        .error ("type mismatch at " ++ path ++ ": " ++ kindStr a.kind ++ " vs " ++ kindStr b.kind)
      else if opts.mode = .override then .ok (cloneNode b)
      else .ok (cloneNode a)
    else
      match a, b with
      | .document ab ac, .document bb bc => mergeDocuments opts ab ac bb bc path
      | .mapping ab ae asty, .mapping bb be _ => mergeMappings opts ab ae asty bb be path
      | .sequence ab ac asty, .sequence bb bc _ => mergeSequences opts ab ac asty bb bc path
      | .scalar ab av asty, .scalar bb bv bsty => mergeScalars opts ab av asty bb bv bsty
      | x, y => if opts.mode = .override then .ok (cloneNode y) else .ok (cloneNode x)
termination_by (sizeOf a + sizeOf b, 2, 0)

/-- Mirrors `mergeDocuments`: content merged by index, surplus B content
appended, surplus A content kept only under `MergePreserve`. -/
def mergeDocuments (opts : MergeOptions) (ab : Meta) (ac : List Node)
    (bb : Meta) (bc : List Node) (path : String) : Except String Node :=
  let cm := if opts.preserveComments then mergeComments ab.comment bb.comment else emptyComment
  if ac.isEmpty then
    .ok (.document { emptyMeta with comment := cm } (cloneNodes bc))
  else if bc.isEmpty then
    .ok (.document { emptyMeta with comment := cm } (cloneNodes ac))
  else do
    let shared ← mergeIndexed opts ac bc path 0
    let extra :=
      if bc.length > ac.length then (bc.drop ac.length).map cloneNode
      else if opts.mode = .preserve && ac.length > bc.length then (ac.drop bc.length).map cloneNode
      else []
    .ok (.document { emptyMeta with comment := cm } (shared ++ extra))
termination_by (sizeOf ac + sizeOf bc, 1, 0)

/-- The by-index loops of `mergeDocuments` and of the `ArrayMergeByIndex`
strategy: pairwise recursive merge up to the shorter length, with the path
extended by `[i]`. -/
def mergeIndexed (opts : MergeOptions) (ac bc : List Node) (path : String) (i : Nat) :
    Except String (List Node) :=
  match ac, bc with
  | [], _ => .ok []
  | _, [] => .ok []
  | x :: xs, y :: ys => do
      let v ← mergeNodesRecursive opts x y (path ++ "[" ++ toString i ++ "]")
      let rest ← mergeIndexed opts xs ys path (i + 1)
      .ok (v :: rest)
termination_by (sizeOf ac + sizeOf bc, 0, 0)

/-- Mirrors `mergeMappings`: key lists, merged key order, the main
key-processing loop, and the trailing not-yet-processed-B-keys loop. -/
def mergeMappings (opts : MergeOptions) (ab : Meta) (ae : List MEntry)
    (asty : CollectionStyle) (bb : Meta) (be : List MEntry) (path : String) :
    Except String Node :=
  let cm := if opts.preserveComments then mergeComments ab.comment bb.comment else emptyComment
  let aKeys := keysOf ae
  let bKeys := keysOf be
  let keys :=
    if !opts.preserveOrder then aKeys ++ bKeys.filter (fun k => !aKeys.contains k)
    else mergeKeyOrder aKeys bKeys
  do
    let (entries, processed) ← processKeys opts ae be path keys []
    let extra :=
      if opts.mode ≠ .preserve then
        (bKeys.filter fun k => !processed.contains k).filterMap
          fun k => (lookupEntry be k).map cloneEntry
      else []
    .ok (.mapping { emptyMeta with comment := cm } (entries ++ extra) asty)
termination_by (sizeOf ae + sizeOf be, 1, 0)

/-- The main loop of `mergeMappings` over the merged key list: each key is
processed once (`processedKeys`); a key found in both mappings is merged
recursively, a key only in A is kept unless mode is `MergeOverride`, a key
only in B is cloned in.  Returns the produced entries together with the
final `processedKeys` set. -/
def processKeys (opts : MergeOptions) (ae be : List MEntry) (path : String) :
    List String → List String → Except String (List MEntry × List String)
  | [], seen => .ok ([], seen)
  | k :: rest, seen =>
      if seen.contains k then processKeys opts ae be path rest seen
      else
        let seen' := k :: seen
        match h1 : lookupEntry ae k, h2 : lookupEntry be k with
        | none, some bE => do
            let (es, s) ← processKeys opts ae be path rest seen'
            .ok (cloneEntry bE :: es, s)
        | some aE, none =>
            if opts.mode ≠ .override then do
              let (es, s) ← processKeys opts ae be path rest seen'
              .ok (cloneEntry aE :: es, s)
            else
              processKeys opts ae be path rest seen'
        | some aE, some bE => do
            have ha : sizeOf aE.2.1 < sizeOf ae := by
              have h := lookupEntry_sizeOf_lt h1
              obtain ⟨x1, x2, x3⟩ := aE
              simp at h ⊢; omega
            have hb : sizeOf bE.2.1 < sizeOf be := by
              have h := lookupEntry_sizeOf_lt h2
              obtain ⟨x1, x2, x3⟩ := bE
              simp at h ⊢; omega
            let mv ← mergeNodesRecursive opts aE.2.1 bE.2.1 (path ++ "." ++ k)
            let ecm := if opts.preserveComments then mergeComments aE.2.2 bE.2.2
                       else emptyComment
            let (es, s) ← processKeys opts ae be path rest seen'
            .ok ((cloneNode aE.1, mv, ecm) :: es, s)
        | none, none => processKeys opts ae be path rest seen'
termination_by keys _ => (sizeOf ae + sizeOf be, 0, sizeOf keys)

/-- Mirrors `mergeSequences`: dispatch on the array strategy (`ByKey` has no
case of its own in the Go switch and falls to the default clone-B branch). -/
def mergeSequences (opts : MergeOptions) (ab : Meta) (ac : List Node)
    (asty : CollectionStyle) (bb : Meta) (bc : List Node) (path : String) :
    Except String Node :=
  let cm := if opts.preserveComments then mergeComments ab.comment bb.comment else emptyComment
  match opts.arrayMergeStrategy with
  | .replace => .ok (.sequence { emptyMeta with comment := cm } (cloneNodes bc) asty)
  | .append =>
      .ok (.sequence { emptyMeta with comment := cm } (cloneNodes ac ++ cloneNodes bc) asty)
  | .byIndex => do
      let shared ← mergeIndexed opts ac bc path 0
      let tail :=
        if ac.length > bc.length then (ac.drop bc.length).map cloneNode
        else (bc.drop ac.length).map cloneNode
      .ok (.sequence { emptyMeta with comment := cm } (shared ++ tail) asty)
  | .union => .ok (.sequence { emptyMeta with comment := cm } (unionLoop (ac ++ bc) []) asty)
  | .byKey => .ok (.sequence { emptyMeta with comment := cm } (cloneNodes bc) asty)
termination_by (sizeOf ac + sizeOf bc, 1, 0)

/-- Mirrors `mergeScalars`: under `MergeOverride` or `MergeDeep` the result
is a clone of B, otherwise a clone of A; the comment is merged under the
conditions written in the source (note the Go operator precedence in the
second branch: `pc && bHead != "" || bLine != ""`). -/
def mergeScalars (opts : MergeOptions) (ab : Meta) (av : String) (asty : ScalarStyle)
    (bb : Meta) (bv : String) (bsty : ScalarStyle) : Except String Node :=
  if opts.mode = .override || opts.mode = .deep then
    let m : Node := .scalar bb bv bsty
    .ok (if opts.preserveComments then m.setComment (mergeComments ab.comment bb.comment) else m)
  else
    let m : Node := .scalar ab av asty
    .ok (if (opts.preserveComments && bb.comment.headComment ≠ "") || bb.comment.lineComment ≠ ""
         then m.setComment (mergeComments ab.comment bb.comment) else m)

end


/-- `processKeys` with its termination hypotheses stripped (a plain match
in place of the dependent one); used to compute with and reason about the
key loop. -/
def collectEntries (opts : MergeOptions) (ae be : List MEntry) (path : String) :
    List String → List String → Except String (List MEntry × List String)
  | [], seen => .ok ([], seen)
  | k :: rest, seen =>
      if seen.contains k then collectEntries opts ae be path rest seen
      else
        let seen1 := k :: seen
        match lookupEntry ae k, lookupEntry be k with
        | none, some bE => do
            let (es, s) ← collectEntries opts ae be path rest seen1
            .ok (cloneEntry bE :: es, s)
        | some aE, none =>
            if opts.mode ≠ .override then do
              let (es, s) ← collectEntries opts ae be path rest seen1
              .ok (cloneEntry aE :: es, s)
            else
              collectEntries opts ae be path rest seen1
        | some aE, some bE => do
            let mv ← mergeNodesRecursive opts aE.2.1 bE.2.1 (path ++ "." ++ k)
            let ecm := if opts.preserveComments then mergeComments aE.2.2 bE.2.2
                       else emptyComment
            let (es, s) ← collectEntries opts ae be path rest seen1
            .ok ((cloneNode aE.1, mv, ecm) :: es, s)
        | none, none => collectEntries opts ae be path rest seen1

/-- The key loop computes what its plain-match reformulation computes. -/
theorem processKeys_eq (opts : MergeOptions) (ae be : List MEntry) (path : String)
    (keys seen : List String) :
    processKeys opts ae be path keys seen = collectEntries opts ae be path keys seen := by
  induction keys generalizing seen with
  | nil => rw [processKeys, collectEntries]
  | cons k rest ih =>
      rw [processKeys.eq_def, collectEntries.eq_def]
      by_cases hm : k ∈ seen
      · simp [hm, ih]
      · simp only [hm, if_false]
        cases h1 : lookupEntry ae k <;> cases h2 : lookupEntry be k <;> simp [hm, h1, h2, ih]

/-- Mirrors `MergeNodes`: recursive merge starting with the empty path. -/
def mergeNodes (a b : Node) (opts : MergeOptions) : Except String Node :=
  mergeNodesRecursive opts a b ""

/-! ### Canonical comparison (spec notion for the merge-identity claim)

The spec's "canonical comparison" ignores position, style and comment
differences and compares everything else: kind, tag, anchor, scalar value,
alias identifier, and children pairwise. -/

mutual

/-- Canonical node comparison: position, style and comments are ignored. -/
def canonEq : Node → Node → Bool
  | .document b1 c1, .document b2 c2 =>
      b1.tag == b2.tag && b1.anchor == b2.anchor && canonEqList c1 c2
  | .scalar b1 v1 _, .scalar b2 v2 _ =>
      b1.tag == b2.tag && b1.anchor == b2.anchor && v1 == v2
  | .mapping b1 e1 _, .mapping b2 e2 _ =>
      b1.tag == b2.tag && b1.anchor == b2.anchor && canonEqEntries e1 e2
  | .sequence b1 c1 _, .sequence b2 c2 _ =>
      b1.tag == b2.tag && b1.anchor == b2.anchor && canonEqList c1 c2
  | .alias b1 i1, .alias b2 i2 =>
      b1.tag == b2.tag && b1.anchor == b2.anchor && i1 == i2
  | _, _ => false

/-- Canonical comparison of node lists, pairwise. -/
def canonEqList : List Node → List Node → Bool
  | [], [] => true
  | x :: xs, y :: ys => canonEq x y && canonEqList xs ys
  | _, _ => false

/-- Canonical comparison of mapping-entry lists: keys and values pairwise,
entry comments ignored. -/
def canonEqEntries : List MEntry → List MEntry → Bool
  | [], [] => true
  | (k1, v1, _) :: r1, (k2, v2, _) :: r2 =>
      canonEq k1 k2 && canonEq v1 v2 && canonEqEntries r1 r2
  | _, _ => false

end

/-- No string occurs twice. -/
def nodupB : List String → Bool
  | [] => true
  | k :: rest => !rest.contains k && nodupB rest

mutual

/-- The trees on which the merge identity can hold: containers carry no tag
and no anchor (the merge rebuilds containers from scratch and drops both),
and every mapping's keys are pairwise distinct (a Go-map lookup collapses
duplicate keys). -/
def mergeReady : Node → Bool
  | .scalar _ _ _ => true
  | .alias _ _ => true
  | .document b c => b.tag == "" && b.anchor == "" && mergeReadyList c
  | .mapping b e _ =>
      b.tag == "" && b.anchor == "" && nodupB (keysOf e) && mergeReadyEntries e
  | .sequence b c _ => b.tag == "" && b.anchor == "" && mergeReadyList c

/-- All nodes of a list are merge-ready. -/
def mergeReadyList : List Node → Bool
  | [] => true
  | x :: xs => mergeReady x && mergeReadyList xs

/-- All values of an entry list are merge-ready (keys are only cloned by
the merge, never rebuilt, so they need no condition). -/
def mergeReadyEntries : List MEntry → Bool
  | [] => true
  | (_, v, _) :: rest => mergeReady v && mergeReadyEntries rest

end

/-! ## Address-instrumented merge (for the aliasing/mutation claims)

The Go trees live on the heap: every `&ast.X{...}` literal and every
`Clone()` call allocates a fresh struct, and two trees are independent
exactly when they share no struct.  To state that, `ANode` repeats the node
tree with the identity (address) of each Go struct made explicit; the
functions below repeat the merge code threading an allocation counter `n`,
each constructed node taking the next address.  `SetComment`/`SetTag`
write through an existing pointer and keep the address. -/

/-- The node tree with explicit struct identities. -/
inductive ANode where
  | document (addr : Nat) (base : Meta) (content : List ANode)
  | scalar (addr : Nat) (base : Meta) (value : String) (style : ScalarStyle)
  | mapping (addr : Nat) (base : Meta) (entries : List (ANode × ANode × Comment))
      (style : CollectionStyle)
  | sequence (addr : Nat) (base : Meta) (content : List ANode) (style : CollectionStyle)
  | alias (addr : Nat) (base : Meta) (identifier : String)

/-- An addressed mapping entry. -/
abbrev AEntry := ANode × ANode × Comment

/-- Mirrors `Kind()` on addressed nodes. -/
def ANode.kind : ANode → NodeKind
  | .document .. => .documentNode
  | .scalar .. => .scalarNode
  | .mapping .. => .mappingNode
  | .sequence .. => .sequenceNode
  | .alias .. => .aliasNode

/-- Mirrors `SetComment` on an addressed node: an in-place field write, the
address is unchanged. -/
def ANode.setComment : ANode → Comment → ANode
  | .document a b c, cm => .document a { b with comment := cm } c
  | .scalar a b v st, cm => .scalar a { b with comment := cm } v st
  | .mapping a b e st, cm => .mapping a { b with comment := cm } e st
  | .sequence a b c st, cm => .sequence a { b with comment := cm } c st
  | .alias a b i, cm => .alias a { b with comment := cm } i

mutual

/-- The addresses of all structs of an addressed tree. -/
def addrListA : ANode → List Nat
  | .document a _ c => a :: addrListNodes c
  | .scalar a _ _ _ => [a]
  | .mapping a _ e _ => a :: addrListEntries e
  | .sequence a _ c _ => a :: addrListNodes c
  | .alias a _ _ => [a]

/-- Addresses of a node list. -/
def addrListNodes : List ANode → List Nat
  | [] => []
  | x :: rest => addrListA x ++ addrListNodes rest

/-- Addresses of an entry list (keys and values). -/
def addrListEntries : List AEntry → List Nat
  | [] => []
  | (k, v, _) :: rest => addrListA k ++ addrListA v ++ addrListEntries rest

end

mutual

/-- Mirrors `Clone()` with explicit allocation: every node of the copy is a
fresh struct taking the next address. -/
def cloneA : ANode → Nat → ANode × Nat
  | .document _ b c, n =>
      let (cc, n1) := cloneListA c (n + 1)
      (.document n b cc, n1)
  | .scalar _ b v st, n => (.scalar n b v st, n + 1)
  | .mapping _ b e st, n =>
      let (ee, n1) := cloneEntriesA e (n + 1)
      (.mapping n b ee st, n1)
  | .sequence _ b c st, n =>
      let (cc, n1) := cloneListA c (n + 1)
      (.sequence n b cc st, n1)
  | .alias _ b i, n => (.alias n b i, n + 1)

/-- The child-cloning loops of the `Clone` methods. -/
def cloneListA : List ANode → Nat → List ANode × Nat
  | [], n => ([], n)
  | x :: rest, n =>
      let (x1, n1) := cloneA x n
      let (r1, n2) := cloneListA rest n1
      (x1 :: r1, n2)

/-- The entry-cloning loop of `(ast.Mapping).Clone` (and `cloneEntry`). -/
def cloneEntriesA : List AEntry → Nat → List AEntry × Nat
  | [], n => ([], n)
  | (k, v, cm) :: rest, n =>
      let (k1, n1) := cloneA k n
      let (v1, n2) := cloneA v n1
      let (r1, n3) := cloneEntriesA rest n2
      ((k1, v1, cm) :: r1, n3)

end

mutual

/-- Forgets the addresses, recovering the plain tree. -/
def eraseA : ANode → Node
  | .document _ b c => .document b (eraseListA c)
  | .scalar _ b v st => .scalar b v st
  | .mapping _ b e st => .mapping b (eraseEntriesA e) st
  | .sequence _ b c st => .sequence b (eraseListA c) st
  | .alias _ b i => .alias b i

/-- Erasure of a node list. -/
def eraseListA : List ANode → List Node
  | [] => []
  | x :: rest => eraseA x :: eraseListA rest

/-- Erasure of an entry list. -/
def eraseEntriesA : List AEntry → List MEntry
  | [] => []
  | (k, v, cm) :: rest => (eraseA k, eraseA v, cm) :: eraseEntriesA rest

end

mutual

/-- Fresh allocation of a plain tree, as `interfaceToNode` does when it
re-encodes a custom-merge result into newly constructed nodes. -/
def assignAddrs : Node → Nat → ANode × Nat
  | .document b c, n =>
      let (cc, n1) := assignAddrsList c (n + 1)
      (.document n b cc, n1)
  | .scalar b v st, n => (.scalar n b v st, n + 1)
  | .mapping b e st, n =>
      let (ee, n1) := assignAddrsEntries e (n + 1)
      (.mapping n b ee st, n1)
  | .sequence b c st, n =>
      let (cc, n1) := assignAddrsList c (n + 1)
      (.sequence n b cc st, n1)
  | .alias b i, n => (.alias n b i, n + 1)

/-- Fresh allocation of a node list. -/
def assignAddrsList : List Node → Nat → List ANode × Nat
  | [], n => ([], n)
  | x :: rest, n =>
      let (x1, n1) := assignAddrs x n
      let (r1, n2) := assignAddrsList rest n1
      (x1 :: r1, n2)

/-- Fresh allocation of an entry list. -/
def assignAddrsEntries : List MEntry → Nat → List AEntry × Nat
  | [], n => ([], n)
  | (k, v, cm) :: rest, n =>
      let (k1, n1) := assignAddrs k n
      let (v1, n2) := assignAddrs v n1
      let (r1, n3) := assignAddrsEntries rest n2
      ((k1, v1, cm) :: r1, n3)

end

/-- `getNodeStringValue` on addressed nodes. -/
def getNodeStringValueA : ANode → String
  | .scalar _ _ v _ => v
  | _ => ""

/-- Entry keys of an addressed mapping. -/
def keysOfA (entries : List AEntry) : List String :=
  entries.map fun e => getNodeStringValueA e.1

/-- The `aMap`/`bMap` lookup on addressed entries. -/
def lookupEntryA (entries : List AEntry) (k : String) : Option AEntry :=
  entries.reverse.find? fun e => getNodeStringValueA e.1 = k

/-- sizeOf of an entry found by `lookupEntryA` is below the list's. -/
theorem lookupEntryA_sizeOf_lt {entries : List AEntry} {k : String} {e : AEntry}
    (h : lookupEntryA entries k = some e) : sizeOf e < sizeOf entries :=
  List.sizeOf_lt_of_mem (List.mem_reverse.mp (List.mem_of_find?_eq_some h))

/-- The Union equality key of an addressed item: its emitted bytes (the
address is a heap artifact and does not appear in the output). -/
def nodeToStringA (n : ANode) : String := marshalNode (eraseA n)

/-- The `ArrayUnion` loops on addressed nodes, cloning unseen items. -/
def unionLoopA : List ANode → List String → Nat → List ANode × Nat
  | [], _, n => ([], n)
  | x :: rest, seen, n =>
      let key := nodeToStringA x
      if seen.contains key then unionLoopA rest seen n
      else
        let (x1, n1) := cloneA x n
        let (r1, n2) := unionLoopA rest (key :: seen) n1
        (x1 :: r1, n2)

/-- `mergeScalars` with explicit allocation: a clone of the winning scalar,
whose comment may then be overwritten in place. -/
def mergeScalarsA (opts : MergeOptions) (aa : Nat) (ab : Meta) (av : String)
    (asty : ScalarStyle) (ba : Nat) (bb : Meta) (bv : String) (bsty : ScalarStyle)
    (n : Nat) : ANode × Nat :=
  if opts.mode = .override || opts.mode = .deep then
    let (m, n1) := cloneA (.scalar ba bb bv bsty) n
    (if opts.preserveComments then m.setComment (mergeComments ab.comment bb.comment) else m, n1)
  else
    let (m, n1) := cloneA (.scalar aa ab av asty) n
    (if (opts.preserveComments && bb.comment.headComment ≠ "") || bb.comment.lineComment ≠ ""
     then m.setComment (mergeComments ab.comment bb.comment) else m, n1)


mutual

/-- `mergeNodesRecursive` with explicit allocation (threading the next
fresh address `n`). -/
def mergeNodesRecursiveA (opts : MergeOptions) (a b : ANode) (path : String) (n : Nat) :
    Except String (ANode × Nat) :=
  match opts.custom.bind fun f => f path (eraseA a) (eraseA b) with
  | some r => .ok (assignAddrs r n)
  | none =>
    if a.kind ≠ b.kind then
      if !opts.allowTypeMismatch then
        .error ("type mismatch at " ++ path ++ ": " ++ kindStr a.kind ++ " vs " ++ kindStr b.kind)
      else if opts.mode = .override then .ok (cloneA b n)
      else .ok (cloneA a n)
    else
      match a, b with
      | .document _ ab ac, .document _ bb bc => mergeDocumentsA opts ab ac bb bc path n
      | .mapping _ ab ae asty, .mapping _ bb be _ => mergeMappingsA opts ab ae asty bb be path n
      | .sequence _ ab ac asty, .sequence _ bb bc _ => mergeSequencesA opts ab ac asty bb bc path n
      | .scalar aa ab av asty, .scalar ba bb bv bsty =>
          .ok (mergeScalarsA opts aa ab av asty ba bb bv bsty n)
      | x, y => if opts.mode = .override then .ok (cloneA y n) else .ok (cloneA x n)
termination_by (sizeOf a + sizeOf b, 2, 0)

/-- `mergeDocuments` with explicit allocation; the `&ast.Document{}` result
struct takes the first fresh address. -/
def mergeDocumentsA (opts : MergeOptions) (ab : Meta) (ac : List ANode)
    (bb : Meta) (bc : List ANode) (path : String) (n : Nat) : Except String (ANode × Nat) :=
  let cm := if opts.preserveComments then mergeComments ab.comment bb.comment else emptyComment
  if ac.isEmpty then
    let (cc, n1) := cloneListA bc (n + 1)
    .ok (.document n { emptyMeta with comment := cm } cc, n1)
  else if bc.isEmpty then
    let (cc, n1) := cloneListA ac (n + 1)
    .ok (.document n { emptyMeta with comment := cm } cc, n1)
  else do
    let (shared, n1) ← mergeIndexedA opts ac bc path 0 (n + 1)
    let (extra, n2) :=
      if bc.length > ac.length then cloneListA (bc.drop ac.length) n1
      else if opts.mode = .preserve && ac.length > bc.length then cloneListA (ac.drop bc.length) n1
      else ([], n1)
    .ok (.document n { emptyMeta with comment := cm } (shared ++ extra), n2)
termination_by (sizeOf ac + sizeOf bc, 1, 0)

/-- The by-index merge loop with explicit allocation. -/
def mergeIndexedA (opts : MergeOptions) (ac bc : List ANode) (path : String) (i : Nat)
    (n : Nat) : Except String (List ANode × Nat) :=
  match ac, bc with
  | [], _ => .ok ([], n)
  | _, [] => .ok ([], n)
  | x :: xs, y :: ys => do
      let (v, n1) ← mergeNodesRecursiveA opts x y (path ++ "[" ++ toString i ++ "]") n
      let (rest, n2) ← mergeIndexedA opts xs ys path (i + 1) n1
      .ok (v :: rest, n2)
termination_by (sizeOf ac + sizeOf bc, 0, 0)

/-- `mergeMappings` with explicit allocation. -/
def mergeMappingsA (opts : MergeOptions) (ab : Meta) (ae : List AEntry)
    (asty : CollectionStyle) (bb : Meta) (be : List AEntry) (path : String) (n : Nat) :
    Except String (ANode × Nat) :=
  let cm := if opts.preserveComments then mergeComments ab.comment bb.comment else emptyComment
  let aKeys := keysOfA ae
  let bKeys := keysOfA be
  let keys :=
    if !opts.preserveOrder then aKeys ++ bKeys.filter (fun k => !aKeys.contains k)
    else mergeKeyOrder aKeys bKeys
  do
    let (entries, processed, n1) ← processKeysA opts ae be path keys [] (n + 1)
    let (extra, n2) :=
      if opts.mode ≠ .preserve then
        cloneEntriesA
          ((bKeys.filter fun k => !processed.contains k).filterMap fun k => lookupEntryA be k) n1
      else ([], n1)
    .ok (.mapping n { emptyMeta with comment := cm } (entries ++ extra) asty, n2)
termination_by (sizeOf ae + sizeOf be, 1, 0)

/-- The main key loop of `mergeMappings` with explicit allocation. -/
def processKeysA (opts : MergeOptions) (ae be : List AEntry) (path : String) :
    List String → List String → Nat → Except String (List AEntry × List String × Nat)
  | [], seen, n => .ok ([], seen, n)
  | k :: rest, seen, n =>
      if seen.contains k then processKeysA opts ae be path rest seen n
      else
        let seen' := k :: seen
        match h1 : lookupEntryA ae k, h2 : lookupEntryA be k with
        | none, some bE => do
            let (e1, n1) := cloneEntriesA [bE] n
            let (es, s, n2) ← processKeysA opts ae be path rest seen' n1
            .ok (e1 ++ es, s, n2)
        | some aE, none =>
            if opts.mode ≠ .override then do
              let (e1, n1) := cloneEntriesA [aE] n
              let (es, s, n2) ← processKeysA opts ae be path rest seen' n1
              .ok (e1 ++ es, s, n2)
            else
              processKeysA opts ae be path rest seen' n
        | some aE, some bE => do
            have ha : sizeOf aE.2.1 < sizeOf ae := by
              have h := lookupEntryA_sizeOf_lt h1
              obtain ⟨x1, x2, x3⟩ := aE
              simp at h ⊢; omega
            have hb : sizeOf bE.2.1 < sizeOf be := by
              have h := lookupEntryA_sizeOf_lt h2
              obtain ⟨x1, x2, x3⟩ := bE
              simp at h ⊢; omega
            let (ka, n1) := cloneA aE.1 n
            let (mv, n2) ← mergeNodesRecursiveA opts aE.2.1 bE.2.1 (path ++ "." ++ k) n1
            let ecm := if opts.preserveComments then mergeComments aE.2.2 bE.2.2
                       else emptyComment
            let (es, s, n3) ← processKeysA opts ae be path rest seen' n2
            .ok ((ka, mv, ecm) :: es, s, n3)
        | none, none => processKeysA opts ae be path rest seen' n
termination_by keys _ _ => (sizeOf ae + sizeOf be, 0, sizeOf keys)

/-- `mergeSequences` with explicit allocation. -/
def mergeSequencesA (opts : MergeOptions) (ab : Meta) (ac : List ANode)
    (asty : CollectionStyle) (bb : Meta) (bc : List ANode) (path : String) (n : Nat) :
    Except String (ANode × Nat) :=
  let cm := if opts.preserveComments then mergeComments ab.comment bb.comment else emptyComment
  match opts.arrayMergeStrategy with
  | .replace =>
      let (cc, n1) := cloneListA bc (n + 1)
      .ok (.sequence n { emptyMeta with comment := cm } cc asty, n1)
  | .append =>
      let (c1, n1) := cloneListA ac (n + 1)
      let (c2, n2) := cloneListA bc n1
      .ok (.sequence n { emptyMeta with comment := cm } (c1 ++ c2) asty, n2)
  | .byIndex => do
      let (shared, n1) ← mergeIndexedA opts ac bc path 0 (n + 1)
      let (tail, n2) :=
        if ac.length > bc.length then cloneListA (ac.drop bc.length) n1
        else cloneListA (bc.drop ac.length) n1
      .ok (.sequence n { emptyMeta with comment := cm } (shared ++ tail) asty, n2)
  | .union =>
      let (cc, n1) := unionLoopA (ac ++ bc) [] (n + 1)
      .ok (.sequence n { emptyMeta with comment := cm } cc asty, n1)
  | .byKey =>
      let (cc, n1) := cloneListA bc (n + 1)
      .ok (.sequence n { emptyMeta with comment := cm } cc asty, n1)
termination_by (sizeOf ac + sizeOf bc, 1, 0)

end

/-- `MergeNodes` with explicit allocation. -/
def mergeNodesA (a b : ANode) (opts : MergeOptions) (n : Nat) : Except String (ANode × Nat) :=
  mergeNodesRecursiveA opts a b "" n

/-- `processKeysA` with its termination hypotheses stripped (a plain match
in place of the dependent one); used to reason about the addressed key
loop. -/
def collectEntriesA (opts : MergeOptions) (ae be : List AEntry) (path : String) :
    List String → List String → Nat → Except String (List AEntry × List String × Nat)
  | [], seen, n => .ok ([], seen, n)
  | k :: rest, seen, n =>
      if seen.contains k then collectEntriesA opts ae be path rest seen n
      else
        let seen1 := k :: seen
        match lookupEntryA ae k, lookupEntryA be k with
        | none, some bE => do
            let (e1, n1) := cloneEntriesA [bE] n
            let (es, s, n2) ← collectEntriesA opts ae be path rest seen1 n1
            .ok (e1 ++ es, s, n2)
        | some aE, none =>
            if opts.mode ≠ .override then do
              let (e1, n1) := cloneEntriesA [aE] n
              let (es, s, n2) ← collectEntriesA opts ae be path rest seen1 n1
              .ok (e1 ++ es, s, n2)
            else collectEntriesA opts ae be path rest seen1 n
        | some aE, some bE => do
            let (ka, n1) := cloneA aE.1 n
            let (mv, n2) ← mergeNodesRecursiveA opts aE.2.1 bE.2.1 (path ++ "." ++ k) n1
            let ecm := if opts.preserveComments then mergeComments aE.2.2 bE.2.2
                       else emptyComment
            let (es, s, n3) ← collectEntriesA opts ae be path rest seen1 n2
            .ok ((ka, mv, ecm) :: es, s, n3)
        | none, none => collectEntriesA opts ae be path rest seen1 n

/-! ## Scanner (lexer/scanner.go)

The scanner reads bytes one at a time from a `bufio.Reader` into a growing
buffer.  `input` is the full byte sequence the reader will deliver, `bufLen`
how much of it has been buffered (`len(s.buffer)`), and `pos` the scanner's
`position`.  Bytes are `Nat` values below 256.  The `for` loops of the Go
methods become fuel-indexed recursion; every call site passes `fuelOf s`,
which exceeds the number of remaining bytes and hence the iteration count of
every loop (each iteration consumes at least one byte), so the zero-fuel
fallthroughs are never reached. -/

/-- Mirrors `lexer.TokenType` (all constants, including the unused
Indent/Dedent/Value/SequenceStart/MappingStart ones). -/
inductive TokType where
  | tokenEOF
  | tokenNewLine
  | tokenIndent
  | tokenDedent
  | tokenDocumentStart
  | tokenDocumentEnd
  | tokenKey
  | tokenValue
  | tokenString
  | tokenNumber
  | tokenBoolean
  | tokenNull
  | tokenSequenceStart
  | tokenSequenceItem
  | tokenMappingStart
  | tokenAnchor
  | tokenAlias
  | tokenTag
  | tokenComment
  | tokenLiteralBlock
  | tokenFoldedBlock
  | tokenFlowSequenceStart
  | tokenFlowSequenceEnd
  | tokenFlowMappingStart
  | tokenFlowMappingEnd
  | tokenFlowEntry
  | tokenError
deriving Repr, DecidableEq

/-- Mirrors `lexer.Token`. -/
structure Token where
  type : TokType
  value : String
  line : Nat
  column : Nat
  offset : Nat
deriving Repr, DecidableEq

/-- Mirrors `lexer.Scanner`: reader+buffer (as `input`/`bufLen`), position
counters, the flow depth (`int` in Go, hence `Int` here), and the pushback
token list (`tokens[tokenIndex:]`). -/
structure ScanState where
  input : List Nat
  bufLen : Nat
  pos : Nat
  line : Nat
  col : Nat
  off : Nat
  inFlow : Int
  pending : List Token
deriving Repr, DecidableEq

/-- Mirrors `NewScanner`. -/
def initScanner (input : List Nat) : ScanState :=
  ⟨input, 0, 0, 1, 1, 0, 0, []⟩

/-- Fuel bound used for every loop: more than the bytes that remain. -/
def fuelOf (s : ScanState) : Nat := s.input.length + 1

/-- Mirrors `fillBuffer`: read one more byte if the reader has one. -/
def fillBuffer (s : ScanState) : ScanState × Bool :=
  if s.bufLen < s.input.length then ({ s with bufLen := s.bufLen + 1 }, true)
  else (s, false)

/-- Mirrors `peek`: fill once if needed, return the buffered byte (0 at
end of input). -/
def peekS (s : ScanState) : ScanState × Nat :=
  let s1 := if s.bufLen ≤ s.pos then (fillBuffer s).1 else s
  if s1.pos < s1.bufLen then (s1, s1.input.getD s1.pos 0) else (s1, 0)

/-- The fill loop shared by `peekAhead` and `isEOFAt`, fuel-indexed: fill
until `pos + k < bufLen` or the reader is exhausted. -/
def ensureAheadF : Nat → ScanState → Nat → ScanState
  | 0, s, _ => s
  | f + 1, s, k =>
      if s.bufLen ≤ s.pos + k then
        if s.bufLen < s.input.length then ensureAheadF f { s with bufLen := s.bufLen + 1 } k
        else s
      else s

/-- The fill loop with sufficient fuel (it runs at most
`pos + k + 1 - bufLen` times). -/
def ensureAhead (s : ScanState) (k : Nat) : ScanState :=
  ensureAheadF (s.pos + k + 1) s k

/-- Mirrors `peekAhead`. -/
def peekAheadS (s : ScanState) (k : Nat) : ScanState × Nat :=
  let s1 := ensureAhead s k
  if s1.pos + k < s1.bufLen then (s1, s1.input.getD (s1.pos + k) 0) else (s1, 0)

/-- Mirrors `advance`: consume one buffered byte. -/
def advanceS (s : ScanState) : ScanState :=
  if s.pos < s.bufLen then { s with pos := s.pos + 1, col := s.col + 1, off := s.off + 1 }
  else s

/-- Mirrors `isEOF`: `position >= len(buffer) && !fillBuffer()` (the fill is
attempted only when the buffer is exhausted). -/
def isEOFS (s : ScanState) : ScanState × Bool :=
  if s.pos < s.bufLen then (s, false)
  else
    match fillBuffer s with
    | (s1, ok) => (s1, !ok)

/-- Mirrors `isEOFAt`. -/
def isEOFAtS (s : ScanState) (k : Nat) : ScanState × Bool :=
  let s1 := ensureAhead s k
  (s1, decide (s1.bufLen ≤ s1.pos + k))

/-- Mirrors `makeToken` (token at the current position). -/
def makeToken (s : ScanState) (t : TokType) (v : String) : Token :=
  ⟨t, v, s.line, s.col, s.off⟩

/-- The byte-per-char reading of a collected byte buffer as a Go string. -/
def byteListToString (l : List Nat) : String :=
  String.mk (l.map Char.ofNat)

/-- Byte values used by the scanner dispatch. -/
def bSpace : Nat := 32
/-- Tab byte. -/
def bTab : Nat := 9
/-- Newline byte. -/
def bNewline : Nat := 10
/-- `#` byte. -/
def bHash : Nat := 35
/-- `-` byte. -/
def bDash : Nat := 45
/-- `.` byte. -/
def bDot : Nat := 46
/-- `[` byte. -/
def bLBracket : Nat := 91
/-- `]` byte. -/
def bRBracket : Nat := 93
/-- Opening brace byte. -/
def bLBrace : Nat := 123
/-- Closing brace byte. -/
def bRBrace : Nat := 125
/-- `,` byte. -/
def bComma : Nat := 44
/-- `:` byte. -/
def bColon : Nat := 58
/-- `|` byte. -/
def bPipe : Nat := 124
/-- `>` byte. -/
def bGT : Nat := 62
/-- Single-quote byte. -/
def bSQuote : Nat := 39
/-- Double-quote byte. -/
def bDQuote : Nat := 34
/-- `&` byte. -/
def bAmp : Nat := 38
/-- `*` byte. -/
def bStar : Nat := 42
/-- `!` byte. -/
def bBang : Nat := 33
/-- `+` byte. -/
def bPlus : Nat := 43
/-- Backslash byte. -/
def bBackslash : Nat := 92

/-- Mirrors `skipWhitespace`: skip space and tab bytes. -/
def skipWhitespaceS : Nat → ScanState → ScanState
  | 0, s => s
  | f + 1, s =>
      match isEOFS s with
      | (s, true) => s
      | (s, false) =>
          let (s, c) := peekS s
          if c = bSpace || c = bTab then skipWhitespaceS f (advanceS s) else s

/-- Mirrors `skipToEndOfLine`. -/
def skipToEndOfLineS : Nat → ScanState → ScanState
  | 0, s => s
  | f + 1, s =>
      match isEOFS s with
      | (s, true) => s
      | (s, false) =>
          let (s, c) := peekS s
          if c ≠ bNewline then skipToEndOfLineS f (advanceS s) else s

/-- Mirrors `countIndent`: counts leading spaces from `position` in the
bytes buffered so far — it walks `s.buffer` only and never fills. -/
def countIndent (s : ScanState) : Nat :=
  (((s.input.take s.bufLen).drop s.pos).takeWhile (· = bSpace)).length

/-- Mirrors `skipIndent`: advance over up to `count` spaces. -/
def skipIndentS : Nat → ScanState → ScanState
  | 0, s => s
  | c + 1, s =>
      match isEOFS s with
      | (s, true) => s
      | (s, false) =>
          let (s, ch) := peekS s
          if ch = bSpace then skipIndentS c (advanceS s) else s

/-- The byte-collecting loop of `scanComment`: bytes up to newline or end
of input. -/
def commentLoop : Nat → ScanState → List Nat → List Nat × ScanState
  | 0, s, acc => (acc, s)
  | f + 1, s, acc =>
      match isEOFS s with
      | (s, true) => (acc, s)
      | (s, false) =>
          let (s, c) := peekS s
          if c = bNewline then (acc, s)
          else commentLoop f (advanceS s) (acc ++ [c])

/-- Mirrors `scanComment`. -/
def scanComment (s : ScanState) : Token × ScanState :=
  let startLine := s.line
  let startCol := s.col
  let startOff := s.off
  let s := advanceS s
  let (acc, s) := commentLoop (fuelOf s) s []
  (⟨.tokenComment, trimSpaceGo (byteListToString acc), startLine, startCol, startOff⟩, s)

/-- Mirrors `scanNewline`: emit the token, consume the byte, bump the line
and reset the column. -/
def scanNewline (s : ScanState) : Token × ScanState :=
  let t := makeToken s .tokenNewLine "\n"
  let s := advanceS s
  (t, { s with line := s.line + 1, col := 1 })

/-- Mirrors `scanDocumentStart`. -/
def scanDocumentStart (s : ScanState) : Token × ScanState :=
  (makeToken s .tokenDocumentStart "---", advanceS (advanceS (advanceS s)))

/-- Mirrors `scanDocumentEnd`. -/
def scanDocumentEnd (s : ScanState) : Token × ScanState :=
  (makeToken s .tokenDocumentEnd "...", advanceS (advanceS (advanceS s)))

/-- Mirrors `scanSequenceItem`: consumes the dash and the space. -/
def scanSequenceItem (s : ScanState) : Token × ScanState :=
  (makeToken s .tokenSequenceItem "-", advanceS (advanceS s))

/-- Mirrors `scanFlowSequenceStart`: `inFlow++`. -/
def scanFlowSequenceStart (s : ScanState) : Token × ScanState :=
  let t := makeToken s .tokenFlowSequenceStart "["
  let s := advanceS s
  (t, { s with inFlow := s.inFlow + 1 })

/-- Mirrors `scanFlowSequenceEnd`: `inFlow` is decremented only when
positive. -/
def scanFlowSequenceEnd (s : ScanState) : Token × ScanState :=
  let t := makeToken s .tokenFlowSequenceEnd "]"
  let s := advanceS s
  (t, if s.inFlow > 0 then { s with inFlow := s.inFlow - 1 } else s)

/-- Mirrors `scanFlowMappingStart`: `inFlow++`. -/
def scanFlowMappingStart (s : ScanState) : Token × ScanState :=
  let t := makeToken s .tokenFlowMappingStart (String.mk [Char.ofNat bLBrace])
  let s := advanceS s
  (t, { s with inFlow := s.inFlow + 1 })

/-- Mirrors `scanFlowMappingEnd`: `inFlow` is decremented only when
positive. -/
def scanFlowMappingEnd (s : ScanState) : Token × ScanState :=
  let t := makeToken s .tokenFlowMappingEnd (String.mk [Char.ofNat bRBrace])
  let s := advanceS s
  (t, if s.inFlow > 0 then { s with inFlow := s.inFlow - 1 } else s)

/-- Mirrors `scanFlowEntry`. -/
def scanFlowEntry (s : ScanState) : Token × ScanState :=
  (makeToken s .tokenFlowEntry ",", advanceS s)

/-- Mirrors `scanKey`. -/
def scanKey (s : ScanState) : Token × ScanState :=
  (makeToken s .tokenKey ":", advanceS s)

/-- Mirrors `scanChompingIndicator`: consume and return `+`/`-`, else
the empty string. -/
def scanChompingIndicator (s : ScanState) : ScanState × String :=
  let (s, c) := peekS s
  if c = bPlus || c = bDash then (advanceS s, byteListToString [c]) else (s, "")

/-- Mirrors `strings.TrimRight(value, "\n")`. -/
def trimRightNL (v : String) : String :=
  String.mk (v.data.reverse.dropWhile (· = '\n')).reverse

/-- Mirrors `applyChomping` (scanner.go lines 345-352): `-` strips all
trailing newlines, any indicator other than `+` (i.e. absence) strips them
and appends exactly one, `+` keeps the content as collected. -/
def applyChomping (value chomping : String) : String :=
  if chomping = "-" then trimRightNL value
  else if chomping ≠ "+" then trimRightNL value ++ "\n"
  else value

/-- The inner line-copying loop of the block scanners: bytes up to the next
newline or end of input. -/
def lineLoop : Nat → ScanState → List Nat → List Nat × ScanState
  | 0, s, acc => (acc, s)
  | f + 1, s, acc =>
      match isEOFS s with
      | (s, true) => (acc, s)
      | (s, false) =>
          let (s, c) := peekS s
          if c = bNewline then (acc, s)
          else lineLoop f (advanceS s) (acc ++ [c])

/-- The dedent test of the block-scalar loops: `indent < baseIndent &&
s.peek() != '\n'` with Go's short-circuit (the buffer is only filled by
`peek` when the indent is small). -/
def blockStop (s : ScanState) (baseIndent : Nat) : ScanState × Bool :=
  if countIndent s < baseIndent then
    let (s1, c) := peekS s
    (s1, c ≠ bNewline)
  else (s, false)

/-- The outer collection loop of `scanLiteralBlock`. -/
def literalLoop : Nat → ScanState → Nat → List Nat → List Nat × ScanState
  | 0, s, _, acc => (acc, s)
  | f + 1, s, baseIndent, acc =>
      match isEOFS s with
      | (s, true) => (acc, s)
      | (s, false) =>
          let indent := countIndent s
          let (s, stop) := blockStop s baseIndent
          if stop then (acc, s)
          else
            let s := skipIndentS indent s
            let (acc, s) := lineLoop f s acc
            match isEOFS s with
            | (s, true) => literalLoop f s baseIndent acc
            | (s, false) =>
                let s := advanceS s
                literalLoop f { s with line := s.line + 1, col := 1 } baseIndent (acc ++ [bNewline])

/-- Mirrors `scanLiteralBlock`: header (indicator and rest of line), base
indent from the first content line, collection until a dedent, chomping. -/
def scanLiteralBlock (s : ScanState) : Token × ScanState :=
  let startLine := s.line
  let startCol := s.col
  let startOff := s.off
  let s := advanceS s
  let (s, chomping) := scanChompingIndicator s
  let s := skipToEndOfLineS (fuelOf s) s
  let s :=
    match isEOFS s with
    | (s, true) => s
    | (s, false) =>
        let (s, c) := peekS s
        if c = bNewline then
          let s := advanceS s
          { s with line := s.line + 1, col := 1 }
        else s
  let baseIndent := countIndent s
  let (acc, s) := literalLoop (fuelOf s) s baseIndent []
  let value := applyChomping (byteListToString acc) chomping
  (⟨.tokenLiteralBlock, value, startLine, startCol, startOff⟩, s)

/-- The outer collection loop of `scanFoldedBlock`: non-empty lines are
joined with a single space, blank lines become a literal newline. -/
def foldedLoop : Nat → ScanState → Nat → List Nat → Bool → List Nat × ScanState
  | 0, s, _, acc, _ => (acc, s)
  | f + 1, s, baseIndent, acc, lastWasEmpty =>
      match isEOFS s with
      | (s, true) => (acc, s)
      | (s, false) =>
          let indent := countIndent s
          let (s, stop) := blockStop s baseIndent
          if stop then (acc, s)
          else
            let s := skipIndentS indent s
            let (s, c) := peekS s
            let lineEmpty := c = bNewline
            let (acc, s, lastWasEmpty) :=
              if !lineEmpty then
                let acc := if acc.length > 0 && !lastWasEmpty then acc ++ [bSpace] else acc
                let (acc, s) := lineLoop f s acc
                (acc, s, false)
              else
                (if acc.length > 0 then acc ++ [bNewline] else acc, s, true)
            match isEOFS s with
            | (s, true) => foldedLoop f s baseIndent acc lastWasEmpty
            | (s, false) =>
                let (s, c2) := peekS s
                if c2 = bNewline then
                  let s := advanceS s
                  foldedLoop f { s with line := s.line + 1, col := 1 } baseIndent acc lastWasEmpty
                else foldedLoop f s baseIndent acc lastWasEmpty

/-- Mirrors `scanFoldedBlock`. -/
def scanFoldedBlock (s : ScanState) : Token × ScanState :=
  let startLine := s.line
  let startCol := s.col
  let startOff := s.off
  let s := advanceS s
  let (s, chomping) := scanChompingIndicator s
  let s := skipToEndOfLineS (fuelOf s) s
  let s :=
    match isEOFS s with
    | (s, true) => s
    | (s, false) =>
        let (s, c) := peekS s
        if c = bNewline then
          let s := advanceS s
          { s with line := s.line + 1, col := 1 }
        else s
  let baseIndent := countIndent s
  let (acc, s) := foldedLoop (fuelOf s) s baseIndent [] false
  let value := applyChomping (byteListToString acc) chomping
  (⟨.tokenFoldedBlock, value, startLine, startCol, startOff⟩, s)

/-- The collection loop of `scanSingleQuotedString`: `''` is an escaped
quote, a lone quote terminates, newlines bump the line counter. -/
def singleQuotedLoop : Nat → ScanState → List Nat → List Nat × ScanState
  | 0, s, acc => (acc, s)
  | f + 1, s, acc =>
      match isEOFS s with
      | (s, true) => (acc, s)
      | (s, false) =>
          let (s, c) := peekS s
          if c = bSQuote then
            let (s, c2) := peekAheadS s 1
            if c2 = bSQuote then singleQuotedLoop f (advanceS (advanceS s)) (acc ++ [bSQuote])
            else (acc, advanceS s)
          else
            let s := advanceS s
            let s := if c = bNewline then { s with line := s.line + 1, col := 1 } else s
            singleQuotedLoop f s (acc ++ [c])

/-- Mirrors `scanSingleQuotedString`. -/
def scanSingleQuotedString (s : ScanState) : Token × ScanState :=
  let startLine := s.line
  let startCol := s.col
  let startOff := s.off
  let s := advanceS s
  let (acc, s) := singleQuotedLoop (fuelOf s) s []
  (⟨.tokenString, byteListToString acc, startLine, startCol, startOff⟩, s)

/-- The decoded byte of a double-quoted escape sequence; unknown escapes
pass the byte through. -/
def escByte (c : Nat) : Nat :=
  if c = 110 then 10        -- n
  else if c = 116 then 9    -- t
  else if c = 114 then 13   -- r
  else if c = bBackslash then bBackslash
  else if c = bDQuote then bDQuote
  else if c = 48 then 0     -- 0
  else if c = 97 then 7     -- a
  else if c = 98 then 8     -- b
  else if c = 118 then 11   -- v
  else if c = 102 then 12   -- f
  else if c = 101 then 27   -- e
  else c

/-- The collection loop of `scanDoubleQuotedString`. -/
def doubleQuotedLoop : Nat → ScanState → List Nat → List Nat × ScanState
  | 0, s, acc => (acc, s)
  | f + 1, s, acc =>
      match isEOFS s with
      | (s, true) => (acc, s)
      | (s, false) =>
          let (s, c) := peekS s
          if c = bDQuote then (acc, advanceS s)
          else if c = bBackslash then
            let s := advanceS s
            match isEOFS s with
            | (s, true) => doubleQuotedLoop f s acc
            | (s, false) =>
                let (s, e) := peekS s
                doubleQuotedLoop f (advanceS s) (acc ++ [escByte e])
          else
            let s := advanceS s
            let s := if c = bNewline then { s with line := s.line + 1, col := 1 } else s
            doubleQuotedLoop f s (acc ++ [c])

/-- Mirrors `scanDoubleQuotedString`. -/
def scanDoubleQuotedString (s : ScanState) : Token × ScanState :=
  let startLine := s.line
  let startCol := s.col
  let startOff := s.off
  let s := advanceS s
  let (acc, s) := doubleQuotedLoop (fuelOf s) s []
  (⟨.tokenString, byteListToString acc, startLine, startCol, startOff⟩, s)

/-- Go `unicode.IsLetter(rune(b))` for a byte value `b` (ASCII and Latin-1
letters). -/
def isGoLetterByte (b : Nat) : Bool :=
  (65 ≤ b && b ≤ 90) || (97 ≤ b && b ≤ 122) || b = 0xAA || b = 0xB5 || b = 0xBA ||
  (0xC0 ≤ b && b ≤ 0xD6) || (0xD8 ≤ b && b ≤ 0xF6) || (0xF8 ≤ b && b ≤ 0xFF)

/-- Mirrors `isAnchorChar`: letters, digits, `_`, `-`. -/
def isAnchorCharB (b : Nat) : Bool :=
  isGoLetterByte b || (48 ≤ b && b ≤ 57) || b = 95 || b = bDash

/-- Go `unicode.IsSpace(rune(b))` for a byte value `b`. -/
def isGoSpaceByte (b : Nat) : Bool :=
  b = 9 || b = 10 || b = 11 || b = 12 || b = 13 || b = 32 || b = 0x85 || b = 0xA0

/-- The name-collecting loop of `scanAnchor`/`scanAlias`. -/
def nameLoop : Nat → ScanState → List Nat → List Nat × ScanState
  | 0, s, acc => (acc, s)
  | f + 1, s, acc =>
      match isEOFS s with
      | (s, true) => (acc, s)
      | (s, false) =>
          let (s, c) := peekS s
          if isAnchorCharB c then nameLoop f (advanceS s) (acc ++ [c])
          else (acc, s)

/-- Mirrors `scanAnchor`. -/
def scanAnchor (s : ScanState) : Token × ScanState :=
  let startLine := s.line
  let startCol := s.col
  let startOff := s.off
  let s := advanceS s
  let (acc, s) := nameLoop (fuelOf s) s []
  (⟨.tokenAnchor, byteListToString acc, startLine, startCol, startOff⟩, s)

/-- Mirrors `scanAlias`. -/
def scanAlias (s : ScanState) : Token × ScanState :=
  let startLine := s.line
  let startCol := s.col
  let startOff := s.off
  let s := advanceS s
  let (acc, s) := nameLoop (fuelOf s) s []
  (⟨.tokenAlias, byteListToString acc, startLine, startCol, startOff⟩, s)

/-- The tag-collecting loop of `scanTag`: bytes up to whitespace. -/
def tagLoop : Nat → ScanState → List Nat → List Nat × ScanState
  | 0, s, acc => (acc, s)
  | f + 1, s, acc =>
      match isEOFS s with
      | (s, true) => (acc, s)
      | (s, false) =>
          let (s, c) := peekS s
          if !isGoSpaceByte c then tagLoop f (advanceS s) (acc ++ [c])
          else (acc, s)

/-- Mirrors `scanTag`: a second `!` is kept, then bytes up to whitespace. -/
def scanTag (s : ScanState) : Token × ScanState :=
  let startLine := s.line
  let startCol := s.col
  let startOff := s.off
  let s := advanceS s
  let (s, c) := peekS s
  let (acc, s) := if c = bBang then (([bBang] : List Nat), advanceS s) else ([], s)
  let (acc, s) := tagLoop (fuelOf s) s acc
  (⟨.tokenTag, byteListToString acc, startLine, startCol, startOff⟩, s)

/-- Mirrors `(Scanner).isNumber`'s character loop: allowed bytes, and a sign
only at the start or right after an exponent byte. -/
def isNumberChars : List Char → Option Char → Bool
  | [], _ => true
  | c :: rest, prev =>
      if !(isDigitByte c || c = '.' || c = '-' || c = '+' || c = 'e' || c = 'E' || c = '_') then
        false
      else if (c = '-' || c = '+') &&
          (match prev with
           | none => false
           | some p => p ≠ 'e' && p ≠ 'E') then
        false
      else isNumberChars rest (some c)

/-- Mirrors `(Scanner).isNumber`. -/
def isNumber (value : String) : Bool :=
  if value.data.isEmpty then false
  else if value = ".inf" || value = "-.inf" || value = "+.inf" || value = ".nan" then true
  else
    match value.data with
    | '0' :: 'x' :: _ => true
    | '0' :: 'o' :: _ => true
    | '0' :: 'b' :: _ => true
    | l => isNumberChars l none

/-- Mirrors `detectScalarType`: null, boolean, number, else string. -/
def detectScalarType (value : String) : TokType :=
  if value = "null" || value = "~" || value = "" then .tokenNull
  else
    let lower := String.mk (value.data.map asciiLower)
    if lower = "true" || lower = "false" || lower = "yes" || lower = "no" ||
        lower = "on" || lower = "off" then .tokenBoolean
    else if isNumber value then .tokenNumber
    else .tokenString

/-- The collection loop of `scanScalar`: bytes up to a key-like `:`, a
comment, a newline, or (inside flow context) `,`/`]`/closing brace. -/
def scalarLoop : Nat → ScanState → List Nat → List Nat × ScanState
  | 0, s, acc => (acc, s)
  | f + 1, s, acc =>
      match isEOFS s with
      | (s, true) => (acc, s)
      | (s, false) =>
          let (s, c) := peekS s
          if c = bColon then
            let (s, c1) := peekAheadS s 1
            if c1 = bSpace || c1 = bNewline then (acc, s)
            else
              let (s, e1) := isEOFAtS s 1
              if e1 then (acc, s)
              else scalarLoop f (advanceS s) (acc ++ [c])
          else if c = bNewline || c = bHash then (acc, s)
          else if s.inFlow > 0 && (c = bComma || c = bRBrace || c = bRBracket) then (acc, s)
          else scalarLoop f (advanceS s) (acc ++ [c])

/-- Mirrors `scanScalar`: collect, trim, classify. -/
def scanScalar (s : ScanState) : Token × ScanState :=
  let startLine := s.line
  let startCol := s.col
  let startOff := s.off
  let (acc, s) := scalarLoop (fuelOf s) s []
  let value := trimSpaceGo (byteListToString acc)
  (⟨detectScalarType value, value, startLine, startCol, startOff⟩, s)

/-- Continuation of `scanNextTail2` after the key check. -/
def scanNextTail3 (s : ScanState) (c : Nat) : Token × ScanState :=
  if c = bPipe then scanLiteralBlock s
  else if c = bGT then scanFoldedBlock s
  else if c = bSQuote then scanSingleQuotedString s
  else if c = bDQuote then scanDoubleQuotedString s
  else if c = bAmp then scanAnchor s
  else if c = bStar then scanAlias s
  else if c = bBang then scanTag s
  else scanScalar s

/-- Continuation of `scanNextTail` after the sequence-item check. -/
def scanNextTail2 (s : ScanState) (c : Nat) : Token × ScanState :=
  if c = bLBracket then scanFlowSequenceStart s
  else if c = bRBracket then scanFlowSequenceEnd s
  else if c = bLBrace then scanFlowMappingStart s
  else if c = bRBrace then scanFlowMappingEnd s
  else if c = bComma && s.inFlow > 0 then scanFlowEntry s
  else if c = bColon then
    let (s, c1) := peekAheadS s 1
    if c1 = bSpace || c1 = bNewline then scanKey s
    else
      let (s, e1) := isEOFAtS s 1
      if e1 then scanKey s
      else scanNextTail3 s c
  else scanNextTail3 s c

/-- The tail of `scanNext` after the document-marker checks: sequence item,
flow structure bytes, flow comma, key colon, block scalars, quoted strings,
anchor/alias/tag, plain scalar. -/
def scanNextTail (s : ScanState) (c : Nat) : Token × ScanState :=
  if c = bDash then
    let (s, c1) := peekAheadS s 1
    if c1 = bSpace then scanSequenceItem s
    else scanNextTail2 s c
  else scanNextTail2 s c

/-- Mirrors `scanNext`: skip leading whitespace, emit `EOF` at end of
input, then dispatch on the current byte in the source's priority order
(comment, newline, document markers at column 1, then `scanNextTail`).
The `&&` chains of the Go conditions short-circuit, so each `peekAhead`
happens only when the previous conjuncts hold. -/
def scanNext (s : ScanState) : Token × ScanState :=
  let s := skipWhitespaceS (fuelOf s) s
  match isEOFS s with
  | (s, true) => (makeToken s .tokenEOF "", s)
  | (s, false) =>
      let (s, c) := peekS s
      if c = bHash then scanComment s
      else if c = bNewline then scanNewline s
      else if s.col = 1 && c = bDash then
        let (s, c1) := peekAheadS s 1
        if c1 = bDash then
          let (s, c2) := peekAheadS s 2
          if c2 = bDash then scanDocumentStart s
          else scanNextTail s c
        else scanNextTail s c
      else if s.col = 1 && c = bDot then
        let (s, c1) := peekAheadS s 1
        if c1 = bDot then
          let (s, c2) := peekAheadS s 2
          if c2 = bDot then scanDocumentEnd s
          else scanNextTail s c
        else scanNextTail s c
      else scanNextTail s c

/-- Mirrors `Scan`: serve a pushed-back token first, otherwise scan. -/
def scanTok (s : ScanState) : Token × ScanState :=
  match s.pending with
  | t :: rest => (t, { s with pending := rest })
  | [] => scanNext s

/-- Mirrors `PushBack`. -/
def pushBack (s : ScanState) (t : Token) : ScanState :=
  { s with pending := t :: s.pending }

/-- `n` tokens scanned in sequence (used to state stream invariants). -/
def scanIter : Nat → ScanState → ScanState
  | 0, s => s
  | n + 1, s => scanIter n (scanTok s).2

/-! ## Parser (parser/parser.go)

The parser pulls tokens from the scanner with one-token pushback, keeps the
anchor table and the pending-comment list, and builds the node tree.  Its
recursion is fuel-indexed; `parseBytes` supplies ample fuel, and a run that
ever exhausted fuel would surface the distinguished `"out of fuel"` error
(no theorem below rests on that branch).  A block-mapping entry whose value
is missing makes the Go tree carry a nil `MappingEntry.Value`; that tree
falls outside the nil-free `Node` model and the embedded parser marks it
with the distinguished `"nil value entry"` error instead (no claim below
concerns such inputs). -/

/-- Mirrors `(TokenType).String()`. -/
def tokTypeName : TokType → String
  | .tokenEOF => "EOF"
  | .tokenNewLine => "NewLine"
  | .tokenIndent => "Indent"
  | .tokenDedent => "Dedent"
  | .tokenDocumentStart => "DocumentStart"
  | .tokenDocumentEnd => "DocumentEnd"
  | .tokenKey => "Key"
  | .tokenValue => "Value"
  | .tokenString => "String"
  | .tokenNumber => "Number"
  | .tokenBoolean => "Boolean"
  | .tokenNull => "Null"
  | .tokenSequenceStart => "SequenceStart"
  | .tokenSequenceItem => "SequenceItem"
  | .tokenMappingStart => "MappingStart"
  | .tokenAnchor => "Anchor"
  | .tokenAlias => "Alias"
  | .tokenTag => "Tag"
  | .tokenComment => "Comment"
  | .tokenLiteralBlock => "LiteralBlock"
  | .tokenFoldedBlock => "FoldedBlock"
  | .tokenFlowSequenceStart => "FlowSequenceStart"
  | .tokenFlowSequenceEnd => "FlowSequenceEnd"
  | .tokenFlowMappingStart => "FlowMappingStart"
  | .tokenFlowMappingEnd => "FlowMappingEnd"
  | .tokenFlowEntry => "FlowEntry"
  | .tokenError => "Error"

/-- Mirrors `parser.Parser`: scanner, current token, anchor table, pending
comments.  An anchor may record a nil node (Go stores whatever `parseValue`
returned), hence `Option Node` values. -/
structure PState where
  scanner : ScanState
  currentToken : Token
  anchors : List (String × Option Node)
  comments : List Token
deriving Repr, DecidableEq

/-- The anchor-table lookup `p.anchors[aliasName]`: the table is written by
assignment, so a later anchor with the same name overwrites (the most
recent binding is found first). -/
def lookupAnchor (anchors : List (String × Option Node)) (name : String) :
    Option (Option Node) :=
  (anchors.find? fun e => e.1 = name).map Prod.snd

/-- Mirrors `(Parser).advance` (the embedded scanner never errors). -/
def advanceP (p : PState) : PState :=
  let (t, sc) := scanTok p.scanner
  { p with scanner := sc, currentToken := t }

/-- Fuel bound for the parser's token-consuming leaf loops. -/
def pfuel (p : PState) : Nat := p.scanner.input.length + p.scanner.pending.length + 2

/-- Mirrors `skipNewlines`. -/
def skipNewlinesP : Nat → PState → PState
  | 0, p => p
  | f + 1, p =>
      if p.currentToken.type = .tokenNewLine then skipNewlinesP f (advanceP p) else p

/-- Mirrors `collectComments`: stash comment tokens, skipping the newlines
that follow each one. -/
def collectCommentsP : Nat → PState → PState
  | 0, p => p
  | f + 1, p =>
      if p.currentToken.type = .tokenComment then
        let p := { p with comments := p.comments ++ [p.currentToken] }
        let p := advanceP p
        let p := if p.currentToken.type = .tokenNewLine then skipNewlinesP (pfuel p) p else p
        collectCommentsP f p
      else p

/-- Mirrors `attachComments`: pending comments become the node's head
comment (a fresh `ast.Comment` replaces the node's comment). -/
def attachCommentsP (p : PState) (n : Node) : Node × PState :=
  if p.comments.isEmpty then (n, p)
  else
    let cm := { emptyComment with
                headComment := String.join (p.comments.map fun c => c.value ++ "\n") }
    (n.setComment cm, { p with comments := [] })

/-- Mirrors `isMapping`: a String/Number/Boolean token followed (via
one-token lookahead and pushback) by a `Key` token. -/
def isMappingP (p : PState) : Bool × PState :=
  if p.currentToken.type ≠ .tokenString && p.currentToken.type ≠ .tokenNumber &&
      p.currentToken.type ≠ .tokenBoolean then
    (false, p)
  else
    let (t, sc) := scanTok p.scanner
    (t.type = .tokenKey, { p with scanner := pushBack sc t })

/-- Mirrors `parseKey`: String/Number/Boolean/Null tokens become plain
scalar keys (no tag is set). -/
def parseKeyP (p : PState) : Except String (Node × PState) :=
  if p.currentToken.type = .tokenString || p.currentToken.type = .tokenNumber ||
      p.currentToken.type = .tokenBoolean || p.currentToken.type = .tokenNull then
    let n := newScalar p.currentToken.value
    let (n, p) := attachCommentsP p n
    .ok (n, advanceP p)
  else .error ("expected key, got " ++ tokTypeName p.currentToken.type)

/-- Mirrors `parseNumber`: `!!float` when the text has `.`/`e`/`E` or is an
infinity/NaN form, else `!!int`. -/
def parseNumberP (p : PState) : Node :=
  let value := p.currentToken.value
  let n := newScalar value
  if value.data.contains '.' || value.data.contains 'e' || value.data.contains 'E' ||
      value = ".inf" || value = "-.inf" || value = ".nan" then
    n.setTag "!!float"
  else n.setTag "!!int"

mutual

/-- Mirrors `parseValue`: absorb newlines and comments, then branch on the
current token. -/
def parseValueP : Nat → PState → Except String (Option Node × PState)
  | 0, _ => .error "out of fuel"
  | f + 1, p =>
      let p := skipNewlinesP (pfuel p) p
      let p := collectCommentsP (pfuel p) p
      match p.currentToken.type with
      | .tokenEOF => .ok (none, p)
      | .tokenDocumentEnd => .ok (none, p)
      | .tokenNull =>
          let n := (newScalar "").setTag "!!null"
          let (n, p) := attachCommentsP p n
          .ok (some n, advanceP p)
      | .tokenBoolean =>
          let (isM, p) := isMappingP p
          if isM then do
            let (m, p) ← parseMappingP f p
            .ok (some m, p)
          else
            let n := (newScalar p.currentToken.value).setTag "!!bool"
            let (n, p) := attachCommentsP p n
            .ok (some n, advanceP p)
      | .tokenNumber =>
          let (isM, p) := isMappingP p
          if isM then do
            let (m, p) ← parseMappingP f p
            .ok (some m, p)
          else
            let n := parseNumberP p
            let (n, p) := attachCommentsP p n
            .ok (some n, advanceP p)
      | .tokenString =>
          let (isM, p) := isMappingP p
          if isM then do
            let (m, p) ← parseMappingP f p
            .ok (some m, p)
          else
            let n := (newScalar p.currentToken.value).setTag "!!str"
            let (n, p) := attachCommentsP p n
            .ok (some n, advanceP p)
      | .tokenLiteralBlock =>
          let n := (Node.scalar emptyMeta p.currentToken.value .literal).setTag "!!str"
          let (n, p) := attachCommentsP p n
          .ok (some n, advanceP p)
      | .tokenFoldedBlock =>
          let n := (Node.scalar emptyMeta p.currentToken.value .folded).setTag "!!str"
          let (n, p) := attachCommentsP p n
          .ok (some n, advanceP p)
      | .tokenSequenceItem => do
          let (n, p) ← parseSequenceP f p
          .ok (some n, p)
      | .tokenFlowSequenceStart => do
          let (n, p) ← parseFlowSequenceP f p
          .ok (some n, p)
      | .tokenFlowMappingStart => do
          let (n, p) ← parseFlowMappingP f p
          .ok (some n, p)
      | .tokenAnchor => do
          let anchorName := p.currentToken.value
          let p := advanceP p
          let (n, p) ← parseValueP f p
          .ok (n, { p with anchors := (anchorName, n) :: p.anchors })
      | .tokenAlias =>
          let aliasName := p.currentToken.value
          let p := advanceP p
          match lookupAnchor p.anchors aliasName with
          | some (some v) => .ok (some (cloneNode v), p)
          | some none => .error "runtime panic: Clone of nil anchor node"
          | none => .error ("undefined alias: " ++ aliasName)
      | .tokenTag => do
          let tag := p.currentToken.value
          let p := advanceP p
          let (n, p) ← parseValueP f p
          match n with
          | some v => .ok (some (v.setTag tag), p)
          | none => .ok (none, p)
      | _ =>
          let (isM, p) := isMappingP p
          if isM then do
            let (m, p) ← parseMappingP f p
            .ok (some m, p)
          else if p.currentToken.type = .tokenString then
            let n := (newScalar p.currentToken.value).setTag "!!str"
            let (n, p) := attachCommentsP p n
            .ok (some n, advanceP p)
          else .error ("unexpected token: " ++ tokTypeName p.currentToken.type)

/-- Mirrors `parseSequence`: attach pending comments to the new sequence,
then consume `SequenceItem`-led values. -/
def parseSequenceP : Nat → PState → Except String (Node × PState)
  | 0, _ => .error "out of fuel"
  | f + 1, p => do
      let (n0, p) := attachCommentsP p newSequence
      let (content, p) ← parseSeqItemsP f p []
      .ok (.sequence n0.base content .block, p)

/-- The item loop of `parseSequence`: a nil value from `parseValue` (for
example after `"- "` at a dedent or end of input) is not appended. -/
def parseSeqItemsP : Nat → PState → List Node → Except String (List Node × PState)
  | 0, _, _ => .error "out of fuel"
  | f + 1, p, content =>
      if p.currentToken.type = .tokenSequenceItem then do
        let p := advanceP p
        let p := skipNewlinesP (pfuel p) p
        let p := collectCommentsP (pfuel p) p
        let (v, p) ← parseValueP f p
        let content := match v with
          | some n => content ++ [n]
          | none => content
        let p := skipNewlinesP (pfuel p) p
        parseSeqItemsP f p content
      else .ok (content, p)

/-- Mirrors `parseFlowSequence`. -/
def parseFlowSequenceP : Nat → PState → Except String (Node × PState)
  | 0, _ => .error "out of fuel"
  | f + 1, p => do
      let (n0, p) := attachCommentsP p (Node.sequence emptyMeta [] .flow)
      let p := advanceP p
      let (content, p) ← parseFlowSeqItemsP f p []
      let p := if p.currentToken.type = .tokenFlowSequenceEnd then advanceP p else p
      .ok (.sequence n0.base content .flow, p)

/-- The item loop of `parseFlowSequence`. -/
def parseFlowSeqItemsP : Nat → PState → List Node → Except String (List Node × PState)
  | 0, _, _ => .error "out of fuel"
  | f + 1, p, content =>
      if p.currentToken.type = .tokenFlowSequenceEnd then .ok (content, p)
      else do
        let p := skipNewlinesP (pfuel p) p
        let p := collectCommentsP (pfuel p) p
        if p.currentToken.type = .tokenFlowSequenceEnd then .ok (content, p)
        else do
          let (v, p) ← parseValueP f p
          let content := match v with
            | some n => content ++ [n]
            | none => content
          let p := skipNewlinesP (pfuel p) p
          let p :=
            if p.currentToken.type = .tokenFlowEntry then
              skipNewlinesP (pfuel p) (advanceP p)
            else p
          parseFlowSeqItemsP f p content

/-- Mirrors `parseMapping`: attach pending comments, then the entry loop
anchored at the first key's column. -/
def parseMappingP : Nat → PState → Except String (Node × PState)
  | 0, _ => .error "out of fuel"
  | f + 1, p => do
      let (n0, p) := attachCommentsP p newMapping
      let (entries, p) ← parseMapEntriesP f p [] true 0 false
      .ok (.mapping n0.base entries .block, p)

/-- The entry loop of `parseMapping`: stops at EOF/DocumentEnd/SequenceItem,
at a key column that differs from the first key's, at a non-key token, or
when no `Key` token follows; an inline comment after the value becomes the
value's line comment. -/
def parseMapEntriesP : Nat → PState → List MEntry → Bool → Nat → Bool →
    Except String (List MEntry × PState)
  | 0, _, _, _, _, _ => .error "out of fuel"
  | f + 1, p, entries, firstKey, startColumn, isRootMapping =>
      if p.currentToken.type = .tokenEOF || p.currentToken.type = .tokenDocumentEnd then
        .ok (entries, p)
      else
        let p := skipNewlinesP (pfuel p) p
        let p := collectCommentsP (pfuel p) p
        if p.currentToken.type = .tokenEOF || p.currentToken.type = .tokenDocumentEnd then
          .ok (entries, p)
        else if p.currentToken.type = .tokenSequenceItem then
          .ok (entries, p)
        else
          let (goOn, firstKey, startColumn, isRootMapping) :=
            if firstKey then (true, false, p.currentToken.column, p.currentToken.column == 1)
            else if !isRootMapping && p.currentToken.column ≠ startColumn then
              (false, firstKey, startColumn, isRootMapping)
            else if isRootMapping && p.currentToken.column ≠ 1 then
              (false, firstKey, startColumn, isRootMapping)
            else (true, firstKey, startColumn, isRootMapping)
          if !goOn then .ok (entries, p)
          else
            match parseKeyP p with
            | .error _ => .ok (entries, p)
            | .ok (key, p) =>
                let p := skipNewlinesP (pfuel p) p
                if p.currentToken.type ≠ .tokenKey then .ok (entries, p)
                else do
                  let p := advanceP p
                  let p := skipNewlinesP (pfuel p) p
                  let p := collectCommentsP (pfuel p) p
                  let (v, p) ← parseValueP f p
                  let (v, p) :=
                    if p.currentToken.type = .tokenComment then
                      (match v with
                       | some n =>
                           (some (n.setComment
                             { n.getComment with lineComment := p.currentToken.value }),
                            advanceP p)
                       | none => (none, advanceP p))
                    else (v, p)
                  match v with
                  | none => .error "nil value entry"
                  | some value =>
                      let p := skipNewlinesP (pfuel p) p
                      parseMapEntriesP f p (entries ++ [(key, value, emptyComment)])
                        firstKey startColumn isRootMapping

/-- Mirrors `parseFlowMapping`. -/
def parseFlowMappingP : Nat → PState → Except String (Node × PState)
  | 0, _ => .error "out of fuel"
  | f + 1, p => do
      let (n0, p) := attachCommentsP p (Node.mapping emptyMeta [] .flow)
      let p := advanceP p
      let (entries, p) ← parseFlowMapEntriesP f p []
      let p := if p.currentToken.type = .tokenFlowMappingEnd then advanceP p else p
      .ok (.mapping n0.base entries .flow, p)

/-- The entry loop of `parseFlowMapping`: `expected ':'` when a key is not
followed by a `Key` token; a value is always parsed (a missing one errors
inside `parseValue`). -/
def parseFlowMapEntriesP : Nat → PState → List MEntry →
    Except String (List MEntry × PState)
  | 0, _, _ => .error "out of fuel"
  | f + 1, p, entries =>
      if p.currentToken.type = .tokenFlowMappingEnd then .ok (entries, p)
      else do
        let p := skipNewlinesP (pfuel p) p
        let p := collectCommentsP (pfuel p) p
        if p.currentToken.type = .tokenFlowMappingEnd then .ok (entries, p)
        else do
          let (key, p) ← parseKeyP p
          let p := skipNewlinesP (pfuel p) p
          if p.currentToken.type ≠ .tokenKey then
            .error ("expected ':', got " ++ tokTypeName p.currentToken.type)
          else do
            let p := advanceP p
            let p := skipNewlinesP (pfuel p) p
            let p := collectCommentsP (pfuel p) p
            let (v, p) ← parseValueP f p
            match v with
            | none => .error "nil value entry"
            | some value =>
                let p := skipNewlinesP (pfuel p) p
                let p :=
                  if p.currentToken.type = .tokenFlowEntry then
                    skipNewlinesP (pfuel p) (advanceP p)
                  else p
                parseFlowMapEntriesP f p (entries ++ [(key, value, emptyComment)])

/-- The top-level value loop of `Parse` (the non-root-mapping branch):
document markers are skipped, values are appended when non-nil. -/
def parseDocLoopP : Nat → PState → List Node → Except String (List Node × PState)
  | 0, _, _ => .error "out of fuel"
  | f + 1, p, content =>
      if p.currentToken.type ≠ .tokenEOF then
        let p := if p.currentToken.type = .tokenDocumentStart then advanceP p else p
        if p.currentToken.type = .tokenDocumentEnd then
          parseDocLoopP f (advanceP p) content
        else do
          let (v, p) ← parseValueP f p
          let content := match v with
            | some n => content ++ [n]
            | none => content
          let p := skipNewlinesP (pfuel p) p
          parseDocLoopP f p content
      else .ok (content, p)

end

/-- Mirrors `(Parser).Parse` with the given recursion fuel: scan the first
token, then either a single root mapping (first token a key at column 1
followed by `Key`) or the top-level value loop. -/
def parseWithFuel (fuel : Nat) (input : List Nat) : Except String Node := do
  let (t, sc) := scanTok (initScanner input)
  let p : PState := ⟨sc, t, [], []⟩
  let (isM, p) := isMappingP p
  if isM && p.currentToken.column = 1 then do
    let (m, _) ← parseMappingP fuel p
    .ok (.document emptyMeta [m])
  else do
    let (content, _) ← parseDocLoopP fuel p []
    .ok (.document emptyMeta content)

/-- Mirrors `parser.Parse` on a byte slice (ample fuel for the input). -/
def parseBytes (input : List Nat) : Except String Node :=
  parseWithFuel (16 * (input.length + 4)) input

/-- The bytes of an ASCII string (each char one byte). -/
def asciiBytes (s : String) : List Nat := s.data.map Char.toNat

/-! ## Claim theorems -/

/-- Newline-stripping helper fact: trimming `"\n"` bytes from the right of
`c ++ "\n"*k` recovers `c` whenever `c` does not itself end in a newline. -/
theorem trimRightNL_append (c : String) (k : Nat) (h : c.data.getLast? ≠ some '\n') :
    trimRightNL (c ++ String.mk (List.replicate k '\n')) = c := by
  have hdata : (c ++ String.mk (List.replicate k '\n')).data
      = c.data ++ List.replicate k '\n' := rfl
  unfold trimRightNL
  rw [hdata, List.reverse_append, List.reverse_replicate]
  have hrep : ∀ m, List.dropWhile (· = '\n') (List.replicate m '\n' ++ c.data.reverse)
      = List.dropWhile (· = '\n') c.data.reverse := by
    intro m
    induction m with
    | zero => simp
    | succ m ih => simp [List.replicate_succ, ih]
  rw [hrep]
  have hkeep : List.dropWhile (· = '\n') c.data.reverse = c.data.reverse := by
    cases hc : c.data.reverse with
    | nil => simp
    | cons x xs =>
        have hx : c.data.getLast? = some x := by
          rw [← List.head?_reverse, hc]; rfl
        have : x ≠ '\n' := by
          intro hx2; exact h (hx2 ▸ hx)
        simp [List.dropWhile_cons, this]
  rw [hkeep, List.reverse_reverse]

/-- C5: For a literal or folded block scalar the scanner chomps the
collected content `c ++ "\n"*k` (with `c` not ending in a newline) as
follows: indicator `-` strips all trailing newlines, indicator `+` keeps
them all, and no indicator collapses them to exactly one
(`scanLiteralBlock`/`scanFoldedBlock` pass the collected bytes and the
indicator from `scanChompingIndicator` straight to `applyChomping`). -/
theorem chomping_spec (c : String) (k : Nat) (h : c.data.getLast? ≠ some '\n') :
    applyChomping (c ++ String.mk (List.replicate k '\n')) "-" = c ∧
    applyChomping (c ++ String.mk (List.replicate k '\n')) "+"
      = c ++ String.mk (List.replicate k '\n') ∧
    applyChomping (c ++ String.mk (List.replicate k '\n')) "" = c ++ "\n" := by
  refine ⟨?_, ?_, ?_⟩
  · rw [applyChomping, if_pos rfl, trimRightNL_append c k h]
  · rw [applyChomping]; simp
  · rw [applyChomping]
    simp only [reduceIte, String.reduceEq, ne_eq]
    rw [trimRightNL_append c k h]
    simp

/-- Witness for C5 at `c = "ab"`, `k = 2`. -/
theorem chomping_spec_witness :
    ("ab" : String).data.getLast? ≠ some '\n' ∧
    applyChomping ("ab" ++ String.mk (List.replicate 2 '\n')) "-" = "ab" ∧
    applyChomping ("ab" ++ String.mk (List.replicate 2 '\n')) "+"
      = "ab" ++ String.mk (List.replicate 2 '\n') ∧
    applyChomping ("ab" ++ String.mk (List.replicate 2 '\n')) "" = "ab" ++ "\n" :=
  ⟨by decide, chomping_spec "ab" 2 (by decide)⟩

/-- C1 (code bug): the string `yes` is ambiguous (`needsQuoting` is true,
and the Go-value path `createStringNode` duly upgrades it to DoubleQuoted),
yet `encodeScalar`'s Plain/default case writes the value as-is, so emitting
a Plain scalar `yes` produces the unquoted bytes `yes` and not the quoted
form — contradicting the spec and the repository's own
`TestEncoder_SpecialStrings`, which expects `EncodeNode(NewScalar("yes"))`
to print `"yes"`. -/
theorem plain_yes_emitted_unquoted :
    needsQuoting "yes" = true ∧
    createStringNode "yes" = .scalar emptyMeta "yes" .doubleQuoted ∧
    marshalNode (.scalar emptyMeta "yes" .plain) = "yes" ∧
    goQuote "yes" = "\"yes\"" := by
  refine ⟨by decide, by decide, ?_, by decide⟩
  simp [marshalNode, encodeNode, encodeScalar, Node.getComment, Node.base, emptyMeta,
        emptyComment, spaces]

/-- C7 counterexample: parsing `"- "` (a SequenceItem marker with a
missing value) yields a Sequence with no items at all, not a sequence
holding a null scalar: `parseValue` returns nil at end of input and
`parseSequence` appends only non-nil values. -/
theorem seq_missing_value_counterexample :
    ¬ ∃ (b1 b2 b3 : Meta) (sty : ScalarStyle),
        parseBytes (asciiBytes "- ")
          = .ok (.document b1 [.sequence b2 [.scalar b3 "" sty] .block]) := by
  have h : parseBytes (asciiBytes "- ")
      = .ok (.document emptyMeta [.sequence emptyMeta [] .block]) := by rfl
  rintro ⟨b1, b2, b3, sty, hc⟩
  rw [h] at hc
  simp at hc

/-- C7 amended: in a block sequence a SequenceItem marker followed by a
missing value contributes no item: the nil value is skipped and the
resulting Sequence simply omits the entry (`"- "` parses to an empty
sequence, and a trailing `"- "` after an item leaves just that item). -/
theorem seq_missing_value_skipped :
    parseBytes (asciiBytes "- ")
      = .ok (.document emptyMeta [.sequence emptyMeta [] .block]) ∧
    parseBytes (asciiBytes "- x\n- ")
      = .ok (.document emptyMeta
          [.sequence emptyMeta [.scalar { emptyMeta with tag := "!!str" } "x" .plain] .block]) :=
  ⟨by rfl, by rfl⟩

/-- `skipNewlines` does nothing when the current token is not a newline. -/
theorem skipNewlinesP_id (f : Nat) (p : PState)
    (h : p.currentToken.type ≠ .tokenNewLine) : skipNewlinesP f p = p := by
  cases f <;> simp [skipNewlinesP, h]

/-- `collectComments` does nothing when the current token is not a
comment. -/
theorem collectCommentsP_id (f : Nat) (p : PState)
    (h : p.currentToken.type ≠ .tokenComment) : collectCommentsP f p = p := by
  cases f <;> simp [collectCommentsP, h]

/-- `advance` leaves the anchor table unchanged. -/
theorem advanceP_anchors (p : PState) : (advanceP p).anchors = p.anchors := rfl

mutual

/-- Clone allocation is fresh: every address of the copy is at or above
the allocation counter (no cell of the original is reused). -/
theorem cloneA_fresh (a : ANode) (n : Nat) :
    n ≤ (cloneA a n).2 ∧ ∀ y ∈ addrListA (cloneA a n).1, n ≤ y := by
  match a with
  | .document _ b c =>
      rcases hc : cloneListA c (n + 1) with ⟨cc, n1⟩
      have ih := cloneListA_fresh c (n + 1)
      rw [hc] at ih
      simp only [cloneA, hc, addrListA]
      refine ⟨by omega, ?_⟩
      intro y hy
      rcases List.mem_cons.mp hy with h1 | h2
      · omega
      · have := ih.2 y h2; omega
  | .scalar _ b v st => simp [cloneA, addrListA]
  | .mapping _ b e st =>
      rcases hc : cloneEntriesA e (n + 1) with ⟨ee, n1⟩
      have ih := cloneEntriesA_fresh e (n + 1)
      rw [hc] at ih
      simp only [cloneA, hc, addrListA]
      refine ⟨by omega, ?_⟩
      intro y hy
      rcases List.mem_cons.mp hy with h1 | h2
      · omega
      · have := ih.2 y h2; omega
  | .sequence _ b c st =>
      rcases hc : cloneListA c (n + 1) with ⟨cc, n1⟩
      have ih := cloneListA_fresh c (n + 1)
      rw [hc] at ih
      simp only [cloneA, hc, addrListA]
      refine ⟨by omega, ?_⟩
      intro y hy
      rcases List.mem_cons.mp hy with h1 | h2
      · omega
      · have := ih.2 y h2; omega
  | .alias _ b i => simp [cloneA, addrListA]
termination_by sizeOf a

/-- Freshness for the child-clone loop. -/
theorem cloneListA_fresh (l : List ANode) (n : Nat) :
    n ≤ (cloneListA l n).2 ∧ ∀ y ∈ addrListNodes (cloneListA l n).1, n ≤ y := by
  match l with
  | [] => simp [cloneListA, addrListNodes]
  | x :: rest =>
      rcases h1 : cloneA x n with ⟨x1, n1⟩
      rcases h2 : cloneListA rest n1 with ⟨r1, n2⟩
      have i1 := cloneA_fresh x n
      rw [h1] at i1
      have i2 := cloneListA_fresh rest n1
      rw [h2] at i2
      simp only [cloneListA, h1, h2, addrListNodes]
      refine ⟨by omega, ?_⟩
      intro y hy
      rcases List.mem_append.mp hy with h | h
      · exact i1.2 y h
      · have := i2.2 y h; omega
termination_by sizeOf l

/-- Freshness for the entry-clone loop. -/
theorem cloneEntriesA_fresh (l : List AEntry) (n : Nat) :
    n ≤ (cloneEntriesA l n).2 ∧ ∀ y ∈ addrListEntries (cloneEntriesA l n).1, n ≤ y := by
  match l with
  | [] => simp [cloneEntriesA, addrListEntries]
  | (k, v, cm) :: rest =>
      rcases h1 : cloneA k n with ⟨k1, n1⟩
      rcases h2 : cloneA v n1 with ⟨v1, n2⟩
      rcases h3 : cloneEntriesA rest n2 with ⟨r1, n3⟩
      have i1 := cloneA_fresh k n
      rw [h1] at i1
      have i2 := cloneA_fresh v n1
      rw [h2] at i2
      have i3 := cloneEntriesA_fresh rest n2
      rw [h3] at i3
      simp only [cloneEntriesA, h1, h2, h3, addrListEntries]
      refine ⟨by omega, ?_⟩
      intro y hy
      simp only [List.mem_append] at hy
      rcases hy with (h | h) | h
      · exact i1.2 y h
      · have := i2.2 y h; omega
      · have := i3.2 y h; omega
termination_by sizeOf l

end

/-- C6: on an alias token, `parseValue` looks the name up in the anchor
table: a hit yields a deep clone of the anchored node (`node.Clone()` —
a fully fresh copy, as the address-freshness conjunct states), a miss
fails with `undefined alias: name`. -/
theorem alias_resolution (p : PState) (f : Nat)
    (h : p.currentToken.type = .tokenAlias) :
    (∀ v : Node, lookupAnchor p.anchors p.currentToken.value = some (some v) →
        parseValueP (f + 1) p = .ok (some (cloneNode v), advanceP p)) ∧
    (lookupAnchor p.anchors p.currentToken.value = none →
        parseValueP (f + 1) p = .error ("undefined alias: " ++ p.currentToken.value)) ∧
    (∀ (av : ANode) (n : Nat), ∀ y ∈ addrListA (cloneA av n).1, n ≤ y) := by
  have hskip : skipNewlinesP (pfuel p) p = p :=
    skipNewlinesP_id _ _ (by rw [h]; intro hc; cases hc)
  have hcol : collectCommentsP (pfuel p) p = p :=
    collectCommentsP_id _ _ (by rw [h]; intro hc; cases hc)
  refine ⟨?_, ?_, fun av n => (cloneA_fresh av n).2⟩
  · intro v hv
    simp only [parseValueP, hskip, hcol, h, advanceP_anchors, hv]
  · intro hv
    simp only [parseValueP, hskip, hcol, h, advanceP_anchors, hv]

/-- Witness for C6: a parser state whose current token is the alias `x`
bound to the scalar `v` resolves to a clone, and one with an unbound alias
fails. -/
theorem alias_resolution_witness :
    (let p : PState := ⟨initScanner [], ⟨.tokenAlias, "x", 1, 1, 0⟩,
        [("x", some (newScalar "v"))], []⟩
     parseValueP 5 p = .ok (some (cloneNode (newScalar "v")), advanceP p)) ∧
    (let q : PState := ⟨initScanner [], ⟨.tokenAlias, "y", 1, 1, 0⟩, [], []⟩
     parseValueP 5 q = .error ("undefined alias: " ++ "y")) := by
  constructor
  · exact (alias_resolution _ 4 rfl).1 (newScalar "v") rfl
  · exact (alias_resolution _ 4 rfl).2.1 rfl

/-! Flow-depth bookkeeping: every scanner helper except the four
flow-structure scanners leaves `inFlow` unchanged. -/

/-- `fillBuffer` leaves `inFlow` unchanged. -/
theorem fillBuffer_inFlow (s : ScanState) : (fillBuffer s).1.inFlow = s.inFlow := by
  unfold fillBuffer; split <;> rfl

/-- `advance` leaves `inFlow` unchanged. -/
theorem advanceS_inFlow (s : ScanState) : (advanceS s).inFlow = s.inFlow := by
  unfold advanceS; split <;> rfl

/-- `peek` leaves `inFlow` unchanged. -/
theorem peekS_inFlow (s : ScanState) : (peekS s).1.inFlow = s.inFlow := by
  simp only [peekS]
  split <;> split <;> simp [fillBuffer_inFlow]

/-- `isEOF` leaves `inFlow` unchanged. -/
theorem isEOFS_inFlow (s : ScanState) : (isEOFS s).1.inFlow = s.inFlow := by
  simp only [isEOFS]
  split
  · rfl
  · simp [fillBuffer_inFlow]

/-- The fill loop leaves `inFlow` unchanged. -/
theorem ensureAheadF_inFlow : ∀ (f : Nat) (s : ScanState) (k : Nat),
    (ensureAheadF f s k).inFlow = s.inFlow := by
  intro f
  induction f with
  | zero => intro s k; rfl
  | succ f ih =>
      intro s k
      rw [ensureAheadF]
      split
      · split
        · rw [ih]
        · rfl
      · rfl

/-- `peekAhead` leaves `inFlow` unchanged. -/
theorem peekAheadS_inFlow (s : ScanState) (k : Nat) :
    (peekAheadS s k).1.inFlow = s.inFlow := by
  simp only [peekAheadS, ensureAhead]
  split <;> simp [ensureAheadF_inFlow]

/-- `isEOFAt` leaves `inFlow` unchanged. -/
theorem isEOFAtS_inFlow (s : ScanState) (k : Nat) :
    (isEOFAtS s k).1.inFlow = s.inFlow := by
  simp [isEOFAtS, ensureAhead, ensureAheadF_inFlow]

/-- `skipWhitespace` leaves `inFlow` unchanged. -/
theorem skipWhitespaceS_inFlow : ∀ (f : Nat) (s : ScanState),
    (skipWhitespaceS f s).inFlow = s.inFlow := by
  intro f
  induction f with
  | zero => intro s; rfl
  | succ f ih =>
      intro s
      rcases hE : isEOFS s with ⟨s1, b⟩
      have h1 : s1.inFlow = s.inFlow := by
        have := isEOFS_inFlow s; rw [hE] at this; exact this
      rw [skipWhitespaceS, hE]
      cases b with
      | true => exact h1
      | false =>
          rcases hP : peekS s1 with ⟨s2, c⟩
          have h2 : s2.inFlow = s1.inFlow := by
            have := peekS_inFlow s1; rw [hP] at this; exact this
          dsimp only
          rw [hP]
          dsimp only
          split
          · rw [ih, advanceS_inFlow]; omega
          · omega

/-- `skipToEndOfLine` leaves `inFlow` unchanged. -/
theorem skipToEndOfLineS_inFlow : ∀ (f : Nat) (s : ScanState),
    (skipToEndOfLineS f s).inFlow = s.inFlow := by
  intro f
  induction f with
  | zero => intro s; rfl
  | succ f ih =>
      intro s
      rcases hE : isEOFS s with ⟨s1, b⟩
      have h1 : s1.inFlow = s.inFlow := by
        have := isEOFS_inFlow s; rw [hE] at this; exact this
      rw [skipToEndOfLineS, hE]
      cases b with
      | true => exact h1
      | false =>
          rcases hP : peekS s1 with ⟨s2, c⟩
          have h2 : s2.inFlow = s1.inFlow := by
            have := peekS_inFlow s1; rw [hP] at this; exact this
          dsimp only
          rw [hP]
          dsimp only
          split
          · rw [ih, advanceS_inFlow]; omega
          · omega

/-- `skipIndent` leaves `inFlow` unchanged. -/
theorem skipIndentS_inFlow : ∀ (f : Nat) (s : ScanState),
    (skipIndentS f s).inFlow = s.inFlow := by
  intro f
  induction f with
  | zero => intro s; rfl
  | succ f ih =>
      intro s
      rcases hE : isEOFS s with ⟨s1, b⟩
      have h1 : s1.inFlow = s.inFlow := by
        have := isEOFS_inFlow s; rw [hE] at this; exact this
      rw [skipIndentS, hE]
      cases b with
      | true => exact h1
      | false =>
          rcases hP : peekS s1 with ⟨s2, c⟩
          have h2 : s2.inFlow = s1.inFlow := by
            have := peekS_inFlow s1; rw [hP] at this; exact this
          dsimp only
          rw [hP]
          dsimp only
          split
          · rw [ih, advanceS_inFlow]; omega
          · omega

/-- The comment loop leaves `inFlow` unchanged. -/
theorem commentLoop_inFlow : ∀ (f : Nat) (s : ScanState) (acc : List Nat),
    (commentLoop f s acc).2.inFlow = s.inFlow := by
  intro f
  induction f with
  | zero => intro s acc; rfl
  | succ f ih =>
      intro s acc
      rcases hE : isEOFS s with ⟨s1, b⟩
      have h1 : s1.inFlow = s.inFlow := by
        have := isEOFS_inFlow s; rw [hE] at this; exact this
      rw [commentLoop, hE]
      cases b with
      | true => exact h1
      | false =>
          rcases hP : peekS s1 with ⟨s2, c⟩
          have h2 : s2.inFlow = s1.inFlow := by
            have := peekS_inFlow s1; rw [hP] at this; exact this
          dsimp only
          rw [hP]
          dsimp only
          split
          · dsimp only; omega
          · rw [ih, advanceS_inFlow]; omega

/-- The line-copy loop leaves `inFlow` unchanged. -/
theorem lineLoop_inFlow : ∀ (f : Nat) (s : ScanState) (acc : List Nat),
    (lineLoop f s acc).2.inFlow = s.inFlow := by
  intro f
  induction f with
  | zero => intro s acc; rfl
  | succ f ih =>
      intro s acc
      rcases hE : isEOFS s with ⟨s1, b⟩
      have h1 : s1.inFlow = s.inFlow := by
        have := isEOFS_inFlow s; rw [hE] at this; exact this
      rw [lineLoop, hE]
      cases b with
      | true => exact h1
      | false =>
          rcases hP : peekS s1 with ⟨s2, c⟩
          have h2 : s2.inFlow = s1.inFlow := by
            have := peekS_inFlow s1; rw [hP] at this; exact this
          dsimp only
          rw [hP]
          dsimp only
          split
          · dsimp only; omega
          · rw [ih, advanceS_inFlow]; omega

/-- `blockStop` leaves `inFlow` unchanged. -/
theorem blockStop_inFlow (s : ScanState) (bi : Nat) :
    (blockStop s bi).1.inFlow = s.inFlow := by
  simp only [blockStop]
  split
  · rcases hP : peekS s with ⟨s1, c⟩
    have := peekS_inFlow s
    rw [hP] at this
    exact this
  · rfl

/-- The literal-block collection loop leaves `inFlow` unchanged. -/
theorem literalLoop_inFlow : ∀ (f : Nat) (s : ScanState) (bi : Nat) (acc : List Nat),
    (literalLoop f s bi acc).2.inFlow = s.inFlow := by
  intro f
  induction f with
  | zero => intro s bi acc; rfl
  | succ f ih =>
      intro s bi acc
      rcases hE : isEOFS s with ⟨s1, b⟩
      have h1 : s1.inFlow = s.inFlow := by
        have := isEOFS_inFlow s; rw [hE] at this; exact this
      rw [literalLoop, hE]
      cases b with
      | true => exact h1
      | false =>
          dsimp only
          rcases hS : blockStop s1 bi with ⟨s2, stop⟩
          have h2 : s2.inFlow = s1.inFlow := by
            have := blockStop_inFlow s1 bi; rw [hS] at this; exact this
          dsimp only
          split
          · dsimp only; omega
          · rcases hL : lineLoop f (skipIndentS (countIndent s1) s2) acc with ⟨acc1, s3⟩
            have h3 : s3.inFlow = s2.inFlow := by
              have := lineLoop_inFlow f (skipIndentS (countIndent s1) s2) acc
              rw [hL] at this
              rw [this, skipIndentS_inFlow]
            dsimp only
            rcases hE2 : isEOFS s3 with ⟨s4, b2⟩
            have h4 : s4.inFlow = s3.inFlow := by
              have := isEOFS_inFlow s3; rw [hE2] at this; exact this
            cases b2 with
            | true => dsimp only; rw [ih]; omega
            | false =>
                dsimp only
                rw [ih]
                dsimp only
                rw [advanceS_inFlow]
                omega

/-- The folded-block collection loop leaves `inFlow` unchanged. -/
theorem foldedLoop_inFlow : ∀ (f : Nat) (s : ScanState) (bi : Nat) (acc : List Nat)
    (lw : Bool), (foldedLoop f s bi acc lw).2.inFlow = s.inFlow := by
  intro f
  induction f with
  | zero => intro s bi acc lw; rfl
  | succ f ih =>
      intro s bi acc lw
      rcases hE : isEOFS s with ⟨s1, b⟩
      have h1 : s1.inFlow = s.inFlow := by
        have := isEOFS_inFlow s; rw [hE] at this; exact this
      rw [foldedLoop, hE]
      cases b with
      | true => exact h1
      | false =>
          dsimp only
          rcases hS : blockStop s1 bi with ⟨s2, stop⟩
          have h2 : s2.inFlow = s1.inFlow := by
            have := blockStop_inFlow s1 bi; rw [hS] at this; exact this
          dsimp only
          split
          · dsimp only; omega
          · rcases hP : peekS (skipIndentS (countIndent s1) s2) with ⟨s3, c⟩
            have h3 : s3.inFlow = s2.inFlow := by
              have := peekS_inFlow (skipIndentS (countIndent s1) s2)
              rw [hP] at this
              rw [this, skipIndentS_inFlow]
            dsimp only
            rcases hI : (if (!decide (c = bNewline)) = true then
                ((lineLoop f s3
                    (if (decide (acc.length > 0) && !lw) = true then acc ++ [bSpace] else acc)).1,
                  (lineLoop f s3
                    (if (decide (acc.length > 0) && !lw) = true then acc ++ [bSpace] else acc)).2,
                  false)
              else (if acc.length > 0 then acc ++ [bNewline] else acc, s3, true))
              with ⟨acc1, s4, lw1⟩
            have h4 : s4.inFlow = s3.inFlow := by
              split at hI
              · cases hI
                exact lineLoop_inFlow f s3 _
              · cases hI
                rfl
            dsimp only
            rcases hE2 : isEOFS s4 with ⟨s5, b2⟩
            have h5 : s5.inFlow = s4.inFlow := by
              have := isEOFS_inFlow s4; rw [hE2] at this; exact this
            cases b2 with
            | true => rw [ih]; omega
            | false =>
                dsimp only
                rcases hP2 : peekS s5 with ⟨s6, c2⟩
                have h6 : s6.inFlow = s5.inFlow := by
                  have := peekS_inFlow s5; rw [hP2] at this; exact this
                dsimp only
                split
                · rw [ih]; dsimp only; rw [advanceS_inFlow]; omega
                · rw [ih]; omega

/-- The single-quoted loop leaves `inFlow` unchanged. -/
theorem singleQuotedLoop_inFlow : ∀ (f : Nat) (s : ScanState) (acc : List Nat),
    (singleQuotedLoop f s acc).2.inFlow = s.inFlow := by
  intro f
  induction f with
  | zero => intro s acc; rfl
  | succ f ih =>
      intro s acc
      rcases hE : isEOFS s with ⟨s1, b⟩
      have h1 : s1.inFlow = s.inFlow := by
        have := isEOFS_inFlow s; rw [hE] at this; exact this
      rw [singleQuotedLoop, hE]
      cases b with
      | true => exact h1
      | false =>
          rcases hP : peekS s1 with ⟨s2, c⟩
          have h2 : s2.inFlow = s1.inFlow := by
            have := peekS_inFlow s1; rw [hP] at this; exact this
          dsimp only
          rw [hP]
          dsimp only
          split
          · rcases hA : peekAheadS s2 1 with ⟨s3, c2⟩
            have h3 : s3.inFlow = s2.inFlow := by
              have := peekAheadS_inFlow s2 1; rw [hA] at this; exact this
            dsimp only
            split
            · rw [ih, advanceS_inFlow, advanceS_inFlow]; omega
            · dsimp only; rw [advanceS_inFlow]; omega
          · split <;> rw [ih] <;> simp [advanceS_inFlow] <;> omega

/-- The double-quoted loop leaves `inFlow` unchanged. -/
theorem doubleQuotedLoop_inFlow : ∀ (f : Nat) (s : ScanState) (acc : List Nat),
    (doubleQuotedLoop f s acc).2.inFlow = s.inFlow := by
  intro f
  induction f with
  | zero => intro s acc; rfl
  | succ f ih =>
      intro s acc
      rcases hE : isEOFS s with ⟨s1, b⟩
      have h1 : s1.inFlow = s.inFlow := by
        have := isEOFS_inFlow s; rw [hE] at this; exact this
      rw [doubleQuotedLoop, hE]
      cases b with
      | true => exact h1
      | false =>
          rcases hP : peekS s1 with ⟨s2, c⟩
          have h2 : s2.inFlow = s1.inFlow := by
            have := peekS_inFlow s1; rw [hP] at this; exact this
          dsimp only
          rw [hP]
          dsimp only
          split
          · rw [advanceS_inFlow]; omega
          · split
            · rcases hE2 : isEOFS (advanceS s2) with ⟨s3, b2⟩
              have h3 : s3.inFlow = s2.inFlow := by
                have := isEOFS_inFlow (advanceS s2)
                rw [hE2] at this
                rw [this, advanceS_inFlow]
              cases b2 with
              | true => dsimp only; rw [ih]; omega
              | false =>
                  dsimp only
                  rcases hP2 : peekS s3 with ⟨s4, c2⟩
                  have h4 : s4.inFlow = s3.inFlow := by
                    have := peekS_inFlow s3; rw [hP2] at this; exact this
                  dsimp only
                  rw [ih, advanceS_inFlow]
                  omega
            · split <;> rw [ih] <;> simp [advanceS_inFlow] <;> omega

/-- The anchor/alias name loop leaves `inFlow` unchanged. -/
theorem nameLoop_inFlow : ∀ (f : Nat) (s : ScanState) (acc : List Nat),
    (nameLoop f s acc).2.inFlow = s.inFlow := by
  intro f
  induction f with
  | zero => intro s acc; rfl
  | succ f ih =>
      intro s acc
      rcases hE : isEOFS s with ⟨s1, b⟩
      have h1 : s1.inFlow = s.inFlow := by
        have := isEOFS_inFlow s; rw [hE] at this; exact this
      rw [nameLoop, hE]
      cases b with
      | true => exact h1
      | false =>
          rcases hP : peekS s1 with ⟨s2, c⟩
          have h2 : s2.inFlow = s1.inFlow := by
            have := peekS_inFlow s1; rw [hP] at this; exact this
          dsimp only
          rw [hP]
          dsimp only
          split
          · rw [ih, advanceS_inFlow]; omega
          · dsimp only; omega

/-- The tag loop leaves `inFlow` unchanged. -/
theorem tagLoop_inFlow : ∀ (f : Nat) (s : ScanState) (acc : List Nat),
    (tagLoop f s acc).2.inFlow = s.inFlow := by
  intro f
  induction f with
  | zero => intro s acc; rfl
  | succ f ih =>
      intro s acc
      rcases hE : isEOFS s with ⟨s1, b⟩
      have h1 : s1.inFlow = s.inFlow := by
        have := isEOFS_inFlow s; rw [hE] at this; exact this
      rw [tagLoop, hE]
      cases b with
      | true => exact h1
      | false =>
          rcases hP : peekS s1 with ⟨s2, c⟩
          have h2 : s2.inFlow = s1.inFlow := by
            have := peekS_inFlow s1; rw [hP] at this; exact this
          dsimp only
          rw [hP]
          dsimp only
          split
          · rw [ih, advanceS_inFlow]; omega
          · dsimp only; omega

/-- The plain-scalar loop leaves `inFlow` unchanged. -/
theorem scalarLoop_inFlow : ∀ (f : Nat) (s : ScanState) (acc : List Nat),
    (scalarLoop f s acc).2.inFlow = s.inFlow := by
  intro f
  induction f with
  | zero => intro s acc; rfl
  | succ f ih =>
      intro s acc
      rcases hE : isEOFS s with ⟨s1, b⟩
      have h1 : s1.inFlow = s.inFlow := by
        have := isEOFS_inFlow s; rw [hE] at this; exact this
      rw [scalarLoop, hE]
      cases b with
      | true => exact h1
      | false =>
          rcases hP : peekS s1 with ⟨s2, c⟩
          have h2 : s2.inFlow = s1.inFlow := by
            have := peekS_inFlow s1; rw [hP] at this; exact this
          dsimp only
          rw [hP]
          dsimp only
          split
          · rcases hA : peekAheadS s2 1 with ⟨s3, c1⟩
            have h3 : s3.inFlow = s2.inFlow := by
              have := peekAheadS_inFlow s2 1; rw [hA] at this; exact this
            dsimp only
            split
            · dsimp only; omega
            · rcases hT : isEOFAtS s3 1 with ⟨s4, e1⟩
              have h4 : s4.inFlow = s3.inFlow := by
                have := isEOFAtS_inFlow s3 1; rw [hT] at this; exact this
              dsimp only
              split
              · dsimp only; omega
              · rw [ih, advanceS_inFlow]; omega
          · split
            · dsimp only; omega
            · split
              · dsimp only; omega
              · rw [ih, advanceS_inFlow]; omega

/-- `makeToken` carries the given type. -/
theorem makeToken_type (s : ScanState) (t : TokType) (v : String) :
    (makeToken s t v).type = t := rfl

/-- `scanComment` emits a comment token. -/
theorem scanComment_type (s : ScanState) : (scanComment s).1.type = .tokenComment := rfl

/-- `scanNewline` emits a newline token. -/
theorem scanNewline_type (s : ScanState) : (scanNewline s).1.type = .tokenNewLine := rfl

/-- `scanDocumentStart` emits a document-start token. -/
theorem scanDocumentStart_type (s : ScanState) :
    (scanDocumentStart s).1.type = .tokenDocumentStart := rfl

/-- `scanDocumentEnd` emits a document-end token. -/
theorem scanDocumentEnd_type (s : ScanState) :
    (scanDocumentEnd s).1.type = .tokenDocumentEnd := rfl

/-- `scanSequenceItem` emits a sequence-item token. -/
theorem scanSequenceItem_type (s : ScanState) :
    (scanSequenceItem s).1.type = .tokenSequenceItem := rfl

/-- `scanFlowSequenceStart` emits a `[` token. -/
theorem scanFlowSequenceStart_type (s : ScanState) :
    (scanFlowSequenceStart s).1.type = .tokenFlowSequenceStart := rfl

/-- `scanFlowSequenceEnd` emits a `]` token. -/
theorem scanFlowSequenceEnd_type (s : ScanState) :
    (scanFlowSequenceEnd s).1.type = .tokenFlowSequenceEnd := rfl

/-- `scanFlowMappingStart` emits an opening-brace token. -/
theorem scanFlowMappingStart_type (s : ScanState) :
    (scanFlowMappingStart s).1.type = .tokenFlowMappingStart := rfl

/-- `scanFlowMappingEnd` emits a closing-brace token. -/
theorem scanFlowMappingEnd_type (s : ScanState) :
    (scanFlowMappingEnd s).1.type = .tokenFlowMappingEnd := rfl

/-- `scanFlowEntry` emits a flow-entry token. -/
theorem scanFlowEntry_type (s : ScanState) : (scanFlowEntry s).1.type = .tokenFlowEntry := rfl

/-- `scanKey` emits a key token. -/
theorem scanKey_type (s : ScanState) : (scanKey s).1.type = .tokenKey := rfl

/-- `scanLiteralBlock` emits a literal-block token. -/
theorem scanLiteralBlock_type (s : ScanState) :
    (scanLiteralBlock s).1.type = .tokenLiteralBlock := rfl

/-- `scanFoldedBlock` emits a folded-block token. -/
theorem scanFoldedBlock_type (s : ScanState) :
    (scanFoldedBlock s).1.type = .tokenFoldedBlock := rfl

/-- `scanSingleQuotedString` emits a string token. -/
theorem scanSingleQuotedString_type (s : ScanState) :
    (scanSingleQuotedString s).1.type = .tokenString := rfl

/-- `scanDoubleQuotedString` emits a string token. -/
theorem scanDoubleQuotedString_type (s : ScanState) :
    (scanDoubleQuotedString s).1.type = .tokenString := rfl

/-- `scanAnchor` emits an anchor token. -/
theorem scanAnchor_type (s : ScanState) : (scanAnchor s).1.type = .tokenAnchor := rfl

/-- `scanAlias` emits an alias token. -/
theorem scanAlias_type (s : ScanState) : (scanAlias s).1.type = .tokenAlias := rfl

/-- `scanTag` emits a tag token. -/
theorem scanTag_type (s : ScanState) : (scanTag s).1.type = .tokenTag := rfl

/-- `detectScalarType` only classifies into null/boolean/number/string. -/
theorem detectScalarType_ne_flowEntry (v : String) :
    detectScalarType v ≠ .tokenFlowEntry := by
  rw [detectScalarType]
  dsimp only
  repeat' split
  all_goals decide

/-- `scanScalar` never emits a flow-entry token. -/
theorem scanScalar_type_ne (s : ScanState) :
    (scanScalar s).1.type ≠ .tokenFlowEntry := by
  rw [scanScalar]
  exact detectScalarType_ne_flowEntry _

/-- `scanComment` leaves `inFlow` unchanged. -/
theorem scanComment_inFlow (s : ScanState) : (scanComment s).2.inFlow = s.inFlow := by
  rw [scanComment]
  dsimp only
  rw [commentLoop_inFlow, advanceS_inFlow]

/-- `scanNewline` leaves `inFlow` unchanged. -/
theorem scanNewline_inFlow (s : ScanState) : (scanNewline s).2.inFlow = s.inFlow := by
  rw [scanNewline]
  dsimp only
  rw [advanceS_inFlow]

/-- `scanDocumentStart` leaves `inFlow` unchanged. -/
theorem scanDocumentStart_inFlow (s : ScanState) :
    (scanDocumentStart s).2.inFlow = s.inFlow := by
  rw [scanDocumentStart]
  dsimp only
  rw [advanceS_inFlow, advanceS_inFlow, advanceS_inFlow]

/-- `scanDocumentEnd` leaves `inFlow` unchanged. -/
theorem scanDocumentEnd_inFlow (s : ScanState) :
    (scanDocumentEnd s).2.inFlow = s.inFlow := by
  rw [scanDocumentEnd]
  dsimp only
  rw [advanceS_inFlow, advanceS_inFlow, advanceS_inFlow]

/-- `scanSequenceItem` leaves `inFlow` unchanged. -/
theorem scanSequenceItem_inFlow (s : ScanState) :
    (scanSequenceItem s).2.inFlow = s.inFlow := by
  rw [scanSequenceItem]
  dsimp only
  rw [advanceS_inFlow, advanceS_inFlow]

/-- `scanFlowEntry` leaves `inFlow` unchanged. -/
theorem scanFlowEntry_inFlow (s : ScanState) :
    (scanFlowEntry s).2.inFlow = s.inFlow := by
  rw [scanFlowEntry]
  dsimp only
  rw [advanceS_inFlow]

/-- `scanKey` leaves `inFlow` unchanged. -/
theorem scanKey_inFlow (s : ScanState) : (scanKey s).2.inFlow = s.inFlow := by
  rw [scanKey]
  dsimp only
  rw [advanceS_inFlow]

/-- `scanFlowSequenceStart` increments `inFlow` by one. -/
theorem scanFlowSequenceStart_inFlow (s : ScanState) :
    (scanFlowSequenceStart s).2.inFlow = s.inFlow + 1 := by
  rw [scanFlowSequenceStart]
  dsimp only
  rw [advanceS_inFlow]

/-- `scanFlowMappingStart` increments `inFlow` by one. -/
theorem scanFlowMappingStart_inFlow (s : ScanState) :
    (scanFlowMappingStart s).2.inFlow = s.inFlow + 1 := by
  rw [scanFlowMappingStart]
  dsimp only
  rw [advanceS_inFlow]

/-- `scanFlowSequenceEnd` decrements `inFlow` only when it is positive, so
nonnegativity is preserved. -/
theorem scanFlowSequenceEnd_inFlow (s : ScanState) (h : 0 ≤ s.inFlow) :
    0 ≤ (scanFlowSequenceEnd s).2.inFlow := by
  rw [scanFlowSequenceEnd]
  dsimp only
  have ha := advanceS_inFlow s
  split
  · dsimp only; omega
  · omega

/-- `scanFlowMappingEnd` decrements `inFlow` only when it is positive, so
nonnegativity is preserved. -/
theorem scanFlowMappingEnd_inFlow (s : ScanState) (h : 0 ≤ s.inFlow) :
    0 ≤ (scanFlowMappingEnd s).2.inFlow := by
  rw [scanFlowMappingEnd]
  dsimp only
  have ha := advanceS_inFlow s
  split
  · dsimp only; omega
  · omega

/-- `scanChompingIndicator` leaves `inFlow` unchanged. -/
theorem scanChompingIndicator_inFlow (s : ScanState) :
    (scanChompingIndicator s).1.inFlow = s.inFlow := by
  rw [scanChompingIndicator]
  rcases hP : peekS s with ⟨s1, c⟩
  have h1 : s1.inFlow = s.inFlow := by
    have := peekS_inFlow s; rw [hP] at this; exact this
  dsimp only
  split
  · dsimp only; rw [advanceS_inFlow]; omega
  · dsimp only; omega

set_option maxHeartbeats 1000000 in
/-- `scanLiteralBlock` leaves `inFlow` unchanged. -/
theorem scanLiteralBlock_inFlow (s : ScanState) :
    (scanLiteralBlock s).2.inFlow = s.inFlow := by
  unfold scanLiteralBlock
  dsimp only
  rcases hC : scanChompingIndicator (advanceS s) with ⟨s1, ch⟩
  have h1 : s1.inFlow = s.inFlow := by
    have := scanChompingIndicator_inFlow (advanceS s)
    rw [hC] at this
    rw [this, advanceS_inFlow]
  dsimp only
  rcases hE : isEOFS (skipToEndOfLineS (fuelOf s1) s1) with ⟨s2, b⟩
  have h2 : s2.inFlow = s1.inFlow := by
    have := isEOFS_inFlow (skipToEndOfLineS (fuelOf s1) s1)
    rw [hE] at this
    rw [this, skipToEndOfLineS_inFlow]
  cases b with
  | true =>
      dsimp only
      rw [literalLoop_inFlow]
      omega
  | false =>
      dsimp only
      rcases hP : peekS s2 with ⟨s3, c⟩
      have h3 : s3.inFlow = s2.inFlow := by
        have := peekS_inFlow s2; rw [hP] at this; exact this
      dsimp only
      split
      · rw [literalLoop_inFlow]
        dsimp only
        rw [advanceS_inFlow]
        omega
      · rw [literalLoop_inFlow]
        omega

set_option maxHeartbeats 1000000 in
/-- `scanFoldedBlock` leaves `inFlow` unchanged. -/
theorem scanFoldedBlock_inFlow (s : ScanState) :
    (scanFoldedBlock s).2.inFlow = s.inFlow := by
  unfold scanFoldedBlock
  dsimp only
  rcases hC : scanChompingIndicator (advanceS s) with ⟨s1, ch⟩
  have h1 : s1.inFlow = s.inFlow := by
    have := scanChompingIndicator_inFlow (advanceS s)
    rw [hC] at this
    rw [this, advanceS_inFlow]
  dsimp only
  rcases hE : isEOFS (skipToEndOfLineS (fuelOf s1) s1) with ⟨s2, b⟩
  have h2 : s2.inFlow = s1.inFlow := by
    have := isEOFS_inFlow (skipToEndOfLineS (fuelOf s1) s1)
    rw [hE] at this
    rw [this, skipToEndOfLineS_inFlow]
  cases b with
  | true =>
      dsimp only
      rw [foldedLoop_inFlow]
      omega
  | false =>
      dsimp only
      rcases hP : peekS s2 with ⟨s3, c⟩
      have h3 : s3.inFlow = s2.inFlow := by
        have := peekS_inFlow s2; rw [hP] at this; exact this
      dsimp only
      split
      · rw [foldedLoop_inFlow]
        dsimp only
        rw [advanceS_inFlow]
        omega
      · rw [foldedLoop_inFlow]
        omega

/-- `scanSingleQuotedString` leaves `inFlow` unchanged. -/
theorem scanSingleQuotedString_inFlow (s : ScanState) :
    (scanSingleQuotedString s).2.inFlow = s.inFlow := by
  rw [scanSingleQuotedString]
  dsimp only
  rw [singleQuotedLoop_inFlow, advanceS_inFlow]

/-- `scanDoubleQuotedString` leaves `inFlow` unchanged. -/
theorem scanDoubleQuotedString_inFlow (s : ScanState) :
    (scanDoubleQuotedString s).2.inFlow = s.inFlow := by
  rw [scanDoubleQuotedString]
  dsimp only
  rw [doubleQuotedLoop_inFlow, advanceS_inFlow]

/-- `scanAnchor` leaves `inFlow` unchanged. -/
theorem scanAnchor_inFlow (s : ScanState) : (scanAnchor s).2.inFlow = s.inFlow := by
  rw [scanAnchor]
  dsimp only
  rw [nameLoop_inFlow, advanceS_inFlow]

/-- `scanAlias` leaves `inFlow` unchanged. -/
theorem scanAlias_inFlow (s : ScanState) : (scanAlias s).2.inFlow = s.inFlow := by
  rw [scanAlias]
  dsimp only
  rw [nameLoop_inFlow, advanceS_inFlow]

/-- `scanTag` leaves `inFlow` unchanged. -/
theorem scanTag_inFlow (s : ScanState) : (scanTag s).2.inFlow = s.inFlow := by
  rw [scanTag]
  dsimp only
  rcases hP : peekS (advanceS s) with ⟨s1, c⟩
  have h1 : s1.inFlow = s.inFlow := by
    have := peekS_inFlow (advanceS s)
    rw [hP] at this
    rw [this, advanceS_inFlow]
  dsimp only
  split
  · dsimp only; rw [tagLoop_inFlow, advanceS_inFlow]; omega
  · dsimp only; rw [tagLoop_inFlow]; omega

/-- `scanScalar` leaves `inFlow` unchanged. -/
theorem scanScalar_inFlow (s : ScanState) : (scanScalar s).2.inFlow = s.inFlow := by
  rw [scanScalar]
  dsimp only
  rw [scalarLoop_inFlow]

/-- The block-scalar/quote/anchor/alias/tag/scalar dispatch leaves `inFlow`
unchanged. -/
theorem scanNextTail3_inFlow (s : ScanState) (c : Nat) :
    (scanNextTail3 s c).2.inFlow = s.inFlow := by
  rw [scanNextTail3]
  repeat' split
  all_goals simp only [scanLiteralBlock_inFlow, scanFoldedBlock_inFlow,
    scanSingleQuotedString_inFlow, scanDoubleQuotedString_inFlow, scanAnchor_inFlow,
    scanAlias_inFlow, scanTag_inFlow, scanScalar_inFlow]

/-- The block-scalar/quote/anchor/alias/tag/scalar dispatch never emits a
flow-entry token. -/
theorem scanNextTail3_type_ne (s : ScanState) (c : Nat) :
    (scanNextTail3 s c).1.type ≠ .tokenFlowEntry := by
  rw [scanNextTail3]
  repeat' split
  all_goals first
    | (simp only [scanLiteralBlock_type, scanFoldedBlock_type, scanSingleQuotedString_type,
        scanDoubleQuotedString_type, scanAnchor_type, scanAlias_type, scanTag_type]
       decide)
    | exact scanScalar_type_ne _

/-- The flow-byte/comma/colon dispatch keeps `inFlow` nonnegative. -/
theorem scanNextTail2_inFlow (s : ScanState) (c : Nat) (h : 0 ≤ s.inFlow) :
    0 ≤ (scanNextTail2 s c).2.inFlow := by
  rw [scanNextTail2]
  split
  · rw [scanFlowSequenceStart_inFlow]; omega
  · split
    · exact scanFlowSequenceEnd_inFlow s h
    · split
      · rw [scanFlowMappingStart_inFlow]; omega
      · split
        · exact scanFlowMappingEnd_inFlow s h
        · split
          · rw [scanFlowEntry_inFlow]; omega
          · split
            · rcases hA : peekAheadS s 1 with ⟨s2, c1⟩
              have h2 : s2.inFlow = s.inFlow := by
                have := peekAheadS_inFlow s 1; rw [hA] at this; exact this
              dsimp only
              split
              · rw [scanKey_inFlow]; omega
              · rcases hT : isEOFAtS s2 1 with ⟨s3, e1⟩
                have h3 : s3.inFlow = s2.inFlow := by
                  have := isEOFAtS_inFlow s2 1; rw [hT] at this; exact this
                dsimp only
                split
                · rw [scanKey_inFlow]; omega
                · rw [scanNextTail3_inFlow]; omega
            · rw [scanNextTail3_inFlow]; omega

/-- A flow-entry token out of the flow-byte dispatch certifies a positive
flow depth: the comma case is guarded by `inFlow > 0` and no other case
emits that token type. -/
theorem scanNextTail2_flowEntry (s : ScanState) (c : Nat)
    (hT : (scanNextTail2 s c).1.type = .tokenFlowEntry) : 0 < s.inFlow := by
  rw [scanNextTail2] at hT
  split at hT
  · rw [scanFlowSequenceStart_type] at hT; exact absurd hT (by decide)
  · split at hT
    · rw [scanFlowSequenceEnd_type] at hT; exact absurd hT (by decide)
    · split at hT
      · rw [scanFlowMappingStart_type] at hT; exact absurd hT (by decide)
      · split at hT
        · rw [scanFlowMappingEnd_type] at hT; exact absurd hT (by decide)
        · split at hT
          · rename_i hg
            simp only [Bool.and_eq_true, decide_eq_true_eq] at hg
            exact hg.2
          · split at hT
            · rcases hA : peekAheadS s 1 with ⟨s2, c1⟩
              rw [hA] at hT
              dsimp only at hT
              split at hT
              · rw [scanKey_type] at hT; exact absurd hT (by decide)
              · rcases hI : isEOFAtS s2 1 with ⟨s3, e1⟩
                rw [hI] at hT
                dsimp only at hT
                split at hT
                · rw [scanKey_type] at hT; exact absurd hT (by decide)
                · exact absurd hT (scanNextTail3_type_ne s3 c)
            · exact absurd hT (scanNextTail3_type_ne s c)

/-- The post-marker dispatch keeps `inFlow` nonnegative. -/
theorem scanNextTail_inFlow (s : ScanState) (c : Nat) (h : 0 ≤ s.inFlow) :
    0 ≤ (scanNextTail s c).2.inFlow := by
  rw [scanNextTail]
  split
  · rcases hA : peekAheadS s 1 with ⟨s2, c1⟩
    have h2 : s2.inFlow = s.inFlow := by
      have := peekAheadS_inFlow s 1; rw [hA] at this; exact this
    dsimp only
    split
    · rw [scanSequenceItem_inFlow]; omega
    · exact scanNextTail2_inFlow s2 c (by omega)
  · exact scanNextTail2_inFlow s c h

/-- A flow-entry token out of the post-marker dispatch certifies a positive
flow depth. -/
theorem scanNextTail_flowEntry (s : ScanState) (c : Nat)
    (hT : (scanNextTail s c).1.type = .tokenFlowEntry) : 0 < s.inFlow := by
  rw [scanNextTail] at hT
  split at hT
  · rcases hA : peekAheadS s 1 with ⟨s2, c1⟩
    have h2 : s2.inFlow = s.inFlow := by
      have := peekAheadS_inFlow s 1; rw [hA] at this; exact this
    rw [hA] at hT
    dsimp only at hT
    split at hT
    · rw [scanSequenceItem_type] at hT; exact absurd hT (by decide)
    · have := scanNextTail2_flowEntry s2 c hT; omega
  · exact scanNextTail2_flowEntry s c hT

/-- One `scanNext` step keeps `inFlow` nonnegative. -/
theorem scanNext_inFlow (s : ScanState) (h : 0 ≤ s.inFlow) :
    0 ≤ (scanNext s).2.inFlow := by
  rw [scanNext]
  rcases hE : isEOFS (skipWhitespaceS (fuelOf s) s) with ⟨s1, b⟩
  have h1 : s1.inFlow = s.inFlow := by
    have := isEOFS_inFlow (skipWhitespaceS (fuelOf s) s)
    rw [hE] at this
    rw [this, skipWhitespaceS_inFlow]
  cases b with
  | true => dsimp only; omega
  | false =>
      dsimp only
      rcases hP : peekS s1 with ⟨s2, c⟩
      have h2 : s2.inFlow = s1.inFlow := by
        have := peekS_inFlow s1; rw [hP] at this; exact this
      dsimp only
      split
      · rw [scanComment_inFlow]; omega
      · split
        · rw [scanNewline_inFlow]; omega
        · split
          · rcases hA : peekAheadS s2 1 with ⟨s3, c1⟩
            have h3 : s3.inFlow = s2.inFlow := by
              have := peekAheadS_inFlow s2 1; rw [hA] at this; exact this
            dsimp only
            split
            · rcases hB : peekAheadS s3 2 with ⟨s4, c2⟩
              have h4 : s4.inFlow = s3.inFlow := by
                have := peekAheadS_inFlow s3 2; rw [hB] at this; exact this
              dsimp only
              split
              · rw [scanDocumentStart_inFlow]; omega
              · exact scanNextTail_inFlow s4 c (by omega)
            · exact scanNextTail_inFlow s3 c (by omega)
          · split
            · rcases hA : peekAheadS s2 1 with ⟨s3, c1⟩
              have h3 : s3.inFlow = s2.inFlow := by
                have := peekAheadS_inFlow s2 1; rw [hA] at this; exact this
              dsimp only
              split
              · rcases hB : peekAheadS s3 2 with ⟨s4, c2⟩
                have h4 : s4.inFlow = s3.inFlow := by
                  have := peekAheadS_inFlow s3 2; rw [hB] at this; exact this
                dsimp only
                split
                · rw [scanDocumentEnd_inFlow]; omega
                · exact scanNextTail_inFlow s4 c (by omega)
              · exact scanNextTail_inFlow s3 c (by omega)
            · exact scanNextTail_inFlow s2 c (by omega)

/-- A flow-entry token out of `scanNext` certifies a positive flow depth at
the call. -/
theorem scanNext_flowEntry (s : ScanState)
    (hT : (scanNext s).1.type = .tokenFlowEntry) : 0 < s.inFlow := by
  rw [scanNext] at hT
  rcases hE : isEOFS (skipWhitespaceS (fuelOf s) s) with ⟨s1, b⟩
  have h1 : s1.inFlow = s.inFlow := by
    have := isEOFS_inFlow (skipWhitespaceS (fuelOf s) s)
    rw [hE] at this
    rw [this, skipWhitespaceS_inFlow]
  rw [hE] at hT
  cases b with
  | true =>
      dsimp only [makeToken] at hT
      exact absurd hT (by decide)
  | false =>
      dsimp only at hT
      rcases hP : peekS s1 with ⟨s2, c⟩
      have h2 : s2.inFlow = s1.inFlow := by
        have := peekS_inFlow s1; rw [hP] at this; exact this
      rw [hP] at hT
      dsimp only at hT
      split at hT
      · rw [scanComment_type] at hT; exact absurd hT (by decide)
      · split at hT
        · rw [scanNewline_type] at hT; exact absurd hT (by decide)
        · split at hT
          · rcases hA : peekAheadS s2 1 with ⟨s3, c1⟩
            have h3 : s3.inFlow = s2.inFlow := by
              have := peekAheadS_inFlow s2 1; rw [hA] at this; exact this
            rw [hA] at hT
            dsimp only at hT
            split at hT
            · rcases hB : peekAheadS s3 2 with ⟨s4, c2⟩
              have h4 : s4.inFlow = s3.inFlow := by
                have := peekAheadS_inFlow s3 2; rw [hB] at this; exact this
              rw [hB] at hT
              dsimp only at hT
              split at hT
              · rw [scanDocumentStart_type] at hT; exact absurd hT (by decide)
              · have := scanNextTail_flowEntry s4 c hT; omega
            · have := scanNextTail_flowEntry s3 c hT; omega
          · split at hT
            · rcases hA : peekAheadS s2 1 with ⟨s3, c1⟩
              have h3 : s3.inFlow = s2.inFlow := by
                have := peekAheadS_inFlow s2 1; rw [hA] at this; exact this
              rw [hA] at hT
              dsimp only at hT
              split at hT
              · rcases hB : peekAheadS s3 2 with ⟨s4, c2⟩
                have h4 : s4.inFlow = s3.inFlow := by
                  have := peekAheadS_inFlow s3 2; rw [hB] at this; exact this
                rw [hB] at hT
                dsimp only at hT
                split at hT
                · rw [scanDocumentEnd_type] at hT; exact absurd hT (by decide)
                · have := scanNextTail_flowEntry s4 c hT; omega
              · have := scanNextTail_flowEntry s3 c hT; omega
            · have := scanNextTail_flowEntry s2 c hT; omega

/-- One `Scan` call (pushback queue included) keeps `inFlow` nonnegative. -/
theorem scanTok_inFlow (s : ScanState) (h : 0 ≤ s.inFlow) :
    0 ≤ (scanTok s).2.inFlow := by
  rw [scanTok]
  cases hp : s.pending with
  | nil => exact scanNext_inFlow s h
  | cons t rest => dsimp only; exact h

/-- Iterated `Scan` keeps `inFlow` nonnegative. -/
theorem scanIter_inFlow : ∀ (n : Nat) (s : ScanState), 0 ≤ s.inFlow →
    0 ≤ (scanIter n s).inFlow := by
  intro n
  induction n with
  | zero => intro s h; exact h
  | succ n ih =>
      intro s h
      rw [scanIter]
      exact ih _ (scanTok_inFlow s h)

/-- C9 counterexample: with `PreserveComments = false` (Deep mode), merging
the comment-free scalar `1` with a scalar `2` that carries the head comment
`c` produces a clone of `2` that still carries the head comment `c` — a
comment slot of an input is carried onto the merged node. -/
theorem merge_comment_carried_counterexample :
    mergeNodesRecursive ⟨.deep, .replace, false, false, false, none⟩
        (newScalar "1")
        (.scalar { emptyMeta with comment := { emptyComment with headComment := "c" } } "2" .plain)
        ""
      = .ok (.scalar { emptyMeta with comment := { emptyComment with headComment := "c" } }
          "2" .plain) ∧
    ({ emptyComment with headComment := "c" } : Comment).headComment ≠ "" := by
  constructor
  · simp [mergeNodesRecursive, Node.kind, newScalar, mergeScalars]
  · decide

/-- C9 amended: when `PreserveComments` is false, the freshly built
Document/Mapping/Sequence result nodes carry the empty comment, but the
scalar merge still moves comments: under Override/Deep the result is a
clone of B with B's own comment slots; under the other modes, if B carries
no line comment the result is a clone of A with A's own comment slots, and
if B does carry a line comment the A-clone's comment slot is overwritten
with `mergeComments(a, b)` even though preservation is off (the Go
condition is `pc && bHead != "" || bLine != ""`, and `&&` binds tighter
than `||`). -/
theorem merge_comments_not_merged_when_off (opts : MergeOptions)
    (hpc : opts.preserveComments = false) :
    (∀ ab ac bb bc path m, mergeDocuments opts ab ac bb bc path = .ok m →
        m.getComment = emptyComment) ∧
    (∀ ab ae asty bb be path m, mergeMappings opts ab ae asty bb be path = .ok m →
        m.getComment = emptyComment) ∧
    (∀ ab ac asty bb bc path m, mergeSequences opts ab ac asty bb bc path = .ok m →
        m.getComment = emptyComment) ∧
    (∀ ab av asty bb bv bsty, opts.mode = .override ∨ opts.mode = .deep →
        mergeScalars opts ab av asty bb bv bsty = .ok (.scalar bb bv bsty)) ∧
    (∀ ab av asty bb bv bsty, ¬ (opts.mode = .override ∨ opts.mode = .deep) →
        bb.comment.lineComment = "" →
        mergeScalars opts ab av asty bb bv bsty = .ok (.scalar ab av asty)) ∧
    (∀ ab av asty bb bv bsty, ¬ (opts.mode = .override ∨ opts.mode = .deep) →
        bb.comment.lineComment ≠ "" →
        mergeScalars opts ab av asty bb bv bsty
          = .ok ((Node.scalar ab av asty).setComment
              (mergeComments ab.comment bb.comment))) := by
  refine ⟨?_, ?_, ?_, ?_, ?_, ?_⟩
  · intro ab ac bb bc path m h
    rw [mergeDocuments.eq_def] at h
    simp only [hpc, if_false, Bool.false_eq_true] at h
    split at h
    · cases h; rfl
    · split at h
      · cases h; rfl
      · rcases hmi : mergeIndexed opts ac bc path 0 with e | shared <;>
          rw [hmi] at h <;> simp [Bind.bind, Except.bind] at h
        rw [← h]; rfl
  · intro ab ae asty bb be path m h
    rw [mergeMappings.eq_def] at h
    simp only [hpc, if_false, Bool.false_eq_true] at h
    rcases hpk : processKeys opts ae be path
        (if !opts.preserveOrder then keysOf ae ++ (keysOf be).filter (fun k => !(keysOf ae).contains k)
         else mergeKeyOrder (keysOf ae) (keysOf be)) [] with e | ep <;>
      rw [hpk] at h <;> simp [Bind.bind, Except.bind] at h
    rw [← h]; rfl
  · intro ab ac asty bb bc path m h
    rw [mergeSequences.eq_def] at h
    simp only [hpc, if_false, Bool.false_eq_true] at h
    split at h
    · cases h; rfl
    · cases h; rfl
    · rcases hmi : mergeIndexed opts ac bc path 0 with e | shared <;>
        rw [hmi] at h <;> simp [Bind.bind, Except.bind] at h
      rw [← h]; rfl
    · cases h; rfl
    · cases h; rfl
  · intro ab av asty bb bv bsty hm
    rw [mergeScalars]
    have : (opts.mode = .override || opts.mode = .deep) = true := by
      rcases hm with hm | hm <;> simp [hm]
    rw [if_pos this]
    simp [hpc]
  · intro ab av asty bb bv bsty hm hl
    rw [mergeScalars]
    have : ¬ ((opts.mode = .override || opts.mode = .deep) = true) := by
      simp only [Bool.or_eq_true, decide_eq_true_eq]
      exact fun hc => hm (by simpa using hc)
    rw [if_neg this]
    simp [hpc, hl]
  · intro ab av asty bb bv bsty hm hl
    rw [mergeScalars]
    have : ¬ ((opts.mode = .override || opts.mode = .deep) = true) := by
      simp only [Bool.or_eq_true, decide_eq_true_eq]
      exact fun hc => hm (by simpa using hc)
    rw [if_neg this]
    simp [hpc, hl]

/-- Witness for C9 amended: Deep mode with comments off clones the second
scalar (comments and all), and Preserve mode with comments off still writes
the merged slot onto the A-clone when B carries a line comment. -/
theorem merge_comments_not_merged_witness :
    (⟨MergeMode.deep, .replace, false, false, false, none⟩ : MergeOptions).preserveComments
        = false ∧
    mergeScalars ⟨.deep, .replace, false, false, false, none⟩ emptyMeta "1" .plain
        { emptyMeta with comment := { emptyComment with headComment := "c" } } "2" .plain
      = .ok (.scalar { emptyMeta with comment := { emptyComment with headComment := "c" } }
          "2" .plain) ∧
    ({ emptyMeta with comment := { emptyComment with lineComment := "lc" } }
        : Meta).comment.lineComment ≠ "" ∧
    mergeScalars ⟨.preserve, .replace, false, false, false, none⟩ emptyMeta "1" .plain
        { emptyMeta with comment := { emptyComment with lineComment := "lc" } } "2" .plain
      = .ok ((Node.scalar emptyMeta "1" .plain).setComment
          (mergeComments emptyMeta.comment
            ({ emptyMeta with comment := { emptyComment with lineComment := "lc" } }
              : Meta).comment)) :=
  ⟨rfl,
   (merge_comments_not_merged_when_off ⟨.deep, .replace, false, false, false, none⟩ rfl).2.2.2.1
     emptyMeta "1" .plain _ "2" .plain (Or.inr rfl),
   by decide,
   (merge_comments_not_merged_when_off
       ⟨.preserve, .replace, false, false, false, none⟩ rfl).2.2.2.2.2
     emptyMeta "1" .plain _ "2" .plain (by decide) (by decide)⟩

/-- C8 (code bug): the block encoders write the entry separator `"\n"`
only between entries (`if i > 0`), so the output for the last entry of a
block mapping or block sequence does not end with a newline: the whole
output for `{key: value}` is exactly `key: value` and for `[item1, item2]`
in block style exactly `- item1\n- item2` — contradicting the spec's
"each mapping/sequence entry ends with `\n`" and the repository's own
`TestEncoder_Maps`/`TestEncoder_Nodes`, which expect `key: value\n`. -/
theorem block_entries_no_trailing_newline :
    marshalNode (.mapping emptyMeta [(newScalar "key", newScalar "value", emptyComment)] .block)
      = "key: value" ∧
    marshalNode (.sequence emptyMeta [newScalar "item1", newScalar "item2"] .block)
      = "- item1\n- item2" ∧
    ¬ ("key: value" : String).data.getLast? = some '\n' ∧
    ¬ ("- item1\n- item2" : String).data.getLast? = some '\n' := by
  refine ⟨?_, ?_, by decide, by decide⟩
  · simp [marshalNode, encodeNode, encodeMapping, encodeBlockEntries, encodeScalar,
          isCollection, Node.getComment, Node.base, emptyMeta, emptyComment, spaces, newScalar]
  · simp [marshalNode, encodeNode, encodeSequence, encodeBlockItems, encodeScalar,
          isCollection, Node.getComment, Node.base, emptyMeta, emptyComment, spaces, newScalar,
          trimSpaceGo]
    decide

/-- C10: the scanner's flow-depth counter `inFlow` is never negative: one
`Scan` call preserves nonnegativity (`[`/the opening brace increment it,
`]`/the closing brace decrement it only when it is positive), any number of
`Scan` calls from a fresh scanner on any input — unmatched closers included
— leaves `inFlow ≥ 0`, and a freshly scanned comma-as-FlowEntry token is
only ever emitted at positive depth. -/
theorem scanner_flow_depth_invariant :
    (∀ s : ScanState, 0 ≤ s.inFlow → 0 ≤ (scanTok s).2.inFlow) ∧
    (∀ (input : List Nat) (n : Nat), 0 ≤ (scanIter n (initScanner input)).inFlow) ∧
    (∀ s : ScanState, s.pending = [] → (scanTok s).1.type = .tokenFlowEntry →
      0 < s.inFlow) := by
  refine ⟨fun s h => scanTok_inFlow s h, fun input n => scanIter_inFlow n _ le_rfl,
    fun s hp hT => ?_⟩
  rw [scanTok, hp] at hT
  exact scanNext_flowEntry s hT

/-- Witness for C10 at concrete inputs: the state about to scan `,` at
depth 1 with no pushback, and three scans of the fresh scanner on `[],`. -/
theorem scanner_flow_depth_invariant_witness :
    (0 ≤ (⟨[44], 1, 0, 1, 1, 0, 1, []⟩ : ScanState).inFlow ∧
      0 ≤ (scanTok ⟨[44], 1, 0, 1, 1, 0, 1, []⟩).2.inFlow) ∧
    0 ≤ (scanIter 3 (initScanner [91, 93, 44])).inFlow ∧
    ((⟨[44], 1, 0, 1, 1, 0, 1, []⟩ : ScanState).pending = [] ∧
      (scanTok ⟨[44], 1, 0, 1, 1, 0, 1, []⟩).1.type = .tokenFlowEntry ∧
      0 < (⟨[44], 1, 0, 1, 1, 0, 1, []⟩ : ScanState).inFlow) :=
  ⟨⟨by decide, scanner_flow_depth_invariant.1 ⟨[44], 1, 0, 1, 1, 0, 1, []⟩ (by decide)⟩,
    scanner_flow_depth_invariant.2.1 [91, 93, 44] 3,
    ⟨rfl, by decide,
      scanner_flow_depth_invariant.2.2 ⟨[44], 1, 0, 1, 1, 0, 1, []⟩ rfl (by decide)⟩⟩

/-- `getNodeStringValue` is clone-invariant (`Clone` copies the value). -/
theorem getNodeStringValue_clone (n : Node) :
    getNodeStringValue (cloneNode n) = getNodeStringValue n := by
  rw [cloneNode_eq]

/-- `keysOf` of a cons. -/
theorem keysOf_cons (e : MEntry) (l : List MEntry) :
    keysOf (e :: l) = getNodeStringValue e.1 :: keysOf l := rfl

/-- An entry found by `lookupEntry` carries the looked-up key string. -/
theorem lookupEntry_key {entries : List MEntry} {k : String} {e : MEntry}
    (h : lookupEntry entries k = some e) : getNodeStringValue e.1 = k := by
  have := List.find?_some h
  simpa using this

/-- `lookupEntry` succeeds exactly on the keys of the entry list. -/
theorem lookupEntry_isSome_iff (entries : List MEntry) (k : String) :
    (lookupEntry entries k).isSome ↔ k ∈ keysOf entries := by
  rw [lookupEntry, keysOf, List.find?_isSome]
  simp

/-- The `processedKeys` set returned by the key loop contains every key of
the key list and everything it started with. -/
theorem collectEntries_seen (opts : MergeOptions) (ae be : List MEntry) (path : String) :
    ∀ (keys seen : List String) (es : List MEntry) (s : List String),
      collectEntries opts ae be path keys seen = .ok (es, s) →
      ∀ x, x ∈ keys ∨ x ∈ seen → x ∈ s := by
  intro keys
  induction keys with
  | nil =>
      intro seen es s h x hx
      rw [collectEntries] at h
      cases h
      rcases hx with hx | hx
      · exact absurd hx (List.not_mem_nil x)
      · exact hx
  | cons k rest ih =>
      intro seen es s h x hx
      rw [collectEntries] at h
      by_cases hm : seen.contains k = true
      · rw [if_pos hm] at h
        have hks : k ∈ seen := by simpa using hm
        apply ih seen es s h x
        rcases hx with hx | hx
        · rcases List.mem_cons.mp hx with rfl | hx2
          · exact Or.inr hks
          · exact Or.inl hx2
        · exact Or.inr hx
      · rw [if_neg hm] at h
        have hnext : ∀ es1 s1, collectEntries opts ae be path rest (k :: seen) = .ok (es1, s1) →
            x ∈ s1 := by
          intro es1 s1 hrec
          apply ih _ es1 s1 hrec x
          rcases hx with hx | hx
          · rcases List.mem_cons.mp hx with rfl | hx2
            · exact Or.inr (List.mem_cons_self x seen)
            · exact Or.inl hx2
          · exact Or.inr (List.mem_cons_of_mem k hx)
        rcases h1 : lookupEntry ae k with _ | aE <;> rcases h2 : lookupEntry be k with _ | bE <;>
            simp only [h1, h2] at h
        · exact hnext es s h
        · cases hrec : collectEntries opts ae be path rest (k :: seen) with
          | error e => simp [hrec, Bind.bind, Except.bind] at h
          | ok p =>
              simp only [hrec, Bind.bind, Except.bind] at h
              obtain ⟨rfl, rfl⟩ := h
              exact hnext p.1 p.2 hrec
        · by_cases hov : opts.mode = .override
          · simp only [hov, ne_eq, not_true_eq_false, if_false] at h
            exact hnext es s h
          · simp only [ne_eq, hov, not_false_eq_true, if_true] at h
            cases hrec : collectEntries opts ae be path rest (k :: seen) with
            | error e => simp [hrec, Bind.bind, Except.bind] at h
            | ok p =>
                simp only [hrec, Bind.bind, Except.bind] at h
                obtain ⟨rfl, rfl⟩ := h
                exact hnext p.1 p.2 hrec
        · cases hmv : mergeNodesRecursive opts aE.2.1 bE.2.1 (path ++ "." ++ k) with
          | error e => simp [hmv, Bind.bind, Except.bind] at h
          | ok v =>
              cases hrec : collectEntries opts ae be path rest (k :: seen) with
              | error e => simp [hmv, hrec, Bind.bind, Except.bind] at h
              | ok p =>
                  simp only [hmv, hrec, Bind.bind, Except.bind] at h
                  obtain ⟨rfl, rfl⟩ := h
                  exact hnext p.1 p.2 hrec

/-- Key-level characterization of the main loop of `mergeMappings`: a key is
produced exactly when it is an unseen key of the key list and either both
sides carry it, only A carries it and the mode is not Override, or only B
carries it (B-only keys are produced in every mode). -/
theorem collectEntries_mem (opts : MergeOptions) (ae be : List MEntry) (path : String) :
    ∀ (keys seen : List String) (es : List MEntry) (s : List String),
      collectEntries opts ae be path keys seen = .ok (es, s) →
      ∀ x, x ∈ keysOf es ↔ x ∈ keys ∧ x ∉ seen ∧
        (((lookupEntry ae x).isSome ∧ ((lookupEntry be x).isSome ∨ opts.mode ≠ .override)) ∨
          ((lookupEntry be x).isSome ∧ ¬(lookupEntry ae x).isSome)) := by
  intro keys
  induction keys with
  | nil =>
      intro seen es s h x
      rw [collectEntries] at h
      cases h
      simp [keysOf]
  | cons k rest ih =>
      intro seen es s h x
      rw [collectEntries] at h
      by_cases hm : seen.contains k = true
      · rw [if_pos hm] at h
        have hks : k ∈ seen := by simpa using hm
        rw [ih _ _ _ h x]
        constructor
        · rintro ⟨hx1, hx2, hx3⟩
          exact ⟨List.mem_cons_of_mem k hx1, hx2, hx3⟩
        · rintro ⟨hx1, hx2, hx3⟩
          rcases List.mem_cons.mp hx1 with rfl | hx1'
          · exact absurd hks hx2
          · exact ⟨hx1', hx2, hx3⟩
      · rw [if_neg hm] at h
        have hk : k ∉ seen := by simpa using hm
        rcases h1 : lookupEntry ae k with _ | aE <;> rcases h2 : lookupEntry be k with _ | bE <;>
            simp only [h1, h2] at h
        · rw [ih _ _ _ h x]
          by_cases hxk : x = k
          · subst hxk
            simp [h1, h2, List.mem_cons]
          · simp [hxk, List.mem_cons]
        · cases hrec : collectEntries opts ae be path rest (k :: seen) with
          | error e => simp [hrec, Bind.bind, Except.bind] at h
          | ok p =>
              simp only [hrec, Bind.bind, Except.bind] at h
              obtain ⟨rfl, rfl⟩ := h
              have hkey : getNodeStringValue (cloneEntry bE).1 = k := by
                have := lookupEntry_key h2
                simpa [cloneEntry, getNodeStringValue_clone] using this
              rw [keysOf_cons, hkey, List.mem_cons,
                ih _ _ _ hrec x]
              by_cases hxk : x = k
              · subst hxk
                simp [h1, h2, hk, List.mem_cons]
              · simp [hxk, List.mem_cons]
        · by_cases hov : opts.mode = .override
          · simp only [hov, ne_eq, not_true_eq_false, if_false] at h
            rw [ih _ _ _ h x]
            by_cases hxk : x = k
            · subst hxk
              simp [h1, h2, hov, List.mem_cons]
            · simp [hxk, List.mem_cons]
          · simp only [ne_eq, hov, not_false_eq_true, if_true] at h
            cases hrec : collectEntries opts ae be path rest (k :: seen) with
            | error e => simp [hrec, Bind.bind, Except.bind] at h
            | ok p =>
                simp only [hrec, Bind.bind, Except.bind] at h
                obtain ⟨rfl, rfl⟩ := h
                have hkey : getNodeStringValue (cloneEntry aE).1 = k := by
                  have := lookupEntry_key h1
                  simpa [cloneEntry, getNodeStringValue_clone] using this
                rw [keysOf_cons, hkey, List.mem_cons,
                  ih _ _ _ hrec x]
                by_cases hxk : x = k
                · subst hxk
                  simp [h1, h2, hk, hov, List.mem_cons]
                · simp [hxk, List.mem_cons]
        · cases hmv : mergeNodesRecursive opts aE.2.1 bE.2.1 (path ++ "." ++ k) with
          | error e => simp [hmv, Bind.bind, Except.bind] at h
          | ok v =>
              cases hrec : collectEntries opts ae be path rest (k :: seen) with
              | error e => simp [hmv, hrec, Bind.bind, Except.bind] at h
              | ok p =>
                  simp only [hmv, hrec, Bind.bind, Except.bind] at h
                  obtain ⟨rfl, rfl⟩ := h
                  have hkey : getNodeStringValue
                      (cloneNode aE.1,
                        v,
                        if opts.preserveComments = true then mergeComments aE.2.2 bE.2.2
                        else emptyComment).1 = k := by
                    have := lookupEntry_key h1
                    simpa [getNodeStringValue_clone] using this
                  rw [keysOf_cons, hkey, List.mem_cons,
                    ih _ _ _ hrec x]
                  by_cases hxk : x = k
                  · subst hxk
                    simp [h1, h2, hk, List.mem_cons]
                  · simp [hxk, List.mem_cons]

/-- C3 amended: merging two mappings (no custom hook) produces a mapping
over A's style whose key set is: every shared key (merged recursively),
every A-only key unless the mode is Override, and every B-only key in every
mode — the main loop's B-only branch is unconditional and the trailing
"unprocessed B keys" loop never fires, so Preserve does not drop B-only
keys. -/
theorem mapping_merge_key_spec (opts : MergeOptions) (hc : opts.custom = none)
    (am bm : Meta) (ae be : List MEntry) (asty bsty : CollectionStyle)
    (path : String) (r : Node)
    (h : mergeNodesRecursive opts (.mapping am ae asty) (.mapping bm be bsty) path = .ok r) :
    ∃ cm entries, r = .mapping cm entries asty ∧
      ∀ k, k ∈ keysOf entries ↔
        (k ∈ keysOf ae ∧ (k ∈ keysOf be ∨ opts.mode ≠ .override)) ∨
        (k ∈ keysOf be ∧ k ∉ keysOf ae) := by
  rw [mergeNodesRecursive] at h
  simp only [hc, Option.none_bind, Node.kind, ne_eq, not_true_eq_false, not_false_eq_true,
    if_false, ite_self, reduceCtorEq, Bool.not_eq_true, decide_eq_false_iff_not,
    decide_eq_true_eq] at h
  rw [mergeMappings, processKeys_eq] at h
  simp only [mergeKeyOrder, ite_self] at h
  cases hce : collectEntries opts ae be path
      (keysOf ae ++ (keysOf be).filter fun k => !(keysOf ae).contains k) [] with
  | error e =>
      rw [hce] at h
      simp only [Bind.bind, Except.bind] at h
      exact absurd h (by simp)
  | ok p =>
      rw [hce] at h
      simp only [Bind.bind, Except.bind] at h
      have hproc : ∀ y ∈ keysOf be, y ∈ p.2 := by
        intro y hy
        have hmem : y ∈ keysOf ae ++ (keysOf be).filter fun k => !(keysOf ae).contains k := by
          by_cases hya : y ∈ keysOf ae
          · exact List.mem_append_left _ hya
          · refine List.mem_append_right _ (List.mem_filter.mpr ⟨hy, ?_⟩)
            simp [hya]
        exact collectEntries_seen opts ae be path _ [] p.1 p.2 hce y (Or.inl hmem)
      have hextra : ((keysOf be).filter fun k2 => !p.2.contains k2) = [] := by
        rw [List.filter_eq_nil_iff]
        intro a ha
        simp [hproc a ha]
      rw [hextra] at h
      simp only [List.filterMap_nil, ite_self, List.append_nil] at h
      refine ⟨_, p.1, (Except.ok.inj h).symm, fun k => ?_⟩
      rw [collectEntries_mem opts ae be path _ [] p.1 p.2 hce k]
      rw [lookupEntry_isSome_iff, lookupEntry_isSome_iff]
      simp [List.mem_append, List.mem_filter]
      tauto

/-- C3 counterexample: under `mode = Preserve`, merging A = the mapping
with only key `a` with B = the mapping with only key `b` keeps the B-only
key `b` in the result — while the claim says B-only keys do not appear
under Preserve. -/
theorem mapping_preserve_keeps_bonly_counterexample :
    mergeNodes (.mapping emptyMeta [(newScalar "a", newScalar "1", emptyComment)] .block)
        (.mapping emptyMeta [(newScalar "b", newScalar "2", emptyComment)] .block)
        ⟨.preserve, .replace, false, false, false, none⟩
      = .ok (.mapping emptyMeta
          [(newScalar "a", newScalar "1", emptyComment),
           (newScalar "b", newScalar "2", emptyComment)] .block) ∧
    "b" ∈ keysOf [(newScalar "a", newScalar "1", emptyComment),
           (newScalar "b", newScalar "2", emptyComment)] ∧
    "b" ∉ keysOf [(newScalar "a", newScalar "1", emptyComment)] := by
  refine ⟨?_, by simp [keysOf, getNodeStringValue, newScalar],
    by simp [keysOf, getNodeStringValue, newScalar]⟩
  simp [mergeNodes, mergeNodesRecursive, Node.kind, mergeMappings, processKeys_eq,
    collectEntries, lookupEntry, keysOf, getNodeStringValue, cloneEntry, cloneNode_eq,
    mergeKeyOrder, newScalar, Bind.bind, Except.bind, emptyMeta, emptyComment]

/-- Witness for C3 amended at the concrete Preserve-mode merge of the
mapping with key `a` and the mapping with key `b`. -/
theorem mapping_merge_key_spec_witness :
    ((⟨.preserve, .replace, false, false, false, none⟩ : MergeOptions).custom = none ∧
      mergeNodesRecursive ⟨.preserve, .replace, false, false, false, none⟩
          (.mapping emptyMeta [(newScalar "a", newScalar "1", emptyComment)] .block)
          (.mapping emptyMeta [(newScalar "b", newScalar "2", emptyComment)] .block) ""
        = .ok (.mapping emptyMeta
            [(newScalar "a", newScalar "1", emptyComment),
             (newScalar "b", newScalar "2", emptyComment)] .block)) ∧
    (∃ cm entries,
      (.mapping emptyMeta
          [(newScalar "a", newScalar "1", emptyComment),
           (newScalar "b", newScalar "2", emptyComment)] .block : Node)
        = .mapping cm entries .block ∧
      ∀ k, k ∈ keysOf entries ↔
        (k ∈ keysOf [(newScalar "a", newScalar "1", emptyComment)] ∧
          (k ∈ keysOf [(newScalar "b", newScalar "2", emptyComment)] ∨
            (⟨.preserve, .replace, false, false, false, none⟩ : MergeOptions).mode ≠ .override)) ∨
        (k ∈ keysOf [(newScalar "b", newScalar "2", emptyComment)] ∧
          k ∉ keysOf [(newScalar "a", newScalar "1", emptyComment)])) := by
  have hmerge : mergeNodesRecursive ⟨.preserve, .replace, false, false, false, none⟩
      (.mapping emptyMeta [(newScalar "a", newScalar "1", emptyComment)] .block)
      (.mapping emptyMeta [(newScalar "b", newScalar "2", emptyComment)] .block) ""
    = .ok (.mapping emptyMeta
        [(newScalar "a", newScalar "1", emptyComment),
         (newScalar "b", newScalar "2", emptyComment)] .block) := by
    simp [mergeNodesRecursive, Node.kind, mergeMappings, processKeys_eq, collectEntries,
      lookupEntry, keysOf, getNodeStringValue, cloneEntry, cloneNode_eq, mergeKeyOrder,
      newScalar, Bind.bind, Except.bind, emptyMeta, emptyComment]
  exact ⟨⟨rfl, hmerge⟩,
    mapping_merge_key_spec _ rfl emptyMeta emptyMeta _ _ .block .block "" _ hmerge⟩

mutual

/-- Canonical comparison is reflexive. -/
theorem canonEq_refl : (n : Node) → canonEq n n = true
  | .document b c => by
      rw [canonEq]
      simp only [beq_self_eq_true, Bool.true_and]
      exact canonEqList_refl c
  | .scalar b v st => by rw [canonEq]; simp
  | .mapping b e st => by
      rw [canonEq]
      simp only [beq_self_eq_true, Bool.true_and]
      exact canonEqEntries_refl e
  | .sequence b c st => by
      rw [canonEq]
      simp only [beq_self_eq_true, Bool.true_and]
      exact canonEqList_refl c
  | .alias b i => by rw [canonEq]; simp

/-- Canonical list comparison is reflexive. -/
theorem canonEqList_refl : (l : List Node) → canonEqList l l = true
  | [] => by rw [canonEqList]
  | x :: xs => by
      rw [canonEqList]
      simp [canonEq_refl x, canonEqList_refl xs]

/-- Canonical entry-list comparison is reflexive. -/
theorem canonEqEntries_refl : (l : List MEntry) → canonEqEntries l l = true
  | [] => by rw [canonEqEntries]
  | (k, v, cm) :: rest => by
      rw [canonEqEntries]
      simp [canonEq_refl k, canonEq_refl v, canonEqEntries_refl rest]

end

/-- `cloneNodes` is the identity on the tree values. -/
theorem cloneNodes_eq (l : List Node) : cloneNodes l = l := by
  rw [cloneNodes]
  have h1 : l.map cloneNode = l.map fun x => x :=
    List.map_congr_left fun x _ => cloneNode_eq x
  rw [h1]
  exact List.map_id' l

/-- With pairwise-distinct keys, `lookupEntry` at an entry's own key finds
exactly that entry. -/
theorem lookupEntry_nodup : ∀ (e : List MEntry), nodupB (keysOf e) = true →
    ∀ en ∈ e, lookupEntry e (getNodeStringValue en.1) = some en := by
  intro e
  induction e with
  | nil => intro _ en hen; exact absurd hen (List.not_mem_nil en)
  | cons e0 rest ih =>
      intro hN en hen
      rw [keysOf_cons, nodupB] at hN
      simp only [Bool.and_eq_true, Bool.not_eq_true'] at hN
      obtain ⟨hnc, hN'⟩ := hN
      have hk0 : getNodeStringValue e0.1 ∉ keysOf rest := by
        intro hmem
        have : (keysOf rest).contains (getNodeStringValue e0.1) = true := by
          simpa using hmem
        rw [this] at hnc
        cases hnc
      rcases List.mem_cons.mp hen with rfl | hen'
      · rw [lookupEntry]
        rw [List.reverse_cons, List.find?_append]
        have hnone : (lookupEntry rest (getNodeStringValue en.1)) = none := by
          by_contra hne
          have : (lookupEntry rest (getNodeStringValue en.1)).isSome := by
            cases hq : lookupEntry rest (getNodeStringValue en.1) with
            | none => exact absurd hq hne
            | some _ => simp
          exact hk0 ((lookupEntry_isSome_iff _ _).mp this)
        rw [lookupEntry] at hnone
        rw [hnone]
        simp
      · have hrec := ih hN' en hen'
        rw [lookupEntry, List.reverse_cons, List.find?_append]
        rw [lookupEntry] at hrec
        rw [hrec]
        simp

/-- Self-merge of the by-index loop: every element merges with itself into
a canonically equal node. -/
theorem mergeIndexed_self (opts : MergeOptions) :
    ∀ (ac : List Node),
      (∀ x ∈ ac, ∀ p, ∃ rv, mergeNodesRecursive opts x x p = .ok rv ∧ canonEq rv x = true) →
      ∀ (path : String) (i : Nat), ∃ rs, mergeIndexed opts ac ac path i = .ok rs ∧
        canonEqList rs ac = true := by
  intro ac
  induction ac with
  | nil => intro _ path i; exact ⟨[], by rw [mergeIndexed], by rw [canonEqList]⟩
  | cons x xs ih =>
      intro hv path i
      obtain ⟨rv, hrv, hcv⟩ := hv x (List.mem_cons_self x xs) (path ++ "[" ++ toString i ++ "]")
      obtain ⟨rs, hrs, hcs⟩ := ih (fun y hy p => hv y (List.mem_cons_of_mem x hy) p) path (i + 1)
      refine ⟨rv :: rs, ?_, ?_⟩
      · rw [mergeIndexed]
        simp [hrv, hrs, Bind.bind, Except.bind]
      · rw [canonEqList]
        simp [hcv, hcs]

/-- Self-merge of the key loop on pairwise-distinct keys: each entry merges
with itself, producing a canonically equal entry list. -/
theorem collectEntries_self (opts : MergeOptions) (e : List MEntry) (path : String) :
    ∀ (rest : List MEntry) (seen : List String),
      (∀ en ∈ rest, lookupEntry e (getNodeStringValue en.1) = some en) →
      (∀ en ∈ rest, getNodeStringValue en.1 ∉ seen) →
      nodupB (keysOf rest) = true →
      (∀ en ∈ rest, ∀ p, ∃ rv, mergeNodesRecursive opts en.2.1 en.2.1 p = .ok rv ∧
        canonEq rv en.2.1 = true) →
      ∃ es s, collectEntries opts e e path (keysOf rest) seen = .ok (es, s) ∧
        canonEqEntries es rest = true := by
  intro rest
  induction rest with
  | nil =>
      intro seen _ _ _ _
      exact ⟨[], seen, rfl, rfl⟩
  | cons en rest' ih =>
      obtain ⟨ek, ev, ecm0⟩ := en
      intro seen hlook hseen hN hv
      have hkmem := hlook _ (List.mem_cons_self _ rest')
      have hknot := hseen _ (List.mem_cons_self _ rest')
      rw [keysOf_cons, nodupB] at hN
      simp only [Bool.and_eq_true, Bool.not_eq_true'] at hN
      obtain ⟨hnc, hN'⟩ := hN
      have hk0 : getNodeStringValue (ek, ev, ecm0).1 ∉ keysOf rest' := by
        intro hmem
        have hmem' : (keysOf rest').contains (getNodeStringValue (ek, ev, ecm0).1) = true := by
          simpa using hmem
        rw [hmem'] at hnc
        cases hnc
      obtain ⟨rv, hrv, hcv⟩ := hv _ (List.mem_cons_self _ rest')
        (path ++ "." ++ getNodeStringValue (ek, ev, ecm0).1)
      obtain ⟨es', s', hrec, hc'⟩ := ih (getNodeStringValue (ek, ev, ecm0).1 :: seen)
        (fun y hy => hlook y (List.mem_cons_of_mem _ hy))
        (fun y hy => by
          have hy1 := hseen y (List.mem_cons_of_mem _ hy)
          have hy2 : getNodeStringValue y.1 ∈ keysOf rest' := by
            rw [keysOf]
            exact List.mem_map.mpr ⟨y, hy, rfl⟩
          intro hmem
          rcases List.mem_cons.mp hmem with heq | hmem'
          · rw [heq] at hy2
            exact hk0 hy2
          · exact hy1 hmem')
        hN'
        (fun y hy p => hv y (List.mem_cons_of_mem _ hy) p)
      refine ⟨(cloneNode ek, rv,
          if opts.preserveComments then mergeComments ecm0 ecm0 else emptyComment) :: es',
        s', ?_, ?_⟩
      · rw [keysOf_cons, collectEntries]
        rw [if_neg (by simpa using hknot)]
        simp only [hkmem]
        simp [hrv, hrec, Bind.bind, Except.bind]
      · rw [canonEqEntries]
        simp [cloneNode_eq, canonEq_refl, hcv, hc']

/-- Member extraction from `mergeReadyList`. -/
theorem mergeReadyList_mem : ∀ {l : List Node}, mergeReadyList l = true →
    ∀ x ∈ l, mergeReady x = true := by
  intro l
  induction l with
  | nil => intro _ x hx; exact absurd hx (List.not_mem_nil x)
  | cons y ys ih =>
      intro h x hx
      rw [mergeReadyList] at h
      simp only [Bool.and_eq_true] at h
      rcases List.mem_cons.mp hx with rfl | hx'
      · exact h.1
      · exact ih h.2 x hx'

/-- Member extraction from `mergeReadyEntries`. -/
theorem mergeReadyEntries_mem : ∀ {l : List MEntry}, mergeReadyEntries l = true →
    ∀ en ∈ l, mergeReady en.2.1 = true := by
  intro l
  induction l with
  | nil => intro _ en hen; exact absurd hen (List.not_mem_nil en)
  | cons y ys ih =>
      intro h en hen
      obtain ⟨yk, yv, yc⟩ := y
      rw [mergeReadyEntries] at h
      simp only [Bool.and_eq_true] at h
      rcases List.mem_cons.mp hen with rfl | hen'
      · exact h.1
      · exact ih h.2 en hen'

/-- C4 amended: on merge-ready trees — containers carry no tag and no
anchor, mapping keys are pairwise distinct — merging a tree with itself
under mode Deep and array strategy Replace succeeds and returns a tree
canonically equal to the input (position, style and comment differences
ignored). Without these conditions the identity fails: duplicate keys are
collapsed by the Go-map lookup and container tags/anchors are dropped. -/
theorem merge_self_identity (opts : MergeOptions) (hmode : opts.mode = .deep)
    (harr : opts.arrayMergeStrategy = .replace) (hc : opts.custom = none)
    (a : Node) (hready : mergeReady a = true) (path : String) :
    ∃ r, mergeNodesRecursive opts a a path = .ok r ∧ canonEq r a = true := by
  have main : ∀ n (a : Node), sizeOf a ≤ n → mergeReady a = true → ∀ path, ∃ r,
      mergeNodesRecursive opts a a path = .ok r ∧ canonEq r a = true := by
    intro n
    induction n with
    | zero =>
        intro a hsz
        exfalso
        cases a <;> simp at hsz <;> omega
    | succ n ih =>
        intro a hsz hready path
        cases a with
        | scalar b v st =>
            by_cases hpc : opts.preserveComments = true
            · refine ⟨(Node.scalar b v st).setComment (mergeComments b.comment b.comment),
                ?_, ?_⟩
              · rw [mergeNodesRecursive]
                simp [hc, Node.kind, mergeScalars, hmode, hpc]
              · simp [Node.setComment, canonEq]
            · refine ⟨.scalar b v st, ?_, ?_⟩
              · rw [mergeNodesRecursive]
                simp [hc, Node.kind, mergeScalars, hmode, hpc]
              · simp [canonEq]
        | «alias» b i =>
            refine ⟨.alias b i, ?_, by simp [canonEq]⟩
            rw [mergeNodesRecursive]
            simp [hc, Node.kind, hmode, cloneNode]
            all_goals intros
            all_goals rename_i h _
            all_goals exact Node.noConfusion h
        | document b c =>
            rw [mergeReady] at hready
            simp only [Bool.and_eq_true, beq_iff_eq] at hready
            obtain ⟨⟨htag, hanchor⟩, hlist⟩ := hready
            have hall := mergeReadyList_mem hlist
            cases c with
            | nil =>
                refine ⟨.document { emptyMeta with comment :=
                    if opts.preserveComments then mergeComments b.comment b.comment
                    else emptyComment } [], ?_, ?_⟩
                · rw [mergeNodesRecursive]
                  simp [hc, Node.kind, mergeDocuments, cloneNodes]
                · simp [canonEq, canonEqList, emptyMeta, htag, hanchor]
            | cons c0 cs =>
                have hvals : ∀ x ∈ c0 :: cs, ∀ p, ∃ rv,
                    mergeNodesRecursive opts x x p = .ok rv ∧ canonEq rv x = true := by
                  intro x hx p
                  apply ih x ?_ ?_ p
                  · have := List.sizeOf_lt_of_mem hx
                    simp at hsz this ⊢
                    omega
                  · exact hall x hx
                obtain ⟨rs, hrs, hcs2⟩ := mergeIndexed_self opts (c0 :: cs) hvals path 0
                refine ⟨.document { emptyMeta with comment :=
                    if opts.preserveComments then mergeComments b.comment b.comment
                    else emptyComment } rs, ?_, ?_⟩
                · rw [mergeNodesRecursive]
                  simp only [hc, Option.none_bind, Node.kind, ne_eq, not_true_eq_false,
                    not_false_eq_true, if_false, ite_self, reduceCtorEq]
                  rw [mergeDocuments]
                  simp [hrs, hmode, Bind.bind, Except.bind]
                · simp [canonEq, emptyMeta, htag, hanchor, hcs2]
        | sequence b c st =>
            rw [mergeReady] at hready
            simp only [Bool.and_eq_true, beq_iff_eq] at hready
            obtain ⟨⟨htag, hanchor⟩, hlist⟩ := hready
            refine ⟨.sequence { emptyMeta with comment :=
                if opts.preserveComments then mergeComments b.comment b.comment
                else emptyComment } (cloneNodes c) st, ?_, ?_⟩
            · rw [mergeNodesRecursive]
              simp [hc, Node.kind, mergeSequences, harr]
            · simp [canonEq, cloneNodes_eq, emptyMeta, htag, hanchor, canonEqList_refl]
        | mapping b e st =>
            rw [mergeReady] at hready
            simp only [Bool.and_eq_true, beq_iff_eq] at hready
            obtain ⟨⟨⟨htag, hanchor⟩, hnodup⟩, hentries⟩ := hready
            have hall := mergeReadyEntries_mem hentries
            have hvals : ∀ en ∈ e, ∀ p, ∃ rv,
                mergeNodesRecursive opts en.2.1 en.2.1 p = .ok rv ∧
                canonEq rv en.2.1 = true := by
              intro en hen p
              apply ih en.2.1 ?_ ?_ p
              · have := List.sizeOf_lt_of_mem hen
                obtain ⟨k1, v1, c1⟩ := en
                simp at hsz this ⊢
                omega
              · exact hall en hen
            have hlook := lookupEntry_nodup e hnodup
            obtain ⟨es, s, hce, hcanon⟩ := collectEntries_self opts e path e []
              hlook (fun en _ => List.not_mem_nil _) hnodup hvals
            have hfilter : ((keysOf e).filter fun k => !(keysOf e).contains k) = [] := by
              rw [List.filter_eq_nil_iff]
              intro x hx
              simp [hx]
            have hproc : ∀ y ∈ keysOf e, y ∈ s :=
              fun y hy => collectEntries_seen opts e e path _ [] es s hce y (Or.inl hy)
            have hextra : ((keysOf e).filter fun k2 => !s.contains k2) = [] := by
              rw [List.filter_eq_nil_iff]
              intro x hx
              simp [hproc x hx]
            refine ⟨.mapping { emptyMeta with comment :=
                if opts.preserveComments then mergeComments b.comment b.comment
                else emptyComment } es st, ?_, ?_⟩
            · rw [mergeNodesRecursive]
              simp only [hc, Option.none_bind, Node.kind, ne_eq, not_true_eq_false,
                not_false_eq_true, if_false, ite_self, reduceCtorEq]
              rw [mergeMappings, processKeys_eq]
              simp only [mergeKeyOrder, ite_self]
              rw [hfilter, List.append_nil, hce]
              simp only [Bind.bind, Except.bind]
              rw [hextra]
              simp [hmode, List.filterMap_nil]
            · rw [canonEq]
              simp [emptyMeta, htag, hanchor, hcanon]
  exact main (sizeOf a) a le_rfl hready path

/-- C4 counterexample: self-merge is not a canonical identity in general —
with the duplicate key `x` the Go-map lookup collapses the mapping
`[x: 1, x: 2]` to the single surviving entry `[x: 2]`, which is not
canonically equal to the input. -/
theorem merge_self_identity_counterexample :
    mergeNodes
        (.mapping emptyMeta [(newScalar "x", newScalar "1", emptyComment),
                             (newScalar "x", newScalar "2", emptyComment)] .block)
        (.mapping emptyMeta [(newScalar "x", newScalar "1", emptyComment),
                             (newScalar "x", newScalar "2", emptyComment)] .block)
        ⟨.deep, .replace, false, false, false, none⟩
      = .ok (.mapping emptyMeta [(newScalar "x", newScalar "2", emptyComment)] .block) ∧
    canonEq (.mapping emptyMeta [(newScalar "x", newScalar "2", emptyComment)] .block)
        (.mapping emptyMeta [(newScalar "x", newScalar "1", emptyComment),
                             (newScalar "x", newScalar "2", emptyComment)] .block) = false := by
  constructor
  · simp [mergeNodes, mergeNodesRecursive, Node.kind, mergeMappings, processKeys_eq,
      collectEntries, lookupEntry, keysOf, getNodeStringValue, cloneEntry, cloneNode_eq,
      mergeKeyOrder, newScalar, Bind.bind, Except.bind, emptyMeta, emptyComment, mergeScalars]
  · decide

/-- Witness for C4 amended: the merge-ready one-entry mapping `x: 1` merged
with itself under Deep/Replace. -/
theorem merge_self_identity_witness :
    ((⟨.deep, .replace, false, false, false, none⟩ : MergeOptions).mode = .deep ∧
      (⟨.deep, .replace, false, false, false, none⟩ : MergeOptions).arrayMergeStrategy
        = .replace ∧
      (⟨.deep, .replace, false, false, false, none⟩ : MergeOptions).custom = none ∧
      mergeReady (.mapping emptyMeta [(newScalar "x", newScalar "1", emptyComment)] .block)
        = true) ∧
    (∃ r, mergeNodesRecursive ⟨.deep, .replace, false, false, false, none⟩
          (.mapping emptyMeta [(newScalar "x", newScalar "1", emptyComment)] .block)
          (.mapping emptyMeta [(newScalar "x", newScalar "1", emptyComment)] .block) ""
        = .ok r ∧
      canonEq r (.mapping emptyMeta [(newScalar "x", newScalar "1", emptyComment)] .block)
        = true) :=
  ⟨⟨rfl, rfl, rfl, by decide⟩,
    merge_self_identity _ rfl rfl rfl _ (by decide) ""⟩

mutual

/-- `interfaceToNode`-style reallocation is fresh: every address of the
built tree is at or above the allocation counter. -/
theorem assignAddrs_fresh (a : Node) (n : Nat) :
    n ≤ (assignAddrs a n).2 ∧ ∀ y ∈ addrListA (assignAddrs a n).1, n ≤ y := by
  match a with
  | .document b c =>
      rcases hc : assignAddrsList c (n + 1) with ⟨cc, n1⟩
      have ih := assignAddrsList_fresh c (n + 1)
      rw [hc] at ih
      simp only [assignAddrs, hc, addrListA]
      refine ⟨by omega, ?_⟩
      intro y hy
      rcases List.mem_cons.mp hy with h1 | h2
      · omega
      · have := ih.2 y h2; omega
  | .scalar b v st => simp [assignAddrs, addrListA]
  | .mapping b e st =>
      rcases hc : assignAddrsEntries e (n + 1) with ⟨ee, n1⟩
      have ih := assignAddrsEntries_fresh e (n + 1)
      rw [hc] at ih
      simp only [assignAddrs, hc, addrListA]
      refine ⟨by omega, ?_⟩
      intro y hy
      rcases List.mem_cons.mp hy with h1 | h2
      · omega
      · have := ih.2 y h2; omega
  | .sequence b c st =>
      rcases hc : assignAddrsList c (n + 1) with ⟨cc, n1⟩
      have ih := assignAddrsList_fresh c (n + 1)
      rw [hc] at ih
      simp only [assignAddrs, hc, addrListA]
      refine ⟨by omega, ?_⟩
      intro y hy
      rcases List.mem_cons.mp hy with h1 | h2
      · omega
      · have := ih.2 y h2; omega
  | .alias b i => simp [assignAddrs, addrListA]

/-- Freshness of list reallocation. -/
theorem assignAddrsList_fresh (l : List Node) (n : Nat) :
    n ≤ (assignAddrsList l n).2 ∧ ∀ y ∈ addrListNodes (assignAddrsList l n).1, n ≤ y := by
  match l with
  | [] => simp [assignAddrsList, addrListNodes]
  | x :: rest =>
      rcases hx : assignAddrs x n with ⟨x1, n1⟩
      rcases hr : assignAddrsList rest n1 with ⟨r1, n2⟩
      have ihx := assignAddrs_fresh x n
      have ihr := assignAddrsList_fresh rest n1
      rw [hx] at ihx
      rw [hr] at ihr
      simp only [assignAddrsList, hx, hr, addrListNodes]
      refine ⟨by omega, ?_⟩
      intro y hy
      rcases List.mem_append.mp hy with h1 | h2
      · exact ihx.2 y h1
      · have := ihr.2 y h2; omega

/-- Freshness of entry-list reallocation. -/
theorem assignAddrsEntries_fresh (l : List MEntry) (n : Nat) :
    n ≤ (assignAddrsEntries l n).2 ∧
    ∀ y ∈ addrListEntries (assignAddrsEntries l n).1, n ≤ y := by
  match l with
  | [] => simp [assignAddrsEntries, addrListEntries]
  | (k, v, cm) :: rest =>
      rcases hk : assignAddrs k n with ⟨k1, n1⟩
      rcases hv : assignAddrs v n1 with ⟨v1, n2⟩
      rcases hr : assignAddrsEntries rest n2 with ⟨r1, n3⟩
      have ihk := assignAddrs_fresh k n
      have ihv := assignAddrs_fresh v n1
      have ihr := assignAddrsEntries_fresh rest n2
      rw [hk] at ihk
      rw [hv] at ihv
      rw [hr] at ihr
      simp only [assignAddrsEntries, hk, hv, hr, addrListEntries]
      refine ⟨by omega, ?_⟩
      intro y hy
      simp only [List.mem_append] at hy
      rcases hy with (h | h) | h
      · exact ihk.2 y h
      · have := ihv.2 y h; omega
      · have := ihr.2 y h; omega

end

/-- Freshness of the Union loop's clones. -/
theorem unionLoopA_fresh : ∀ (l : List ANode) (seen : List String) (n : Nat),
    n ≤ (unionLoopA l seen n).2 ∧ ∀ y ∈ addrListNodes (unionLoopA l seen n).1, n ≤ y := by
  intro l
  induction l with
  | nil => intro seen n; simp [unionLoopA, addrListNodes]
  | cons x rest ih =>
      intro seen n
      rw [unionLoopA]
      by_cases hm : seen.contains (nodeToStringA x) = true
      · rw [if_pos hm]
        exact ih seen n
      · rw [if_neg hm]
        rcases hx : cloneA x n with ⟨x1, n1⟩
        dsimp only
        rcases hr : unionLoopA rest (nodeToStringA x :: seen) n1 with ⟨r1, n2⟩
        dsimp only
        have ihx := cloneA_fresh x n
        have ihr := ih (nodeToStringA x :: seen) n1
        rw [hx] at ihx
        rw [hr] at ihr
        simp only [addrListNodes]
        refine ⟨by omega, ?_⟩
        intro y hy
        rcases List.mem_append.mp hy with h1 | h2
        · exact ihx.2 y h1
        · have := ihr.2 y h2; omega

/-- Freshness of the scalar merge: the result is a clone (possibly with an
in-place comment write, which keeps the address). -/
theorem mergeScalarsA_fresh (opts : MergeOptions) (aa : Nat) (ab : Meta) (av : String)
    (asty : ScalarStyle) (ba : Nat) (bb : Meta) (bv : String) (bsty : ScalarStyle) (n : Nat) :
    n ≤ (mergeScalarsA opts aa ab av asty ba bb bv bsty n).2 ∧
    ∀ y ∈ addrListA (mergeScalarsA opts aa ab av asty ba bb bv bsty n).1, n ≤ y := by
  rw [mergeScalarsA]
  split
  all_goals simp only [cloneA]
  all_goals refine ⟨by simp, ?_⟩
  all_goals split
  all_goals simp [ANode.setComment, addrListA]

/-- The addressed key loop computes what its plain-match reformulation
computes. -/
theorem processKeysA_eq (opts : MergeOptions) (ae be : List AEntry) (path : String)
    (keys seen : List String) (n : Nat) :
    processKeysA opts ae be path keys seen n = collectEntriesA opts ae be path keys seen n := by
  induction keys generalizing seen n with
  | nil => rw [processKeysA, collectEntriesA]
  | cons k rest ih =>
      rw [processKeysA.eq_def, collectEntriesA.eq_def]
      by_cases hm : k ∈ seen
      · simp [hm, ih]
      · simp only [hm, if_false]
        cases h1 : lookupEntryA ae k <;> cases h2 : lookupEntryA be k <;>
          simp [hm, h1, h2, ih]

/-- Addresses of an appended node list. -/
theorem addrListNodes_append : ∀ (l1 l2 : List ANode),
    addrListNodes (l1 ++ l2) = addrListNodes l1 ++ addrListNodes l2 := by
  intro l1
  induction l1 with
  | nil => intro l2; simp [addrListNodes]
  | cons x rest ih => intro l2; simp [addrListNodes, ih]

/-- Addresses of an appended entry list. -/
theorem addrListEntries_append : ∀ (l1 l2 : List AEntry),
    addrListEntries (l1 ++ l2) = addrListEntries l1 ++ addrListEntries l2 := by
  intro l1
  induction l1 with
  | nil => intro l2; simp [addrListEntries]
  | cons e rest ih =>
      intro l2
      obtain ⟨k, v, c⟩ := e
      simp [addrListEntries, ih]

/-- Freshness of the by-index merge loop, given freshness of the element
merges. -/
theorem mergeIndexedA_fresh (opts : MergeOptions) :
    ∀ (ac bc : List ANode),
      (∀ x ∈ ac, ∀ y ∈ bc, ∀ p n r n1, mergeNodesRecursiveA opts x y p n = .ok (r, n1) →
        n ≤ n1 ∧ ∀ z ∈ addrListA r, n ≤ z) →
      ∀ path i n rs n1, mergeIndexedA opts ac bc path i n = .ok (rs, n1) →
        n ≤ n1 ∧ ∀ z ∈ addrListNodes rs, n ≤ z := by
  intro ac
  induction ac with
  | nil =>
      intro bc _ path i n rs n1 h
      rw [mergeIndexedA] at h
      cases h
      simp [addrListNodes]
  | cons x xs ih =>
      intro bc hrec path i n rs n1 h
      cases bc with
      | nil =>
          rw [mergeIndexedA] at h
          · cases h
            simp [addrListNodes]
          · exact fun hx => List.noConfusion hx
      | cons y ys =>
          rw [mergeIndexedA] at h
          cases hm : mergeNodesRecursiveA opts x y (path ++ "[" ++ toString i ++ "]") n with
          | error e => simp [hm, Bind.bind, Except.bind] at h
          | ok p =>
              cases hrest : mergeIndexedA opts xs ys path (i + 1) p.2 with
              | error e => simp [hm, hrest, Bind.bind, Except.bind] at h
              | ok q =>
                  simp only [hm, hrest, Bind.bind, Except.bind] at h
                  obtain ⟨rfl, rfl⟩ := h
                  have h1 := hrec x (List.mem_cons_self x xs) y (List.mem_cons_self y ys)
                    (path ++ "[" ++ toString i ++ "]") n p.1 p.2 (by rw [hm])
                  have h2 := ih ys
                    (fun x2 hx2 y2 hy2 => hrec x2 (List.mem_cons_of_mem x hx2)
                      y2 (List.mem_cons_of_mem y hy2))
                    path (i + 1) p.2 q.1 q.2 (by rw [hrest])
                  refine ⟨by omega, ?_⟩
                  intro z hz
                  rw [addrListNodes] at hz
                  rcases List.mem_append.mp hz with hz1 | hz2
                  · exact h1.2 z hz1
                  · have := h2.2 z hz2; omega

/-- Freshness of the key loop, given freshness of the value merges. -/
theorem processKeysA_fresh (opts : MergeOptions) (ae be : List AEntry) (path : String)
    (hrec : ∀ k aE bE, lookupEntryA ae k = some aE → lookupEntryA be k = some bE →
      ∀ p n r n1, mergeNodesRecursiveA opts aE.2.1 bE.2.1 p n = .ok (r, n1) →
        n ≤ n1 ∧ ∀ z ∈ addrListA r, n ≤ z) :
    ∀ (keys seen : List String) (n : Nat) (es : List AEntry) (s : List String) (n1 : Nat),
      collectEntriesA opts ae be path keys seen n = .ok (es, s, n1) →
      n ≤ n1 ∧ ∀ z ∈ addrListEntries es, n ≤ z := by
  intro keys
  induction keys with
  | nil =>
      intro seen n es s n1 h
      rw [collectEntriesA] at h
      cases h
      simp [addrListEntries]
  | cons k rest ih =>
      intro seen n es s n1 h
      rw [collectEntriesA] at h
      by_cases hm : seen.contains k = true
      · rw [if_pos hm] at h
        exact ih seen n es s n1 h
      · rw [if_neg hm] at h
        rcases h1 : lookupEntryA ae k with _ | aE <;> rcases h2 : lookupEntryA be k with _ | bE <;>
            simp only [h1, h2] at h
        · exact ih (k :: seen) n es s n1 h
        · rcases hc : cloneEntriesA [bE] n with ⟨e1, n2⟩
          rw [hc] at h
          have ihc := cloneEntriesA_fresh [bE] n
          rw [hc] at ihc
          cases hr : collectEntriesA opts ae be path rest (k :: seen) n2 with
          | error e => simp [hr, Bind.bind, Except.bind] at h
          | ok q =>
              obtain ⟨es1, s1, n3⟩ := q
              simp only [hr, Bind.bind, Except.bind] at h
              obtain ⟨rfl, rfl, rfl⟩ := h
              have h3 := ih (k :: seen) n2 es1 s n1 hr
              refine ⟨by omega, ?_⟩
              intro z hz
              rw [addrListEntries_append] at hz
              rcases List.mem_append.mp hz with hz1 | hz2
              · exact ihc.2 z hz1
              · have := h3.2 z hz2; omega
        · by_cases hov : opts.mode = .override
          · simp only [hov, ne_eq, not_true_eq_false, if_false] at h
            exact ih (k :: seen) n es s n1 h
          · simp only [ne_eq, hov, not_false_eq_true, if_true] at h
            rcases hc : cloneEntriesA [aE] n with ⟨e1, n2⟩
            rw [hc] at h
            have ihc := cloneEntriesA_fresh [aE] n
            rw [hc] at ihc
            cases hr : collectEntriesA opts ae be path rest (k :: seen) n2 with
            | error e => simp [hr, Bind.bind, Except.bind] at h
            | ok q =>
                obtain ⟨es1, s1, n3⟩ := q
                simp only [hr, Bind.bind, Except.bind] at h
                obtain ⟨rfl, rfl, rfl⟩ := h
                have h3 := ih (k :: seen) n2 es1 s n1 hr
                refine ⟨by omega, ?_⟩
                intro z hz
                rw [addrListEntries_append] at hz
                rcases List.mem_append.mp hz with hz1 | hz2
                · exact ihc.2 z hz1
                · have := h3.2 z hz2; omega
        · rcases hk : cloneA aE.1 n with ⟨ka, n2⟩
          rw [hk] at h
          have ihk := cloneA_fresh aE.1 n
          rw [hk] at ihk
          cases hmv : mergeNodesRecursiveA opts aE.2.1 bE.2.1 (path ++ "." ++ k) n2 with
          | error e => simp [hmv, Bind.bind, Except.bind] at h
          | ok p =>
              obtain ⟨mv, n4⟩ := p
              cases hr : collectEntriesA opts ae be path rest (k :: seen) n4 with
              | error e => simp [hmv, hr, Bind.bind, Except.bind] at h
              | ok q =>
                  obtain ⟨es1, s1, n3⟩ := q
                  simp only [hmv, hr, Bind.bind, Except.bind] at h
                  obtain ⟨rfl, rfl, rfl⟩ := h
                  have hv := hrec k aE bE h1 h2 (path ++ "." ++ k) n2 mv n4 hmv
                  have h3 := ih (k :: seen) n4 es1 s n1 hr
                  refine ⟨by omega, ?_⟩
                  intro z hz
                  rw [addrListEntries] at hz
                  simp only [List.mem_append] at hz
                  rcases hz with (hz1 | hz2) | hz3
                  · exact ihk.2 z hz1
                  · have := hv.2 z hz2; omega
                  · have := h3.2 z hz3; omega

/-- Freshness of the document merge, given freshness of the child merges. -/
theorem mergeDocumentsA_fresh (opts : MergeOptions) (ab : Meta) (ac : List ANode)
    (bb : Meta) (bc : List ANode) (path : String)
    (hrec : ∀ x ∈ ac, ∀ y ∈ bc, ∀ p n r n1, mergeNodesRecursiveA opts x y p n = .ok (r, n1) →
      n ≤ n1 ∧ ∀ z ∈ addrListA r, n ≤ z) :
    ∀ n r n1, mergeDocumentsA opts ab ac bb bc path n = .ok (r, n1) →
      n ≤ n1 ∧ ∀ z ∈ addrListA r, n ≤ z := by
  intro n r n1 h
  rw [mergeDocumentsA] at h
  split at h
  · cases h
    obtain ⟨hc1, hc2⟩ := cloneListA_fresh bc (n + 1)
    refine ⟨by omega, ?_⟩
    intro z hz
    rw [addrListA] at hz
    rcases List.mem_cons.mp hz with rfl | hz2
    · omega
    · have := hc2 z hz2; omega
  · split at h
    · cases h
      obtain ⟨hc1, hc2⟩ := cloneListA_fresh ac (n + 1)
      refine ⟨by omega, ?_⟩
      intro z hz
      rw [addrListA] at hz
      rcases List.mem_cons.mp hz with rfl | hz2
      · omega
      · have := hc2 z hz2; omega
    · cases hsh : mergeIndexedA opts ac bc path 0 (n + 1) with
      | error e => simp [hsh, Bind.bind, Except.bind] at h
      | ok p =>
          obtain ⟨shared, n2⟩ := p
          simp only [hsh, Bind.bind, Except.bind] at h
          obtain ⟨hs1, hs2⟩ := mergeIndexedA_fresh opts ac bc hrec path 0 (n + 1) shared n2 hsh
          by_cases hgt : bc.length > ac.length
          · rw [if_pos hgt] at h
            cases h
            obtain ⟨he1, he2⟩ := cloneListA_fresh (bc.drop ac.length) n2
            refine ⟨by omega, ?_⟩
            intro z hz
            rw [addrListA] at hz
            rcases List.mem_cons.mp hz with rfl | hz2
            · omega
            rw [addrListNodes_append] at hz2
            rcases List.mem_append.mp hz2 with hz3 | hz4
            · have := hs2 z hz3; omega
            · have := he2 z hz4; omega
          · rw [if_neg hgt] at h
            by_cases hpm : (decide (opts.mode = MergeMode.preserve)
                && decide (ac.length > bc.length)) = true
            · rw [if_pos hpm] at h
              cases h
              obtain ⟨he1, he2⟩ := cloneListA_fresh (ac.drop bc.length) n2
              refine ⟨by omega, ?_⟩
              intro z hz
              rw [addrListA] at hz
              rcases List.mem_cons.mp hz with rfl | hz2
              · omega
              rw [addrListNodes_append] at hz2
              rcases List.mem_append.mp hz2 with hz3 | hz4
              · have := hs2 z hz3; omega
              · have := he2 z hz4; omega
            · rw [if_neg hpm] at h
              cases h
              refine ⟨by omega, ?_⟩
              intro z hz
              rw [addrListA] at hz
              rcases List.mem_cons.mp hz with rfl | hz2
              · omega
              rw [addrListNodes_append] at hz2
              rcases List.mem_append.mp hz2 with hz3 | hz4
              · have := hs2 z hz3; omega
              · simp [addrListNodes] at hz4

/-- Freshness of the sequence merge, given freshness of the element
merges. -/
theorem mergeSequencesA_fresh (opts : MergeOptions) (ab : Meta) (ac : List ANode)
    (asty : CollectionStyle) (bb : Meta) (bc : List ANode) (path : String)
    (hrec : ∀ x ∈ ac, ∀ y ∈ bc, ∀ p n r n1, mergeNodesRecursiveA opts x y p n = .ok (r, n1) →
      n ≤ n1 ∧ ∀ z ∈ addrListA r, n ≤ z) :
    ∀ n r n1, mergeSequencesA opts ab ac asty bb bc path n = .ok (r, n1) →
      n ≤ n1 ∧ ∀ z ∈ addrListA r, n ≤ z := by
  intro n r n1 h
  rw [mergeSequencesA] at h
  cases hstrat : opts.arrayMergeStrategy <;> rw [hstrat] at h <;> dsimp only at h
  · cases h
    obtain ⟨hc1, hc2⟩ := cloneListA_fresh bc (n + 1)
    refine ⟨by omega, ?_⟩
    intro z hz
    rw [addrListA] at hz
    rcases List.mem_cons.mp hz with rfl | hz2
    · omega
    · have := hc2 z hz2; omega
  · rcases hc1e : cloneListA ac (n + 1) with ⟨c1, n2⟩
    rw [hc1e] at h
    dsimp only at h
    obtain ⟨ha1, ha2⟩ := cloneListA_fresh ac (n + 1)
    rw [hc1e] at ha1 ha2
    cases h
    obtain ⟨hb1, hb2⟩ := cloneListA_fresh bc n2
    refine ⟨by omega, ?_⟩
    intro z hz
    rw [addrListA] at hz
    rcases List.mem_cons.mp hz with rfl | hz2
    · omega
    rw [addrListNodes_append] at hz2
    rcases List.mem_append.mp hz2 with hz3 | hz4
    · have := ha2 z hz3; omega
    · have := hb2 z hz4; omega
  · cases hsh : mergeIndexedA opts ac bc path 0 (n + 1) with
    | error e => simp [hsh, Bind.bind, Except.bind] at h
    | ok p =>
        obtain ⟨shared, n2⟩ := p
        simp only [hsh, Bind.bind, Except.bind] at h
        obtain ⟨hs1, hs2⟩ := mergeIndexedA_fresh opts ac bc hrec path 0 (n + 1) shared n2 hsh
        by_cases hgt : ac.length > bc.length
        · rw [if_pos hgt] at h
          cases h
          obtain ⟨he1, he2⟩ := cloneListA_fresh (ac.drop bc.length) n2
          refine ⟨by omega, ?_⟩
          intro z hz
          rw [addrListA] at hz
          rcases List.mem_cons.mp hz with rfl | hz2
          · omega
          rw [addrListNodes_append] at hz2
          rcases List.mem_append.mp hz2 with hz3 | hz4
          · have := hs2 z hz3; omega
          · have := he2 z hz4; omega
        · rw [if_neg hgt] at h
          cases h
          obtain ⟨he1, he2⟩ := cloneListA_fresh (bc.drop ac.length) n2
          refine ⟨by omega, ?_⟩
          intro z hz
          rw [addrListA] at hz
          rcases List.mem_cons.mp hz with rfl | hz2
          · omega
          rw [addrListNodes_append] at hz2
          rcases List.mem_append.mp hz2 with hz3 | hz4
          · have := hs2 z hz3; omega
          · have := he2 z hz4; omega
  · cases h
    obtain ⟨hc1, hc2⟩ := cloneListA_fresh bc (n + 1)
    refine ⟨by omega, ?_⟩
    intro z hz
    rw [addrListA] at hz
    rcases List.mem_cons.mp hz with rfl | hz2
    · omega
    · have := hc2 z hz2; omega
  · cases h
    obtain ⟨hu1, hu2⟩ := unionLoopA_fresh (ac ++ bc) [] (n + 1)
    refine ⟨by omega, ?_⟩
    intro z hz
    rw [addrListA] at hz
    rcases List.mem_cons.mp hz with rfl | hz2
    · omega
    · have := hu2 z hz2; omega

/-- Freshness of the mapping merge, given freshness of the shared-key value
merges. -/
theorem mergeMappingsA_fresh (opts : MergeOptions) (ab : Meta) (ae : List AEntry)
    (asty : CollectionStyle) (bb : Meta) (be : List AEntry) (path : String)
    (hrec : ∀ k aE bE, lookupEntryA ae k = some aE → lookupEntryA be k = some bE →
      ∀ p n r n1, mergeNodesRecursiveA opts aE.2.1 bE.2.1 p n = .ok (r, n1) →
        n ≤ n1 ∧ ∀ z ∈ addrListA r, n ≤ z) :
    ∀ n r n1, mergeMappingsA opts ab ae asty bb be path n = .ok (r, n1) →
      n ≤ n1 ∧ ∀ z ∈ addrListA r, n ≤ z := by
  intro n r n1 h
  rw [mergeMappingsA, processKeysA_eq] at h
  simp only [mergeKeyOrder, ite_self] at h
  cases hpk : collectEntriesA opts ae be path
      (keysOfA ae ++ (keysOfA be).filter fun k => !(keysOfA ae).contains k) [] (n + 1) with
  | error e => rw [hpk] at h; simp [Bind.bind, Except.bind] at h
  | ok q =>
      obtain ⟨es, s, n2⟩ := q
      rw [hpk] at h
      simp only [Bind.bind, Except.bind] at h
      obtain ⟨hp1, hp2⟩ := processKeysA_fresh opts ae be path hrec _ [] (n + 1) es s n2 hpk
      by_cases hne : opts.mode ≠ MergeMode.preserve
      · rw [if_pos hne] at h
        cases h
        obtain ⟨he1, he2⟩ := cloneEntriesA_fresh
          (((keysOfA be).filter fun k => !s.contains k).filterMap fun k => lookupEntryA be k) n2
        refine ⟨by omega, ?_⟩
        intro z hz
        rw [addrListA] at hz
        rcases List.mem_cons.mp hz with rfl | hz2
        · omega
        rw [addrListEntries_append] at hz2
        rcases List.mem_append.mp hz2 with hz3 | hz4
        · have := hp2 z hz3; omega
        · have := he2 z hz4; omega
      · rw [if_neg hne] at h
        cases h
        refine ⟨by omega, ?_⟩
        intro z hz
        rw [addrListA] at hz
        rcases List.mem_cons.mp hz with rfl | hz2
        · omega
        rw [addrListEntries_append] at hz2
        rcases List.mem_append.mp hz2 with hz3 | hz4
        · have := hp2 z hz3; omega
        · simp [addrListEntries] at hz4

/-- Freshness of the whole recursive merge: every address of the result is
at or above the allocation counter at the call (no struct of either input
is reused), and the counter never goes backward. -/
theorem mergeNodesRecursiveA_fresh (opts : MergeOptions) :
    ∀ (m : Nat) (a b : ANode), sizeOf a + sizeOf b ≤ m → ∀ path n r n1,
      mergeNodesRecursiveA opts a b path n = .ok (r, n1) →
      n ≤ n1 ∧ ∀ z ∈ addrListA r, n ≤ z := by
  intro m
  induction m with
  | zero =>
      intro a b hsz
      exfalso
      cases a <;> simp at hsz <;> omega
  | succ m ih =>
      intro a b hsz path n r n1 h
      have hclone : ∀ (x y : ANode),
          (if opts.mode = MergeMode.override then (.ok (cloneA y n) : Except String (ANode × Nat))
           else .ok (cloneA x n)) = .ok (r, n1) →
          n ≤ n1 ∧ ∀ z ∈ addrListA r, n ≤ z := by
        intro x y hxy
        split at hxy
        · simp only [Except.ok.injEq] at hxy
          obtain ⟨hf1, hf2⟩ := cloneA_fresh y n
          rw [hxy] at hf1 hf2
          exact ⟨hf1, hf2⟩
        · simp only [Except.ok.injEq] at hxy
          obtain ⟨hf1, hf2⟩ := cloneA_fresh x n
          rw [hxy] at hf1 hf2
          exact ⟨hf1, hf2⟩
      have hbody : ∀ (x y : ANode) (X : Except String (ANode × Nat)),
          (match opts.custom.bind fun f => f path (eraseA x) (eraseA y) with
           | some r0 => (.ok (assignAddrs r0 n) : Except String (ANode × Nat))
           | none =>
             if x.kind ≠ y.kind then
               if !opts.allowTypeMismatch then
                 .error ("type mismatch at " ++ path ++ ": " ++ kindStr x.kind ++ " vs " ++
                   kindStr y.kind)
               else if opts.mode = MergeMode.override then .ok (cloneA y n) else .ok (cloneA x n)
             else X) = .ok (r, n1) →
          (X = .ok (r, n1) → n ≤ n1 ∧ ∀ z ∈ addrListA r, n ≤ z) →
          n ≤ n1 ∧ ∀ z ∈ addrListA r, n ≤ z := by
        intro x y X hX hcont
        cases hcust : opts.custom.bind fun f => f path (eraseA x) (eraseA y) with
        | some r0 =>
            rw [hcust] at hX
            dsimp only at hX
            simp only [Except.ok.injEq] at hX
            obtain ⟨hf1, hf2⟩ := assignAddrs_fresh r0 n
            rw [hX] at hf1 hf2
            exact ⟨hf1, hf2⟩
        | none =>
            rw [hcust] at hX
            dsimp only at hX
            by_cases hkind : x.kind ≠ y.kind
            · rw [if_pos hkind] at hX
              split at hX
              · exact absurd hX (by simp)
              · exact hclone _ _ hX
            · rw [if_neg hkind] at hX
              exact hcont hX
      cases a with
      | document a0 ab2 ac =>
          cases b with
          | document b0 bb2 bc =>
              rw [mergeNodesRecursiveA] at h
              refine hbody _ _ _ h fun hX => ?_
              refine mergeDocumentsA_fresh opts ab2 ac bb2 bc path ?_ n r n1 hX
              intro x hx y hy p n0 r0 n2 hm
              apply ih x y ?_ p n0 r0 n2 hm
              have h1 := List.sizeOf_lt_of_mem hx
              have h2 := List.sizeOf_lt_of_mem hy
              simp at hsz
              omega
          | scalar b0 bb2 bv bst =>
              rw [mergeNodesRecursiveA] at h
              · exact hbody _ _ _ h fun hX => hclone _ _ hX
              all_goals intros
              all_goals first
                | (rename_i hcon; exact ANode.noConfusion hcon)
                | (rename_i hcon h9; exact ANode.noConfusion hcon)
          | mapping b0 bb2 be bst =>
              rw [mergeNodesRecursiveA] at h
              · exact hbody _ _ _ h fun hX => hclone _ _ hX
              all_goals intros
              all_goals first
                | (rename_i hcon; exact ANode.noConfusion hcon)
                | (rename_i hcon h9; exact ANode.noConfusion hcon)
          | sequence b0 bb2 bc bst =>
              rw [mergeNodesRecursiveA] at h
              · exact hbody _ _ _ h fun hX => hclone _ _ hX
              all_goals intros
              all_goals first
                | (rename_i hcon; exact ANode.noConfusion hcon)
                | (rename_i hcon h9; exact ANode.noConfusion hcon)
          | «alias» b0 bb2 bi =>
              rw [mergeNodesRecursiveA] at h
              · exact hbody _ _ _ h fun hX => hclone _ _ hX
              all_goals intros
              all_goals first
                | (rename_i hcon; exact ANode.noConfusion hcon)
                | (rename_i hcon h9; exact ANode.noConfusion hcon)
      | scalar a0 ab2 av ast =>
          cases b with
          | scalar b0 bb2 bv bst =>
              rw [mergeNodesRecursiveA] at h
              refine hbody _ _ _ h fun hX => ?_
              simp only [Except.ok.injEq] at hX
              obtain ⟨hf1, hf2⟩ := mergeScalarsA_fresh opts a0 ab2 av ast b0 bb2 bv bst n
              rw [hX] at hf1 hf2
              exact ⟨hf1, hf2⟩
          | document b0 bb2 bc =>
              rw [mergeNodesRecursiveA] at h
              · exact hbody _ _ _ h fun hX => hclone _ _ hX
              all_goals intros
              all_goals first
                | (rename_i hcon; exact ANode.noConfusion hcon)
                | (rename_i hcon h9; exact ANode.noConfusion hcon)
          | mapping b0 bb2 be bst =>
              rw [mergeNodesRecursiveA] at h
              · exact hbody _ _ _ h fun hX => hclone _ _ hX
              all_goals intros
              all_goals first
                | (rename_i hcon; exact ANode.noConfusion hcon)
                | (rename_i hcon h9; exact ANode.noConfusion hcon)
          | sequence b0 bb2 bc bst =>
              rw [mergeNodesRecursiveA] at h
              · exact hbody _ _ _ h fun hX => hclone _ _ hX
              all_goals intros
              all_goals first
                | (rename_i hcon; exact ANode.noConfusion hcon)
                | (rename_i hcon h9; exact ANode.noConfusion hcon)
          | «alias» b0 bb2 bi =>
              rw [mergeNodesRecursiveA] at h
              · exact hbody _ _ _ h fun hX => hclone _ _ hX
              all_goals intros
              all_goals first
                | (rename_i hcon; exact ANode.noConfusion hcon)
                | (rename_i hcon h9; exact ANode.noConfusion hcon)
      | mapping a0 ab2 ae ast =>
          cases b with
          | mapping b0 bb2 be bst =>
              rw [mergeNodesRecursiveA] at h
              refine hbody _ _ _ h fun hX => ?_
              refine mergeMappingsA_fresh opts ab2 ae ast bb2 be path ?_ n r n1 hX
              intro k aE bE hl1 hl2 p n0 r0 n2 hm
              apply ih aE.2.1 bE.2.1 ?_ p n0 r0 n2 hm
              have h1 := lookupEntryA_sizeOf_lt hl1
              have h2 := lookupEntryA_sizeOf_lt hl2
              have h3 : sizeOf aE.2.1 < sizeOf aE := by
                obtain ⟨x1, x2, x3⟩ := aE
                simp
                omega
              have h4 : sizeOf bE.2.1 < sizeOf bE := by
                obtain ⟨x1, x2, x3⟩ := bE
                simp
                omega
              simp at hsz
              omega
          | document b0 bb2 bc =>
              rw [mergeNodesRecursiveA] at h
              · exact hbody _ _ _ h fun hX => hclone _ _ hX
              all_goals intros
              all_goals first
                | (rename_i hcon; exact ANode.noConfusion hcon)
                | (rename_i hcon h9; exact ANode.noConfusion hcon)
          | scalar b0 bb2 bv bst =>
              rw [mergeNodesRecursiveA] at h
              · exact hbody _ _ _ h fun hX => hclone _ _ hX
              all_goals intros
              all_goals first
                | (rename_i hcon; exact ANode.noConfusion hcon)
                | (rename_i hcon h9; exact ANode.noConfusion hcon)
          | sequence b0 bb2 bc bst =>
              rw [mergeNodesRecursiveA] at h
              · exact hbody _ _ _ h fun hX => hclone _ _ hX
              all_goals intros
              all_goals first
                | (rename_i hcon; exact ANode.noConfusion hcon)
                | (rename_i hcon h9; exact ANode.noConfusion hcon)
          | «alias» b0 bb2 bi =>
              rw [mergeNodesRecursiveA] at h
              · exact hbody _ _ _ h fun hX => hclone _ _ hX
              all_goals intros
              all_goals first
                | (rename_i hcon; exact ANode.noConfusion hcon)
                | (rename_i hcon h9; exact ANode.noConfusion hcon)
      | sequence a0 ab2 ac ast =>
          cases b with
          | sequence b0 bb2 bc bst =>
              rw [mergeNodesRecursiveA] at h
              refine hbody _ _ _ h fun hX => ?_
              refine mergeSequencesA_fresh opts ab2 ac ast bb2 bc path ?_ n r n1 hX
              intro x hx y hy p n0 r0 n2 hm
              apply ih x y ?_ p n0 r0 n2 hm
              have h1 := List.sizeOf_lt_of_mem hx
              have h2 := List.sizeOf_lt_of_mem hy
              simp at hsz
              omega
          | document b0 bb2 bc =>
              rw [mergeNodesRecursiveA] at h
              · exact hbody _ _ _ h fun hX => hclone _ _ hX
              all_goals intros
              all_goals first
                | (rename_i hcon; exact ANode.noConfusion hcon)
                | (rename_i hcon h9; exact ANode.noConfusion hcon)
          | scalar b0 bb2 bv bst =>
              rw [mergeNodesRecursiveA] at h
              · exact hbody _ _ _ h fun hX => hclone _ _ hX
              all_goals intros
              all_goals first
                | (rename_i hcon; exact ANode.noConfusion hcon)
                | (rename_i hcon h9; exact ANode.noConfusion hcon)
          | mapping b0 bb2 be bst =>
              rw [mergeNodesRecursiveA] at h
              · exact hbody _ _ _ h fun hX => hclone _ _ hX
              all_goals intros
              all_goals first
                | (rename_i hcon; exact ANode.noConfusion hcon)
                | (rename_i hcon h9; exact ANode.noConfusion hcon)
          | «alias» b0 bb2 bi =>
              rw [mergeNodesRecursiveA] at h
              · exact hbody _ _ _ h fun hX => hclone _ _ hX
              all_goals intros
              all_goals first
                | (rename_i hcon; exact ANode.noConfusion hcon)
                | (rename_i hcon h9; exact ANode.noConfusion hcon)
      | «alias» a0 ab2 ai =>
          cases b with
          | document b0 bb2 bc =>
              rw [mergeNodesRecursiveA] at h
              · exact hbody _ _ _ h fun hX => hclone _ _ hX
              all_goals intros
              all_goals first
                | (rename_i hcon; exact ANode.noConfusion hcon)
                | (rename_i hcon h9; exact ANode.noConfusion hcon)
          | scalar b0 bb2 bv bst =>
              rw [mergeNodesRecursiveA] at h
              · exact hbody _ _ _ h fun hX => hclone _ _ hX
              all_goals intros
              all_goals first
                | (rename_i hcon; exact ANode.noConfusion hcon)
                | (rename_i hcon h9; exact ANode.noConfusion hcon)
          | mapping b0 bb2 be bst =>
              rw [mergeNodesRecursiveA] at h
              · exact hbody _ _ _ h fun hX => hclone _ _ hX
              all_goals intros
              all_goals first
                | (rename_i hcon; exact ANode.noConfusion hcon)
                | (rename_i hcon h9; exact ANode.noConfusion hcon)
          | sequence b0 bb2 bc bst =>
              rw [mergeNodesRecursiveA] at h
              · exact hbody _ _ _ h fun hX => hclone _ _ hX
              all_goals intros
              all_goals first
                | (rename_i hcon; exact ANode.noConfusion hcon)
                | (rename_i hcon h9; exact ANode.noConfusion hcon)
          | «alias» b0 bb2 bi =>
              rw [mergeNodesRecursiveA] at h
              · exact hbody _ _ _ h fun hX => hclone _ _ hX
              all_goals intros
              all_goals first
                | (rename_i hcon; exact ANode.noConfusion hcon)
                | (rename_i hcon h9; exact ANode.noConfusion hcon)

/-- C2: the merge never hands back a struct of either input: in the
address-instrumented model, when every struct address of the two input
trees lies below the allocation counter, every struct of the returned tree
has an address at or above the counter — the output is disjoint from
(deep-cloned apart from) both inputs, so the merge's in-place comment
writes touch only fresh structs and later mutation of the result cannot
reach `a` or `b`. -/
theorem merge_no_input_aliasing (a b : ANode) (opts : MergeOptions) (n : Nat)
    (ha : ∀ y ∈ addrListA a, y < n) (hb : ∀ y ∈ addrListA b, y < n)
    (r : ANode) (n1 : Nat) (h : mergeNodesA a b opts n = .ok (r, n1)) :
    (∀ z ∈ addrListA r, z ∉ addrListA a ∧ z ∉ addrListA b) ∧ n ≤ n1 := by
  rw [mergeNodesA] at h
  have hf := mergeNodesRecursiveA_fresh opts (sizeOf a + sizeOf b) a b le_rfl "" n r n1 h
  refine ⟨?_, hf.1⟩
  intro z hz
  have hzn := hf.2 z hz
  constructor
  · intro hza
    have := ha z hza
    omega
  · intro hzb
    have := hb z hzb
    omega

/-- Witness for C2 at a concrete heap: scalars at addresses 0 and 1,
counter 2; the Deep merge returns a fresh scalar at address 2. -/
theorem merge_no_input_aliasing_witness :
    (∀ y ∈ addrListA (.scalar 0 emptyMeta "1" .plain : ANode), y < 2) ∧
    (∀ y ∈ addrListA (.scalar 1 emptyMeta "2" .plain : ANode), y < 2) ∧
    mergeNodesA (.scalar 0 emptyMeta "1" .plain) (.scalar 1 emptyMeta "2" .plain)
        ⟨.deep, .replace, false, false, false, none⟩ 2
      = .ok (.scalar 2 emptyMeta "2" .plain, 3) ∧
    ((∀ z ∈ addrListA (.scalar 2 emptyMeta "2" .plain : ANode),
        z ∉ addrListA (.scalar 0 emptyMeta "1" .plain : ANode) ∧
        z ∉ addrListA (.scalar 1 emptyMeta "2" .plain : ANode)) ∧ 2 ≤ 3) := by
  have hm : mergeNodesA (.scalar 0 emptyMeta "1" .plain) (.scalar 1 emptyMeta "2" .plain)
      ⟨.deep, .replace, false, false, false, none⟩ 2
    = .ok (.scalar 2 emptyMeta "2" .plain, 3) := by
    simp [mergeNodesA, mergeNodesRecursiveA, ANode.kind, mergeScalarsA, cloneA]
  exact ⟨by decide, by decide, hm,
    merge_no_input_aliasing _ _ _ 2 (by decide) (by decide) _ _ hm⟩

end GY
